import Mathlib

/-!
# Group selection tickets and the GJKR key-generation state chain

A shallow embedding of `pkg/beacon/membership/protocol.go` (ticket calculation
and the `sort.Interface` methods of `Tickets`, together with the library
routines they rely on: SHA-256, key serialisation, `bytes.Compare`,
`sort.Sort` and `sort.IsSorted`), of `pkg/beacon/relay/gjkr/states.go` (the
key-generation states) and of `pkg/thresholdgroup/member.go` (the members of
a threshold group), followed by the theorems that settle the properties
stated about them.

Conventions of the embedding:
* a Go `[]byte` / `[n]byte` is a `List Nat` whose entries are bytes (`< 256`);
* a Go `uint64` is a `Nat`; where the code serialises it, the bytes are taken
  modulo `2 ^ 8` of the shifted value exactly as `byte(v >> k)` does;
* a Go `(T, error)` result is an `Except String T`;
* a Go method with a pointer receiver that mutates its receiver returns the
  new receiver value.
-/

namespace Membership

/-! ## SHA-256 (`crypto/sha256.Sum256`) -/

namespace Sha256

/-- Addition of 32-bit words. -/
def add32 (a b : Nat) : Nat := (a + b) % 2 ^ 32

/-- Rotate a 32-bit word right by `n` bits. -/
def rotr (x n : Nat) : Nat := ((x >>> n) ||| (x <<< (32 - n))) % 2 ^ 32

/-- Bitwise complement of a 32-bit word. -/
def not32 (x : Nat) : Nat := (2 ^ 32 - 1) ^^^ (x % 2 ^ 32)

/-- The choice function `Ch`. -/
def ch (x y z : Nat) : Nat := (x &&& y) ^^^ (not32 x &&& z)

/-- The majority function `Maj`. -/
def maj (x y z : Nat) : Nat := (x &&& y) ^^^ (x &&& z) ^^^ (y &&& z)

/-- The function `Σ0` of the compression round. -/
def bigSigma0 (x : Nat) : Nat := rotr x 2 ^^^ rotr x 13 ^^^ rotr x 22

/-- The function `Σ1` of the compression round. -/
def bigSigma1 (x : Nat) : Nat := rotr x 6 ^^^ rotr x 11 ^^^ rotr x 25

/-- The function `σ0` of the message schedule. -/
def smallSigma0 (x : Nat) : Nat := rotr x 7 ^^^ rotr x 18 ^^^ (x >>> 3)

/-- The function `σ1` of the message schedule. -/
def smallSigma1 (x : Nat) : Nat := rotr x 17 ^^^ rotr x 19 ^^^ (x >>> 10)

/-- The round constants `_K`. -/
def K : List Nat :=
  [0x428a2f98, 0x71374491, 0xb5c0fbcf, 0xe9b5dba5, 0x3956c25b, 0x59f111f1, 0x923f82a4, 0xab1c5ed5,
   0xd807aa98, 0x12835b01, 0x243185be, 0x550c7dc3, 0x72be5d74, 0x80deb1fe, 0x9bdc06a7, 0xc19bf174,
   0xe49b69c1, 0xefbe4786, 0x0fc19dc6, 0x240ca1cc, 0x2de92c6f, 0x4a7484aa, 0x5cb0a9dc, 0x76f988da,
   0x983e5152, 0xa831c66d, 0xb00327c8, 0xbf597fc7, 0xc6e00bf3, 0xd5a79147, 0x06ca6351, 0x14292967,
   0x27b70a85, 0x2e1b2138, 0x4d2c6dfc, 0x53380d13, 0x650a7354, 0x766a0abb, 0x81c2c92e, 0x92722c85,
   0xa2bfe8a1, 0xa81a664b, 0xc24b8b70, 0xc76c51a3, 0xd192e819, 0xd6990624, 0xf40e3585, 0x106aa070,
   0x19a4c116, 0x1e376c08, 0x2748774c, 0x34b0bcb5, 0x391c0cb3, 0x4ed8aa4a, 0x5b9cca4f, 0x682e6ff3,
   0x748f82ee, 0x78a5636f, 0x84c87814, 0x8cc70208, 0x90befffa, 0xa4506ceb, 0xbef9a3f7, 0xc67178f2]

/-- The eight chaining words `h0 .. h7`. -/
structure Digest where
  h0 : Nat
  h1 : Nat
  h2 : Nat
  h3 : Nat
  h4 : Nat
  h5 : Nat
  h6 : Nat
  h7 : Nat

/-- The initial chaining value. -/
def init : Digest :=
  ⟨0x6a09e667, 0xbb67ae85, 0x3c6ef372, 0xa54ff53a, 0x510e527f, 0x9b05688c, 0x1f83d9ab, 0x5be0cd19⟩

/-- The four bytes of a 32-bit word, most significant first. -/
def be32 (w : Nat) : List Nat :=
  [(w >>> 24) % 256, (w >>> 16) % 256, (w >>> 8) % 256, w % 256]

/-- The eight bytes of a 64-bit word, most significant first. -/
def be64 (w : Nat) : List Nat :=
  [(w >>> 56) % 256, (w >>> 48) % 256, (w >>> 40) % 256, (w >>> 32) % 256,
   (w >>> 24) % 256, (w >>> 16) % 256, (w >>> 8) % 256, w % 256]

/-- Read the big-endian 32-bit words of a block. -/
def words : List Nat → List Nat
  | a :: b :: c :: d :: rest =>
      ((a % 256) * 2 ^ 24 + (b % 256) * 2 ^ 16 + (c % 256) * 2 ^ 8 + d % 256) :: words rest
  | _ => []

/-- Extend the 16 block words to the 64-entry message schedule; `n` counts
the entries still to add. -/
def schedule : Nat → List Nat → List Nat
  | 0, w => w
  | n + 1, w =>
      let t := w.length
      let v := add32 (add32 (smallSigma1 (w.getD (t - 2) 0)) (w.getD (t - 7) 0))
                 (add32 (smallSigma0 (w.getD (t - 15) 0)) (w.getD (t - 16) 0))
      schedule n (w ++ [v])

/-- One round of the compression function with schedule word `w` and round
constant `k`. -/
def round (d : Digest) (k w : Nat) : Digest :=
  let t1 := add32 (add32 (add32 (add32 d.h7 (bigSigma1 d.h4)) (ch d.h4 d.h5 d.h6)) k) w
  let t2 := add32 (bigSigma0 d.h0) (maj d.h0 d.h1 d.h2)
  ⟨add32 t1 t2, d.h0, d.h1, d.h2, add32 d.h3 t1, d.h4, d.h5, d.h6⟩

/-- Process one 64-byte block. -/
def block (d : Digest) (p : List Nat) : Digest :=
  let w := schedule 48 (words p)
  let r := (List.zip K w).foldl (fun acc kw => round acc kw.1 kw.2) d
  ⟨add32 d.h0 r.h0, add32 d.h1 r.h1, add32 d.h2 r.h2, add32 d.h3 r.h3,
   add32 d.h4 r.h4, add32 d.h5 r.h5, add32 d.h6 r.h6, add32 d.h7 r.h7⟩

/-- Message padding: a `0x80` byte, zeros up to 56 modulo 64, and the bit
length as a big-endian 64-bit word. -/
def pad (msg : List Nat) : List Nat :=
  let len := msg.length
  msg ++ [0x80] ++ List.replicate ((119 - len % 64) % 64) 0 ++ be64 ((len * 8) % 2 ^ 64)

/-- Fold `block` over the consecutive 64-byte blocks of `data`; `fuel` bounds
the number of blocks. -/
def blocks : Nat → Digest → List Nat → Digest
  | 0, d, _ => d
  | fuel + 1, d, data =>
      if data.length < 64 then d
      else blocks fuel (block d (data.take 64)) (data.drop 64)

/-- The 32-byte checksum of `data`: Go `sha256.Sum256`. -/
def Sum256 (data : List Nat) : List Nat :=
  let p := pad data
  let d := blocks (p.length / 64 + 1) init p
  be32 d.h0 ++ be32 d.h1 ++ be32 d.h2 ++ be32 d.h3 ++
  be32 d.h4 ++ be32 d.h5 ++ be32 d.h6 ++ be32 d.h7

end Sha256

/-! ## Tickets (`pkg/beacon/membership/protocol.go`) -/

/-- A `btcec.PublicKey`: the affine coordinates of a curve point. -/
structure PublicKey where
  X : Nat
  Y : Nat
  deriving DecidableEq, Repr

/-- The minimal big-endian bytes of a natural number (`big.Int.Bytes`): no
leading zero byte, empty for zero. -/
def bigBytes (x : Nat) : List Nat := (Nat.digits 256 x).reverse

/-- Append `src` to `dst`, left-padded with zero bytes to `size` bytes
(`btcec.paddedAppend`). -/
def paddedAppend (size : Nat) (dst src : List Nat) : List Nat :=
  dst ++ List.replicate (size - src.length) 0 ++ src

/-- The compressed serialisation of a public key
(`btcec.PublicKey.SerializeCompressed`): the format byte `0x02`, with bit 0
set when `Y` is odd, followed by `X` as 32 big-endian bytes. -/
def PublicKey.SerializeCompressed (p : PublicKey) : List Nat :=
  let format := if p.Y % 2 = 1 then 0x2 ||| 0x1 else 0x2
  paddedAppend 32 [format] (bigBytes p.X)

/-- Store `v` in the first eight bytes of `b`, least significant byte first
(`binary.LittleEndian.PutUint64`). -/
def PutUint64 (b : List Nat) (v : Nat) : List Nat :=
  (((((((b.set 0 (v % 256)).set 1 ((v >>> 8) % 256)).set 2 ((v >>> 16) % 256)).set 3
    ((v >>> 24) % 256)).set 4 ((v >>> 32) % 256)).set 5 ((v >>> 40) % 256)).set 6
    ((v >>> 48) % 256)).set 7 ((v >>> 56) % 256)

/-- Modelled from the spec: the declaration of the `Staker` type, which is
outside the embedded files; a StakerIdentity is "a long-lived ECDSA public key
plus a virtual-staker count", and these are the two fields `calculateTicket`
reads. `PubKey` is the key itself: the Go pointer is taken to be non-nil. -/
structure Staker where
  PubKey : PublicKey
  VirtualStakers : Nat
  deriving DecidableEq, Repr

/-- Proof consists of the components needed to construct the ticket value. -/
structure Proof where
  StakerValue : PublicKey
  VirtualStakerIndex : Nat
  deriving DecidableEq, Repr

/-- Ticket: a pseudorandomly generated value `W_k` and the proof of its
validity. -/
structure Ticket where
  Value : List Nat
  Proof : Proof
  deriving DecidableEq, Repr

/-- The byte string that `calculateTicket` hashes: beacon output, compressed
public key, and the 64-byte buffer holding the virtual staker index. -/
def combinedValue (beaconOutput : List Nat) (pubKey : PublicKey)
    (virtualStakerIndex : Nat) : List Nat :=
  let combinedValue : List Nat := []
  let combinedValue := combinedValue ++ beaconOutput
  let combinedValue := combinedValue ++ pubKey.SerializeCompressed
  let virtualStakerBytes := List.replicate 64 0
  let virtualStakerBytes := PutUint64 virtualStakerBytes virtualStakerIndex
  combinedValue ++ virtualStakerBytes

/-- Generate a ticket from the previous beacon output, the staker public key
and the virtual staker index: `Staker.calculateTicket`. -/
def Staker.calculateTicket (s : Staker) (beaconOutput : List Nat)
    (virtualStakerIndex : Nat) : Except String Ticket :=
  if virtualStakerIndex > s.VirtualStakers || virtualStakerIndex < 1 then
    .error ("virtualStakerIndex not in range [1, " ++ toString s.VirtualStakers ++ "]")
  else
    let value := Sha256.Sum256 (combinedValue beaconOutput s.PubKey virtualStakerIndex)
    .ok { Value := value
          Proof := { StakerValue := s.PubKey, VirtualStakerIndex := virtualStakerIndex } }

/-- Tickets implements `sort.Interface`. -/
abbrev Tickets := List Ticket

/-- Lexicographic three-way comparison of two byte strings (`bytes.Compare`):
`-1`, `0` or `+1`. -/
def bytesCompare : List Nat → List Nat → Int
  | [], [] => 0
  | [], _ :: _ => -1
  | _ :: _, [] => 1
  | c1 :: a, c2 :: b =>
      if c1 < c2 then -1 else if c1 > c2 then 1 else bytesCompare a b

/-- Len is the `sort.Interface` requirement for Tickets. -/
def Tickets.Len (ts : Tickets) : Nat := ts.length

/-- Swap is the `sort.Interface` requirement for Tickets; an index out of
range is a run-time panic, `none`. -/
def Tickets.Swap (ts : Tickets) (i j : Nat) : Option Tickets :=
  match ts[i]?, ts[j]? with
  | some ti, some tj => some ((ts.set i tj).set j ti)
  | _, _ => none

/-- Less is the `sort.Interface` requirement for Tickets; an index out of
range is a run-time panic, `none`. -/
def Tickets.Less (ts : Tickets) (i j : Nat) : Option Bool :=
  match ts[i]?, ts[j]? with
  | some ti, some tj =>
      let iBytes := ti.Value
      let jBytes := tj.Value
      some (match bytesCompare iBytes jBytes with
        | -1 => true
        | 1 => false
        | _ => true)
  | _, _ => none

/-- The order the specification speaks of: `a` comes strictly before `b`
when, reading from the first byte, `a` has the smaller byte at the first
position where they differ (or ends there). -/
def bytewiseLT (a b : List Nat) : Prop := List.Lex (· < ·) a b

/-- Bytewise less-or-equal: equal, or strictly before. -/
def bytewiseLE (a b : List Nat) : Prop := a = b ∨ bytewiseLT a b

/-- The number a byte string denotes when read as an unsigned big-endian
integer. -/
def bigEndian (a : List Nat) : Nat := a.foldl (fun acc c => acc * 256 + c) 0

/-- An example ticket: value `00 .. 00 01`, proof (key `(5, 7)`, index 1). -/
def ticketA : Ticket := ⟨List.replicate 31 0 ++ [1], ⟨⟨5, 7⟩, 1⟩⟩

/-- An example ticket: value `00 .. 00 02`, proof (key `(5, 7)`, index 2). -/
def ticketB : Ticket := ⟨List.replicate 31 0 ++ [2], ⟨⟨5, 7⟩, 2⟩⟩

/-- An example ticket with the value of `ticketA` and another proof: key
`(9, 4)`, index 3. -/
def ticketC : Ticket := ⟨List.replicate 31 0 ++ [1], ⟨⟨9, 4⟩, 3⟩⟩

/-- A well-formed ticket value: 32 entries, each a byte. -/
def isValue (a : List Nat) : Prop := a.length = 32 ∧ ∀ c ∈ a, c < 256

/-- The result of the `switch` in `Less` for two ticket values. -/
def lessOfValues (a b : List Nat) : Bool :=
  match bytesCompare a b with
  | -1 => true
  | 1 => false
  | _ => true

/-! ## Sorting (`sort.Sort` of the Go standard library, on `Tickets`)

The repository sorts tickets with package `sort`, to which `Tickets` hands
its methods `Len`, `Less` and `Swap`. The functions below are those of
`sort.go` as it stands in the Go releases up to 1.18: insertion sort, heap
sort and the quicksort with its pivot selection, with `data` a `Tickets`. A
Go `for` loop is a recursive function; a call of `Less` or `Swap` with an
index out of range makes the whole result `none`. -/

namespace Sorting

/-- The inner loop of `insertionSort`:
`for j := i; j > a && data.Less(j, j-1); j-- { data.Swap(j, j-1) }`. -/
def insertionSortInner (a : Nat) : Nat → Tickets → Option Tickets
  | 0, ts => some ts
  | j + 1, ts =>
      if j + 1 > a then
        match ts.Less (j + 1) j with
        | none => none
        | some false => some ts
        | some true =>
            match ts.Swap (j + 1) j with
            | none => none
            | some ts' => insertionSortInner a j ts'
      else some ts

/-- The outer loop of `insertionSort`, from index `i` on:
`for ; i < b; i++ { inner loop }`. -/
def insertionSortFrom (a b : Nat) (i : Nat) (ts : Tickets) : Option Tickets :=
  if i < b then
    match insertionSortInner a i ts with
    | none => none
    | some ts' => insertionSortFrom a b (i + 1) ts'
  else some ts
termination_by b - i

/-- Insertion sort of `data[a:b]`. -/
def insertionSort (ts : Tickets) (a b : Nat) : Option Tickets :=
  insertionSortFrom a b (a + 1) ts

/-- The loop of `siftDown` with the current `root`. -/
def siftDownLoop (hi first : Nat) (root : Nat) (ts : Tickets) : Option Tickets :=
  let child := 2 * root + 1
  if child ≥ hi then some ts
  else
    match (if child + 1 < hi then ts.Less (first + child) (first + child + 1)
           else some false) with
    | none => none
    | some lessNext =>
        let child' := if child + 1 < hi ∧ lessNext = true then child + 1 else child
        match ts.Less (first + root) (first + child') with
        | none => none
        | some false => some ts
        | some true =>
            match ts.Swap (first + root) (first + child') with
            | none => none
            | some ts' => siftDownLoop hi first child' ts'
termination_by hi - root
decreasing_by
  simp_wf
  split <;> omega

/-- siftDown implements the heap property on `data[lo, hi)`; `first` is an
offset into the array where the root of the heap lies. -/
def siftDown (ts : Tickets) (lo hi first : Nat) : Option Tickets :=
  siftDownLoop hi first lo ts

/-- The first loop of `heapSort`, with `n = i + 1` siftings still to do:
`for i := (hi - 1) / 2; i >= 0; i-- { siftDown(data, i, hi, first) }`. -/
def heapBuild (hi first : Nat) : Nat → Tickets → Option Tickets
  | 0, ts => some ts
  | i + 1, ts =>
      match siftDown ts i hi first with
      | none => none
      | some ts' => heapBuild hi first i ts'

/-- The second loop of `heapSort`, with `n = i + 1` elements still in the
heap: `for i := hi - 1; i >= 0; i-- { data.Swap(first, first+i);
siftDown(data, lo, i, first) }`. -/
def heapPop (lo first : Nat) : Nat → Tickets → Option Tickets
  | 0, ts => some ts
  | i + 1, ts =>
      match ts.Swap first (first + i) with
      | none => none
      | some ts' =>
          match siftDown ts' lo i first with
          | none => none
          | some ts'' => heapPop lo first i ts''

/-- Heap sort of `data[a:b]`. -/
def heapSort (ts : Tickets) (a b : Nat) : Option Tickets :=
  let first := a
  let lo := 0
  let hi := b - a
  match heapBuild hi first ((hi - 1) / 2 + 1) ts with
  | none => none
  | some ts' => heapPop lo first hi ts'

/-- The statement `if data.Less(i, j) { data.Swap(i, j) }`. -/
def swapIfLess (ts : Tickets) (i j : Nat) : Option Tickets :=
  match ts.Less i j with
  | none => none
  | some true => ts.Swap i j
  | some false => some ts

/-- medianOfThree moves the median of the three values `data[m0]`,
`data[m1]`, `data[m2]` into `data[m1]`. -/
def medianOfThree (ts : Tickets) (m1 m0 m2 : Nat) : Option Tickets :=
  match swapIfLess ts m1 m0 with
  | none => none
  | some ts1 =>
      match ts1.Less m2 m1 with
      | none => none
      | some false => some ts1
      | some true =>
          match ts1.Swap m2 m1 with
          | none => none
          | some ts2 => swapIfLess ts2 m1 m0

/-- The loop `for ; a < c && data.Less(a, pivot); a++ {}`; the result is the
final `a`. -/
def scanLess (ts : Tickets) (pivot c : Nat) (a : Nat) : Option Nat :=
  if a < c then
    match ts.Less a pivot with
    | none => none
    | some true => scanLess ts pivot c (a + 1)
    | some false => some a
  else some a
termination_by c - a

/-- The loop `for ; b < c && !data.Less(pivot, b); b++ {}`; the result is the
final `b`. -/
def scanNotGreater (ts : Tickets) (pivot c : Nat) (b : Nat) : Option Nat :=
  if b < c then
    match ts.Less pivot b with
    | none => none
    | some false => scanNotGreater ts pivot c (b + 1)
    | some true => some b
  else some b
termination_by c - b

/-- The loop `for ; b < c && data.Less(pivot, c-1); c-- {}`; the result is
the final `c`. -/
def scanGreater (ts : Tickets) (pivot b : Nat) : Nat → Option Nat
  | 0 => some 0
  | c + 1 =>
      if b < c + 1 then
        match ts.Less pivot c with
        | none => none
        | some true => scanGreater ts pivot b c
        | some false => some (c + 1)
      else some (c + 1)

/-- The partitioning loop of `doPivot`: scan `b` up and `c` down, exchange
the two elements found, until `b >= c`. Each round narrows the gap between
`b` and `c`; `fuel` is a bound on the number of rounds, and running out of
it yields `none`. -/
def partitionLoop (pivot : Nat) : Nat → Tickets → Nat → Nat → Option (Tickets × Nat × Nat)
  | 0, _, _, _ => none
  | fuel + 1, ts, b, c =>
      match scanNotGreater ts pivot c b with
      | none => none
      | some b =>
          match scanGreater ts pivot b c with
          | none => none
          | some c =>
              if b ≥ c then some (ts, b, c)
              else
                match ts.Swap b (c - 1) with
                | none => none
                | some ts' => partitionLoop pivot fuel ts' (b + 1) (c - 1)

/-- The loop `for ; a < b && !data.Less(b-1, pivot); b-- {}`; the result is
the final `b`. -/
def scanEqualDown (ts : Tickets) (pivot a : Nat) : Nat → Option Nat
  | 0 => some 0
  | b + 1 =>
      if a < b + 1 then
        match ts.Less b pivot with
        | none => none
        | some false => scanEqualDown ts pivot a b
        | some true => some (b + 1)
      else some (b + 1)

/-- The loop that protects against many duplicates: scan `b` down and `a`
up, exchange, until `a >= b`; the result is the data and the final `b`.
`fuel` bounds the number of rounds as in `partitionLoop`. -/
def protectLoop (pivot : Nat) : Nat → Tickets → Nat → Nat → Option (Tickets × Nat)
  | 0, _, _, _ => none
  | fuel + 1, ts, a, b =>
      match scanEqualDown ts pivot a b with
      | none => none
      | some b =>
          match scanLess ts pivot b a with
          | none => none
          | some a =>
              if a ≥ b then some (ts, b)
              else
                match ts.Swap a (b - 1) with
                | none => none
                | some ts' => protectLoop pivot fuel ts' (a + 1) (b - 1)

/-- The test of some points for equality to the pivot in `doPivot`, entered
when `!protect && hi-c < (hi-lo)/4`: the result is the data, `b`, `c` and the
new value of `protect` (`dups > 1`). -/
def testDuplicates (ts : Tickets) (pivot hi m b c : Nat) :
    Option (Tickets × Nat × Nat × Bool) :=
  let dups := 0
  match (match ts.Less pivot (hi - 1) with
         | none => none
         | some false =>
             match ts.Swap c (hi - 1) with
             | none => none
             | some ts' => some (ts', c + 1, dups + 1)
         | some true => some (ts, c, dups)) with
  | none => none
  | some (ts, c, dups) =>
      match (match ts.Less (b - 1) pivot with
             | none => none
             | some false => some (b - 1, dups + 1)
             | some true => some (b, dups)) with
      | none => none
      | some (b, dups) =>
          match ts.Less m pivot with
          | none => none
          | some false =>
              match ts.Swap m (b - 1) with
              | none => none
              | some ts' => some (ts', b - 1, c, decide (dups + 1 > 1))
          | some true => some (ts, b, c, decide (dups > 1))

/-- Tukey's "Ninther", median of three medians of three: the block of
`doPivot` entered when `hi-lo > 40`. -/
def ninther (ts : Tickets) (lo hi m : Nat) : Option Tickets :=
  let s := (hi - lo) / 8
  match medianOfThree ts lo (lo + s) (lo + 2 * s) with
  | none => none
  | some ts1 =>
      match medianOfThree ts1 m (m - s) (m + s) with
      | none => none
      | some ts2 => medianOfThree ts2 (hi - 1) (hi - 1 - s) (hi - 1 - 2 * s)

/-- Choose a pivot for `data[lo:hi]`, partition around it, and return the
bounds `midlo`, `midhi` of the middle part that holds the pivot. -/
def doPivot (ts : Tickets) (lo hi : Nat) : Option (Tickets × Nat × Nat) :=
  let m := (lo + hi) >>> 1
  match (if hi - lo > 40 then ninther ts lo hi m else some ts) with
  | none => none
  | some ts =>
      match medianOfThree ts lo m (hi - 1) with
      | none => none
      | some ts =>
          let pivot := lo
          let a := lo + 1
          let c := hi - 1
          match scanLess ts pivot c a with
          | none => none
          | some a =>
              let b := a
              match partitionLoop pivot (c - b + 1) ts b c with
              | none => none
              | some (ts, b, c) =>
                  let protect := decide (hi - c < 5)
                  match (if !protect && decide (hi - c < (hi - lo) / 4) then
                           testDuplicates ts pivot hi m b c
                         else some (ts, b, c, protect)) with
                  | none => none
                  | some (ts, b, c, protect) =>
                      match (if protect then protectLoop pivot (b - a + 1) ts a b
                             else some (ts, b)) with
                      | none => none
                      | some (ts, b) =>
                          match ts.Swap pivot (b - 1) with
                          | none => none
                          | some ts' => some (ts', b - 1, c)

/-- The ShellSort pass with gap 6 of `quickSort`, from index `i` on:
`for ; i < b; i++ { if data.Less(i, i-6) { data.Swap(i, i-6) } }`. -/
def shellPass (b : Nat) (i : Nat) (ts : Tickets) : Option Tickets :=
  if i < b then
    match ts.Less i (i - 6) with
    | none => none
    | some true =>
        match ts.Swap i (i - 6) with
        | none => none
        | some ts' => shellPass b (i + 1) ts'
    | some false => shellPass b (i + 1) ts
  else some ts
termination_by b - i

/-- The end of `quickSort`, reached with at most 12 elements: a ShellSort
pass with gap 6 and an insertion sort when `b-a > 1`. -/
def quickSortSmall (ts : Tickets) (a b : Nat) : Option Tickets :=
  if b - a > 1 then
    match shellPass b (a + 6) ts with
    | none => none
    | some ts => insertionSort ts a b
  else some ts

/-- Quicksort of `data[a:b]`, switching to heap sort when `maxDepth` reaches
zero and to insertion sort for at most 12 elements. The Go loop
`for b-a > 12` continues on one part after the recursive call on the other;
here the continuation is the second recursive call. -/
def quickSort : Nat → Tickets → Nat → Nat → Option Tickets
  | 0, ts, a, b =>
      if b - a > 12 then heapSort ts a b
      else quickSortSmall ts a b
  | maxDepth + 1, ts, a, b =>
      if b - a > 12 then
        match doPivot ts a b with
        | none => none
        | some (ts, mlo, mhi) =>
            if mlo - a < b - mhi then
              match quickSort maxDepth ts a mlo with
              | none => none
              | some ts => quickSort maxDepth ts mhi b
            else
              match quickSort maxDepth ts mhi b with
              | none => none
              | some ts => quickSort maxDepth ts a mlo
      else quickSortSmall ts a b

/-- The loop of `maxDepth`: `for i := n; i > 0; i >>= 1 { depth++ }`. -/
def maxDepthLoop (i depth : Nat) : Nat :=
  if h : i > 0 then maxDepthLoop (i >>> 1) (depth + 1) else depth
termination_by i
decreasing_by
  simp_wf
  rw [Nat.shiftRight_eq_div_pow]
  omega

/-- maxDepth returns a threshold at which quicksort should switch to
heapsort: `2*ceil(lg(n+1))`. -/
def maxDepth (n : Nat) : Nat := maxDepthLoop n 0 * 2

/-- Sort sorts data: `sort.Sort`. -/
def sortSort (ts : Tickets) : Option Tickets :=
  let n := ts.Len
  quickSort (maxDepth n) ts 0 n

/-! ### Predicates for the correctness of the sort -/

/-- The value of the ticket at index `k`; the empty string outside the list. -/
def val (ts : Tickets) (k : Nat) : List Nat := (ts[k]?.map Ticket.Value).getD []

/-- `data[a:b]` is in non-decreasing order of the values. -/
def SortedOn (a b : Nat) (ts : Tickets) : Prop :=
  ∀ i j, a ≤ i → i ≤ j → j < b → bytewiseLE (val ts i) (val ts j)

/-- `ts'` arises from `ts` by exchanging elements of `data[a:b]`: it is a
permutation, the elements outside `[a, b)` stay where they are, and whatever
holds of all values in `[a, b)` before holds of them after. -/
structure Shuffled (a b : Nat) (ts ts' : Tickets) : Prop where
  perm : ts'.Perm ts
  outside : ∀ k, k < a ∨ b ≤ k → ts'[k]? = ts[k]?
  inside : ∀ P : List Nat → Prop, (∀ k, a ≤ k → k < b → P (val ts k)) →
    ∀ k, a ≤ k → k < b → P (val ts' k)

/-- The heap property on the parents from `lo` on, for the heap `data[first:
first+hi]`: no child is greater than its parent. -/
def IsHeap (first lo hi : Nat) (ts : Tickets) : Prop :=
  ∀ r c, lo ≤ r → c < hi → (c = 2 * r + 1 ∨ c = 2 * r + 2) →
    bytewiseLE (val ts (first + c)) (val ts (first + r))

/-- `data[a:b]` is partitioned around the value `v`: values not above `v`
before `mlo`, values equal to `v` in the order from `mlo` to `mhi`, values not
below `v` from `mhi` on. -/
def Partitioned (a mlo mhi b : Nat) (v : List Nat) (ts : Tickets) : Prop :=
  (∀ k, a ≤ k → k < mlo → bytewiseLE (val ts k) v) ∧
  (∀ k, mlo ≤ k → k < mhi → bytewiseLE (val ts k) v ∧ bytewiseLE v (val ts k)) ∧
  (∀ k, mhi ≤ k → k < b → bytewiseLE v (val ts k))

end Sorting

end Membership

namespace Gjkr

/-! ## Key-generation states (`pkg/beacon/relay/gjkr/states.go`) -/

/-- A member index (`member.Index`). -/
abbrev MemberIndex := Nat

/-- Modelled from the spec: the declarations of the protocol message types,
which are outside the embedded files. Every message carries the index of its
sender and a payload; the states read only the sender (`SenderID()`), so a
message is its sender and its uninterpreted content. -/
structure PhaseMessage where
  senderID : MemberIndex
  content : List Nat
  deriving DecidableEq, Repr

/-- The dynamic type of a message payload, as the type switches in `Receive`
distinguish it; `other` stands for a payload of any other Go type. -/
inductive Payload where
  | JoinMessage (m : PhaseMessage)
  | EphemeralPublicKeyMessage (m : PhaseMessage)
  | PeerSharesMessage (m : PhaseMessage)
  | MemberCommitmentsMessage (m : PhaseMessage)
  | SecretSharesAccusationsMessage (m : PhaseMessage)
  | MemberPublicKeySharePointsMessage (m : PhaseMessage)
  | PointsAccusationsMessage (m : PhaseMessage)
  | DisqualifiedEphemeralKeysMessage (m : PhaseMessage)
  | other (typeTag : Nat) (content : List Nat)
  deriving DecidableEq, Repr

/-- A message delivered by the broadcast channel (`net.Message`). -/
structure Message where
  Payload : Payload
  deriving DecidableEq, Repr

/-- The operations of the protocol members that the states call. Their code
is in the member files of the package, outside the embedded files, so they
are parameters of the embedding; `M` is the member representation. -/
structure MemberOps (M : Type) where
  ID : M → MemberIndex
  IsSenderAccepted : M → MemberIndex → Bool
  AddToGroup : M → MemberIndex → M
  InitializeEphemeralKeysGeneration : M → M
  InitializeSymmetricKeyGeneration : M → M
  InitializeCommitting : M → M
  InitializeCommitmentsVerification : M → M
  InitializeSharesJustification : M → M
  InitializeQualified : M → M
  InitializeSharing : M → M
  InitializePointsJustification : M → M
  InitializeRevealing : M → M
  InitializeReconstruction : M → M
  InitializeCombining : M → M
  InitializeFinalization : M → M

/-- Whether the message was sent by the member itself. -/
def isMessageFromSelf (memberIndex : MemberIndex) (message : PhaseMessage) : Bool :=
  if message.senderID == memberIndex then true else false

/-- Whether the member filter accepts the sender of the message. -/
def isSenderAccepted {M : Type} (ops : MemberOps M) (filter : M)
    (message : PhaseMessage) : Bool :=
  ops.IsSenderAccepted filter message.senderID

/-- The key-generation states, each with the fields of its Go struct: the
broadcast channel, the member, and the message lists of the current and of
the previous phase. -/
inductive State (Ch M : Type) where
  | initializationState (channel : Ch) (member : M)
  | joinState (channel : Ch) (member : M)
  | ephemeralKeyPairGenerationState (channel : Ch) (member : M)
      (phaseMessages : List PhaseMessage)
  | symmetricKeyGenerationState (channel : Ch) (member : M)
      (previousPhaseMessages : List PhaseMessage)
  | commitmentState (channel : Ch) (member : M)
      (phaseSharesMessages : List PhaseMessage)
      (phaseCommitmentsMessages : List PhaseMessage)
  | commitmentsVerificationState (channel : Ch) (member : M)
      (previousPhaseSharesMessages : List PhaseMessage)
      (previousPhaseCommitmentsMessages : List PhaseMessage)
      (phaseAccusationsMessages : List PhaseMessage)
  | sharesJustificationState (channel : Ch) (member : M)
      (previousPhaseAccusationsMessages : List PhaseMessage)
  | qualificationState (channel : Ch) (member : M)
  | pointsShareState (channel : Ch) (member : M) (phaseMessages : List PhaseMessage)
  | pointsValidationState (channel : Ch) (member : M)
      (previousPhaseMessages : List PhaseMessage) (phaseMessages : List PhaseMessage)
  | pointsJustificationState (channel : Ch) (member : M)
      (previousPhaseMessages : List PhaseMessage)
  | keyRevealState (channel : Ch) (member : M) (phaseMessages : List PhaseMessage)
  | reconstructionState (channel : Ch) (member : M)
      (previousPhaseMessages : List PhaseMessage)
  | combinationState (channel : Ch) (member : M)
  | finalizationState (channel : Ch) (member : M)
  deriving DecidableEq, Repr

/-- The names of the fifteen state types. -/
inductive StateName where
  | initialization | join | ephemeralKeyPairGeneration | symmetricKeyGeneration
  | commitment | commitmentsVerification | sharesJustification | qualification
  | pointsShare | pointsValidation | pointsJustification | keyReveal
  | reconstruction | combination | finalization
  deriving DecidableEq, Repr

variable {Ch M : Type}

/-- The Go type of a state value. -/
def State.name : State Ch M → StateName
  | .initializationState .. => .initialization
  | .joinState .. => .join
  | .ephemeralKeyPairGenerationState .. => .ephemeralKeyPairGeneration
  | .symmetricKeyGenerationState .. => .symmetricKeyGeneration
  | .commitmentState .. => .commitment
  | .commitmentsVerificationState .. => .commitmentsVerification
  | .sharesJustificationState .. => .sharesJustification
  | .qualificationState .. => .qualification
  | .pointsShareState .. => .pointsShare
  | .pointsValidationState .. => .pointsValidation
  | .pointsJustificationState .. => .pointsJustification
  | .keyRevealState .. => .keyReveal
  | .reconstructionState .. => .reconstruction
  | .combinationState .. => .combination
  | .finalizationState .. => .finalization

/-- The member of a state. -/
def State.member : State Ch M → M
  | .initializationState _ m => m
  | .joinState _ m => m
  | .ephemeralKeyPairGenerationState _ m _ => m
  | .symmetricKeyGenerationState _ m _ => m
  | .commitmentState _ m _ _ => m
  | .commitmentsVerificationState _ m _ _ _ => m
  | .sharesJustificationState _ m _ => m
  | .qualificationState _ m => m
  | .pointsShareState _ m _ => m
  | .pointsValidationState _ m _ _ => m
  | .pointsJustificationState _ m _ => m
  | .keyRevealState _ m _ => m
  | .reconstructionState _ m _ => m
  | .combinationState _ m => m
  | .finalizationState _ m => m

/-- The method `MemberIndex` of every state: the ID of its member. -/
def State.MemberIndex (ops : MemberOps M) (s : State Ch M) : MemberIndex :=
  ops.ID s.member

/-- The method `Receive` of every state: the state after the call and the
returned error (`none` is Go `nil`). -/
def State.Receive (ops : MemberOps M) (s : State Ch M) (msg : Message) :
    State Ch M × Option String :=
  match s with
  | .initializationState channel member => (.initializationState channel member, none)
  | .joinState channel member =>
      match msg.Payload with
      | .JoinMessage joinMsg =>
          (.joinState channel (ops.AddToGroup member joinMsg.senderID), none)
      | _ => (.joinState channel member, none)
  | .ephemeralKeyPairGenerationState channel member phaseMessages =>
      match msg.Payload with
      | .EphemeralPublicKeyMessage phaseMessage =>
          if !isMessageFromSelf (ops.ID member) phaseMessage &&
              isSenderAccepted ops member phaseMessage then
            (.ephemeralKeyPairGenerationState channel member (phaseMessages ++ [phaseMessage]),
              none)
          else (.ephemeralKeyPairGenerationState channel member phaseMessages, none)
      | _ => (.ephemeralKeyPairGenerationState channel member phaseMessages, none)
  | .symmetricKeyGenerationState channel member previousPhaseMessages =>
      (.symmetricKeyGenerationState channel member previousPhaseMessages, none)
  | .commitmentState channel member phaseSharesMessages phaseCommitmentsMessages =>
      match msg.Payload with
      | .PeerSharesMessage phaseMessage =>
          if !isMessageFromSelf (ops.ID member) phaseMessage &&
              isSenderAccepted ops member phaseMessage then
            (.commitmentState channel member (phaseSharesMessages ++ [phaseMessage])
              phaseCommitmentsMessages, none)
          else (.commitmentState channel member phaseSharesMessages phaseCommitmentsMessages,
            none)
      | .MemberCommitmentsMessage phaseMessage =>
          if !isMessageFromSelf (ops.ID member) phaseMessage then
            (.commitmentState channel member phaseSharesMessages
              (phaseCommitmentsMessages ++ [phaseMessage]), none)
          else (.commitmentState channel member phaseSharesMessages phaseCommitmentsMessages,
            none)
      | _ => (.commitmentState channel member phaseSharesMessages phaseCommitmentsMessages, none)
  | .commitmentsVerificationState channel member previousPhaseSharesMessages
      previousPhaseCommitmentsMessages phaseAccusationsMessages =>
      match msg.Payload with
      | .SecretSharesAccusationsMessage phaseMessage =>
          if !isMessageFromSelf (ops.ID member) phaseMessage &&
              isSenderAccepted ops member phaseMessage then
            (.commitmentsVerificationState channel member previousPhaseSharesMessages
              previousPhaseCommitmentsMessages (phaseAccusationsMessages ++ [phaseMessage]),
              none)
          else (.commitmentsVerificationState channel member previousPhaseSharesMessages
            previousPhaseCommitmentsMessages phaseAccusationsMessages, none)
      | _ => (.commitmentsVerificationState channel member previousPhaseSharesMessages
            previousPhaseCommitmentsMessages phaseAccusationsMessages, none)
  | .sharesJustificationState channel member previousPhaseAccusationsMessages =>
      (.sharesJustificationState channel member previousPhaseAccusationsMessages, none)
  | .qualificationState channel member => (.qualificationState channel member, none)
  | .pointsShareState channel member phaseMessages =>
      match msg.Payload with
      | .MemberPublicKeySharePointsMessage phaseMessage =>
          if !isMessageFromSelf (ops.ID member) phaseMessage &&
              isSenderAccepted ops member phaseMessage then
            (.pointsShareState channel member (phaseMessages ++ [phaseMessage]), none)
          else (.pointsShareState channel member phaseMessages, none)
      | _ => (.pointsShareState channel member phaseMessages, none)
  | .pointsValidationState channel member previousPhaseMessages phaseMessages =>
      match msg.Payload with
      | .PointsAccusationsMessage phaseMessage =>
          if !isMessageFromSelf (ops.ID member) phaseMessage &&
              isSenderAccepted ops member phaseMessage then
            (.pointsValidationState channel member previousPhaseMessages
              (phaseMessages ++ [phaseMessage]), none)
          else (.pointsValidationState channel member previousPhaseMessages phaseMessages,
            none)
      | _ => (.pointsValidationState channel member previousPhaseMessages phaseMessages, none)
  | .pointsJustificationState channel member previousPhaseMessages =>
      (.pointsJustificationState channel member previousPhaseMessages, none)
  | .keyRevealState channel member phaseMessages =>
      match msg.Payload with
      | .DisqualifiedEphemeralKeysMessage phaseMessage =>
          if !isMessageFromSelf (ops.ID member) phaseMessage &&
              isSenderAccepted ops member phaseMessage then
            (.keyRevealState channel member (phaseMessages ++ [phaseMessage]), none)
          else (.keyRevealState channel member phaseMessages, none)
      | _ => (.keyRevealState channel member phaseMessages, none)
  | .reconstructionState channel member previousPhaseMessages =>
      (.reconstructionState channel member previousPhaseMessages, none)
  | .combinationState channel member => (.combinationState channel member, none)
  | .finalizationState channel member => (.finalizationState channel member, none)

/-- The method `Next` of every state: the following state, `none` for the
Go `nil` that `finalizationState.Next` returns. -/
def State.Next (ops : MemberOps M) : State Ch M → Option (State Ch M)
  | .initializationState channel member => some (.joinState channel member)
  | .joinState channel member =>
      some (.ephemeralKeyPairGenerationState channel
        (ops.InitializeEphemeralKeysGeneration member) [])
  | .ephemeralKeyPairGenerationState channel member phaseMessages =>
      some (.symmetricKeyGenerationState channel
        (ops.InitializeSymmetricKeyGeneration member) phaseMessages)
  | .symmetricKeyGenerationState channel member _ =>
      some (.commitmentState channel (ops.InitializeCommitting member) [] [])
  | .commitmentState channel member phaseSharesMessages phaseCommitmentsMessages =>
      some (.commitmentsVerificationState channel
        (ops.InitializeCommitmentsVerification member)
        phaseSharesMessages phaseCommitmentsMessages [])
  | .commitmentsVerificationState channel member _ _ phaseAccusationsMessages =>
      some (.sharesJustificationState channel
        (ops.InitializeSharesJustification member) phaseAccusationsMessages)
  | .sharesJustificationState channel member _ =>
      some (.qualificationState channel (ops.InitializeQualified member))
  | .qualificationState channel member =>
      some (.pointsShareState channel (ops.InitializeSharing member) [])
  | .pointsShareState channel member phaseMessages =>
      some (.pointsValidationState channel member phaseMessages [])
  | .pointsValidationState channel member _ phaseMessages =>
      some (.pointsJustificationState channel
        (ops.InitializePointsJustification member) phaseMessages)
  | .pointsJustificationState channel member _ =>
      some (.keyRevealState channel (ops.InitializeRevealing member) [])
  | .keyRevealState channel member phaseMessages =>
      some (.reconstructionState channel (ops.InitializeReconstruction member) phaseMessages)
  | .reconstructionState channel member _ =>
      some (.combinationState channel (ops.InitializeCombining member))
  | .combinationState channel member =>
      some (.finalizationState channel (ops.InitializeFinalization member))
  | .finalizationState _ _ => none

/-- The states visited by repeated `Next`, starting with `s` itself; `fuel`
bounds the number of states listed. -/
def State.chain (ops : MemberOps M) : Nat → State Ch M → List (State Ch M)
  | 0, _ => []
  | fuel + 1, s =>
      match s.Next ops with
      | some s' => s :: State.chain ops fuel s'
      | none => [s]

/-- The result of `n` calls of `Next` in a row; `none` once `Next` has
returned `nil`. -/
def State.nextN (ops : MemberOps M) : Nat → State Ch M → Option (State Ch M)
  | 0, s => some s
  | n + 1, s => (s.Next ops).bind (State.nextN ops n)

/-- The message list of a state in which it keeps the messages of the type
of payload `p`; empty when the state keeps no list for that type. -/
def State.phaseMessagesFor : State Ch M → Payload → List PhaseMessage
  | .ephemeralKeyPairGenerationState _ _ phaseMessages, .EphemeralPublicKeyMessage _ =>
      phaseMessages
  | .commitmentState _ _ phaseSharesMessages _, .PeerSharesMessage _ => phaseSharesMessages
  | .commitmentState _ _ _ phaseCommitmentsMessages, .MemberCommitmentsMessage _ =>
      phaseCommitmentsMessages
  | .commitmentsVerificationState _ _ _ _ phaseAccusationsMessages,
      .SecretSharesAccusationsMessage _ => phaseAccusationsMessages
  | .pointsShareState _ _ phaseMessages, .MemberPublicKeySharePointsMessage _ => phaseMessages
  | .pointsValidationState _ _ _ phaseMessages, .PointsAccusationsMessage _ => phaseMessages
  | .keyRevealState _ _ phaseMessages, .DisqualifiedEphemeralKeysMessage _ => phaseMessages
  | _, _ => []

/-- The protocol message a payload carries, when it is one of the eight
message types. -/
def Payload.message : Payload → Option PhaseMessage
  | .JoinMessage m => some m
  | .EphemeralPublicKeyMessage m => some m
  | .PeerSharesMessage m => some m
  | .MemberCommitmentsMessage m => some m
  | .SecretSharesAccusationsMessage m => some m
  | .MemberPublicKeySharePointsMessage m => some m
  | .PointsAccusationsMessage m => some m
  | .DisqualifiedEphemeralKeysMessage m => some m
  | .other _ _ => none

/-- The sender of a payload, when it is one of the protocol messages. -/
def Payload.sender (p : Payload) : Option MemberIndex := p.message.map (·.senderID)

/-- The message types each state declares valid, as the comments on the
state types list them. -/
def StateName.isValidPayload : StateName → Payload → Bool
  | .join, .JoinMessage _ => true
  | .ephemeralKeyPairGeneration, .EphemeralPublicKeyMessage _ => true
  | .commitment, .PeerSharesMessage _ => true
  | .commitment, .MemberCommitmentsMessage _ => true
  | .commitmentsVerification, .SecretSharesAccusationsMessage _ => true
  | .pointsShare, .MemberPublicKeySharePointsMessage _ => true
  | .pointsValidation, .PointsAccusationsMessage _ => true
  | .keyReveal, .DisqualifiedEphemeralKeysMessage _ => true
  | _, _ => false

/-- A concrete member for examples: its own index, the group it has
gathered, and the senders its filter accepts. -/
structure ExampleMember where
  ID : MemberIndex
  group : List MemberIndex
  accepted : List MemberIndex
  deriving DecidableEq, Repr

/-- Member operations over `ExampleMember`: `AddToGroup` appends to the
group, the filter accepts the listed senders, and the phase initialisers keep
the member as it is. -/
def exampleOps : MemberOps ExampleMember where
  ID := fun m => m.ID
  IsSenderAccepted := fun m sender => decide (sender ∈ m.accepted)
  AddToGroup := fun m sender => { m with group := m.group ++ [sender] }
  InitializeEphemeralKeysGeneration := id
  InitializeSymmetricKeyGeneration := id
  InitializeCommitting := id
  InitializeCommitmentsVerification := id
  InitializeSharesJustification := id
  InitializeQualified := id
  InitializeSharing := id
  InitializePointsJustification := id
  InitializeRevealing := id
  InitializeReconstruction := id
  InitializeCombining := id
  InitializeFinalization := id

/-- An example member: index 1, group `[1, 2]`, filter accepting sender 2
only. -/
def exampleMember : ExampleMember := ⟨1, [1, 2], [2]⟩

/-- Feed a sequence of messages to `Receive`, in order. -/
def State.receiveAll (ops : MemberOps M) (s : State Ch M) (msgs : List Message) : State Ch M :=
  msgs.foldl (fun st msg => (st.Receive ops msg).1) s

end Gjkr

namespace Thresholdgroup

/-! ## Threshold group members (`pkg/thresholdgroup/member.go`)

The BLS library (`go-dfinity-crypto/bls`) is outside the repository. Its
objects are modelled by the algebra they implement: an ID and a secret key are
elements of the scalar field `F`, a public key is an element of the group `G`
on which `F` acts, written additively, and `generator` is the base point, so
that the public key of the secret key `s` is `s • generator`. `Add` is the
addition of `F` or `G`, `IsEqual` is equality, and `Set` is the evaluation at
an ID of the polynomial with the given coefficients. The calls are total: the
library reports no failure to `member.go`, which ignores its return values.

A Go `map` is an association list with distinct keys; the order of its
entries is the order in which a `range` loop visits them, which Go leaves
unspecified. The zero value of a secret key is `0`, that of a list is `[]`. -/

/-- A Go map from `K` to `V`. -/
abbrev GoMap (K V : Type) := AList (fun _ : K => V)

/-- The expression `len(m)`. -/
def GoMap.len {K V : Type} (m : GoMap K V) : Nat := m.entries.length

/-- The values of a map, in the order of iteration. -/
def GoMap.values {K V : Type} (m : GoMap K V) : List V := m.entries.map (fun e => e.2)

variable {F G : Type} [CommRing F] [DecidableEq F] [AddCommGroup G] [Module F G]
  [DecidableEq G]

/-- The call `sk.Set(msk, id)` of the library: the value at `id` of the
polynomial with the coefficients `msk`, lowest degree first. -/
def secretKeySet (msk : List F) (id : F) : F :=
  msk.foldr (fun c acc => c + id * acc) 0

/-- The call `pk.Set(mpk, id)` of the library: the value at `id` of the
polynomial with the coefficients `mpk` in the group, lowest degree first. -/
def publicKeySet (mpk : List G) (id : F) : G :=
  mpk.foldr (fun c acc => c + id • acc) 0

/-- The call `sk.GetPublicKey()` of the library. -/
def getPublicKey (generator : G) (sk : F) : G := sk • generator

variable (F G)

/-- LocalMember represents one member in a threshold key sharing group, prior
to any sharing or key generation process. The `int` fields `groupSize` and
`threshold` are natural numbers: `NewMember` panics on a negative one. -/
structure LocalMember where
  ID : String
  BlsID : F
  groupSize : Nat
  threshold : Nat
  secretShares : List F
  shareCommitments : List G
  memberIDs : List F
  deriving DecidableEq

/-- SharingMember represents one member in a threshold key sharing group,
after it has a full list of `memberIDs` that belong to its threshold group. -/
structure SharingMember extends LocalMember F G where
  memberShares : GoMap F F
  commitments : GoMap F (List G)
  receivedShares : GoMap F F
  deriving DecidableEq

/-- JustifyingMember represents a threshold group member that has entered
the justification phase. -/
structure JustifyingMember extends SharingMember F G where
  accuserIDs : List F
  pendingJustificationIDs : GoMap F (GoMap F Bool)
  deriving DecidableEq

/-- Member represents a fully initialized threshold group member that is
ready to participate in group threshold signatures and signature validation. -/
structure Member extends JustifyingMember F G where
  groupPublicKey : G
  groupSecretKeyShare : F
  qualifiedMembers : List F
  deriving DecidableEq

variable {F G}

/-- RegisterMemberID adds a member to the list of group members the local
member knows about. -/
def LocalMember.RegisterMemberID (lm : LocalMember F G) (id : F) : LocalMember F G :=
  { lm with memberIDs := lm.memberIDs ++ [id] }

/-- MemberListComplete returns true if the member has a complete local member
list. -/
def LocalMember.MemberListComplete (lm : LocalMember F G) : Bool :=
  decide (lm.memberIDs.length ≥ lm.groupSize)

/-- InitializeSharing produces a SharingMember with one share of the own
secret for each member ID, and empty commitments and received shares. -/
def LocalMember.InitializeSharing (lm : LocalMember F G) : SharingMember F G :=
  let shares := lm.memberIDs.foldl
    (fun (shares : GoMap F F) memberID =>
      let memberShare := secretKeySet lm.secretShares memberID
      shares.insert memberID memberShare) ∅
  { toLocalMember := lm
    memberShares := shares
    commitments := ∅
    receivedShares := ∅ }

/-- Commitments returns the public commitments this group member has
generated. -/
def LocalMember.Commitments (lm : LocalMember F G) : List G := lm.shareCommitments

/-- OtherMemberIDs returns the BLS IDs of all members in the group except
this one. `make` panics on the negative capacity `len(sm.memberIDs)-1`, which
is `none`. -/
def SharingMember.OtherMemberIDs (sm : SharingMember F G) : Option (List F) :=
  if (sm.memberIDs.length : Int) - 1 < 0 then none
  else some (sm.memberIDs.filter (fun memberID => !decide (memberID = sm.BlsID)))

/-- SecretShareForID returns the secret share this member has generated for
the given `memberID`; the zero value when there is none. -/
def SharingMember.SecretShareForID (sm : SharingMember F G) (memberID : F) : F :=
  (sm.memberShares.lookup memberID).getD 0

/-- AddCommitmentsFromID associates the given commitments with the given
memberID. -/
def SharingMember.AddCommitmentsFromID (sm : SharingMember F G) (memberID : F)
    (commitments : List G) : SharingMember F G :=
  { sm with commitments := sm.commitments.insert memberID commitments }

/-- CommitmentsComplete returns true if all commitments expected by this
member have been seen, false otherwise. -/
def SharingMember.CommitmentsComplete (sm : SharingMember F G) : Bool :=
  decide ((GoMap.len sm.commitments : Int) = (sm.groupSize : Int) - 1)

/-- Check whether the given share is valid with respect to the sender's
public commitments as seen by this member. -/
def SharingMember.isValidShare (generator : G) (sm : SharingMember F G) (shareSenderID : F)
    (share : F) : Bool :=
  let commitments := (sm.commitments.lookup shareSenderID).getD []
  let combinedCommitment := publicKeySet commitments sm.BlsID
  let comparisonShare := getPublicKey generator share
  decide (combinedCommitment = comparisonShare)

/-- AddShareFromID associates the given secret share with the given
`senderID`, if and only if the share is valid with respect to the public
commitments the sharing member gave. -/
def SharingMember.AddShareFromID (generator : G) (sm : SharingMember F G) (senderID : F)
    (share : F) : SharingMember F G :=
  if sm.isValidShare generator senderID share then
    { sm with receivedShares := sm.receivedShares.insert senderID share }
  else sm

/-- SharesComplete returns true if all shares expected by this member have
been seen, false otherwise. -/
def SharingMember.SharesComplete (sm : SharingMember F G) : Bool :=
  decide ((GoMap.len sm.receivedShares : Int) = (sm.memberIDs.length : Int) - 1)

/-- AccusedIDs returns the list of member IDs that this member will accuse.
`make` panics on a negative capacity `len(sm.memberIDs)-len(sm.receivedShares)`
and so does the one in `OtherMemberIDs`; a panic is `none`. -/
def SharingMember.AccusedIDs (sm : SharingMember F G) : Option (List F) :=
  if (sm.memberIDs.length : Int) - (GoMap.len sm.receivedShares : Int) < 0 then none
  else
    match sm.OtherMemberIDs with
    | none => none
    | some otherIDs =>
        some (otherIDs.filter (fun memberID => (sm.receivedShares.lookup memberID).isNone))

/-- InitializeJustification switches a member from sharing mode to
justifying mode. -/
def SharingMember.InitializeJustification (sm : SharingMember F G) : JustifyingMember F G :=
  { toSharingMember := sm
    accuserIDs := []
    pendingJustificationIDs := ∅ }

/-- AddAccusationFromID registers an accusation sent by the member with the
given `senderID` against the member with id `accusedID`. -/
def JustifyingMember.AddAccusationFromID (jm : JustifyingMember F G) (senderID accusedID : F) :
    JustifyingMember F G :=
  if accusedID = jm.BlsID then
    { jm with accuserIDs := jm.accuserIDs ++ [senderID] }
  else
    let existingAccusedIDs := (jm.pendingJustificationIDs.lookup senderID).getD ∅
    { jm with
      pendingJustificationIDs :=
        jm.pendingJustificationIDs.insert senderID (existingAccusedIDs.insert accusedID true) }

/-- Justifications returns a map from accuser ID to their secret share that
is to be broadcast to justify against an accusation. -/
def JustifyingMember.Justifications (jm : JustifyingMember F G) : GoMap F F :=
  jm.accuserIDs.foldl
    (fun (justifications : GoMap F F) accuserID =>
      justifications.insert accuserID ((jm.memberShares.lookup accuserID).getD 0)) ∅

/-- RecordJustificationFromID records, from this member's perspective, a
justification from accusedID regarding an accusation from accuserID, in the
form of the secretShare that was privately exchanged between them. -/
def JustifyingMember.RecordJustificationFromID (generator : G) (jm : JustifyingMember F G)
    (accusedID accuserID : F) (secretShare : F) : JustifyingMember F G :=
  if !jm.toSharingMember.isValidShare generator accusedID secretShare then
    { jm with receivedShares := jm.receivedShares.erase accusedID }
  else
    let pending :=
      match jm.pendingJustificationIDs.lookup accuserID with
      | some pendingAccusedIDs =>
          let pendingAccusedIDs := pendingAccusedIDs.erase accusedID
          if GoMap.len pendingAccusedIDs = 0 then jm.pendingJustificationIDs.erase accuserID
          else jm.pendingJustificationIDs.insert accuserID pendingAccusedIDs
      | none => jm.pendingJustificationIDs
    if accuserID = jm.BlsID then
      { jm with
        pendingJustificationIDs := pending
        receivedShares := jm.receivedShares.insert accuserID secretShare }
    else { jm with pendingJustificationIDs := pending }

/-- The received shares after the loops of `deleteUnjustifiedShares`: the
entry of every ID that is still listed as accused is deleted. -/
def deleteAccused (pending : List (Sigma fun _ : F => GoMap F Bool)) (receivedShares : GoMap F F) :
    GoMap F F :=
  pending.foldl
    (fun (shares : GoMap F F) accuser =>
      accuser.2.keys.foldl (fun (shares : GoMap F F) accusedID => shares.erase accusedID) shares)
    receivedShares

/-- Whether `k` is listed as accused under some accuser of the pending
justifications. -/
def isPendingAccused (pending : List (Sigma fun _ : F => GoMap F Bool)) (k : F) : Bool :=
  pending.any (fun accuser => decide (k ∈ accuser.2.keys))

/-- Any entry left in pendingJustificationIDs is a member who was accused
but whose justification was not seen; their received shares are cleared. -/
def JustifyingMember.deleteUnjustifiedShares (jm : JustifyingMember F G) : JustifyingMember F G :=
  { jm with
    receivedShares := deleteAccused jm.pendingJustificationIDs.entries jm.receivedShares }

/-- The commitment `C_{i,0}` of a list of commitments: its first entry, zero
for an empty list. -/
def zeroth (commitments : List G) : G := commitments.headD 0

/-- The loop `for i, c := range src { dst[i] = c }`; an index out of range
panics, which is `none`. -/
def copyInto : List G → List G → Option (List G)
  | dst, [] => some dst
  | [], _ :: _ => none
  | _ :: dst, c :: src => (copyInto dst src).map (fun r => c :: r)

/-- The loop `for i, c := range set { dst[i].Add(&c) }`; an index out of
range panics, which is `none`. -/
def addInto : List G → List G → Option (List G)
  | dst, [] => some dst
  | [], _ :: _ => none
  | d :: dst, c :: set => (addInto dst set).map (fun r => (d + c) :: r)

/-- The loop over all recorded commitment sets of `FinalizeMember`. -/
def addAllInto (combinedCommitments : List G) : List (List G) → Option (List G)
  | [] => some combinedCommitments
  | commitmentSet :: rest =>
      match addInto combinedCommitments commitmentSet with
      | none => none
      | some combined => addAllInto combined rest

/-- FinalizeMember initializes a member that has finished the justification
phase into a Member that knows the group public key and can sign with a share
of the private key. An index out of range panics, which is `none`. -/
def JustifyingMember.FinalizeMember (jm : JustifyingMember F G) : Option (Member F G) :=
  let jm := jm.deleteUnjustifiedShares
  let initialShare := jm.toSharingMember.SecretShareForID jm.BlsID
  let groupSecretKeyShare := (GoMap.values jm.receivedShares).foldl (fun acc share => acc + share)
    initialShare
  let combinedCommitments : List G := List.replicate jm.threshold 0
  match copyInto combinedCommitments jm.shareCommitments with
  | none => none
  | some combinedCommitments =>
      match addAllInto combinedCommitments (GoMap.values jm.commitments) with
      | none => none
      | some combinedCommitments =>
          match combinedCommitments with
          | [] => none
          | groupPublicKey :: _ =>
              let qualifiedMembers := jm.receivedShares.keys
              some { toJustifyingMember := jm
                     groupSecretKeyShare := groupSecretKeyShare
                     groupPublicKey := groupPublicKey
                     qualifiedMembers := qualifiedMembers }

/-! ### Examples

A group of three members with the IDs 1, 2, 3 over the field of 11 elements,
which also serves as the group, with generator 1; the local member is member
1 and the threshold is 2. Member 1 has the secret polynomial `4 + 5x`, member
2 the polynomial `3 + 2x` and member 3 the polynomial `6 + x`, so the shares
sent to member 1 are 5 and 7. -/

/-- The local member 1 with its member list complete. -/
def exampleLocal : LocalMember (ZMod 11) (ZMod 11) :=
  { ID := "1", BlsID := 1, groupSize := 3, threshold := 2, secretShares := [4, 5],
    shareCommitments := [4, 5], memberIDs := [1, 2, 3] }

/-- Member 1 in the sharing phase, with the commitments of members 2 and 3
recorded. -/
def exampleSharing : SharingMember (ZMod 11) (ZMod 11) :=
  (exampleLocal.InitializeSharing.AddCommitmentsFromID 2 [3, 2]).AddCommitmentsFromID 3 [6, 1]

/-- Member 1 after the valid shares of members 2 and 3 have arrived. -/
def exampleShared : SharingMember (ZMod 11) (ZMod 11) :=
  (exampleSharing.AddShareFromID 1 2 5).AddShareFromID 1 3 7

/-- Member 1 knowing only itself as a group member, after commitments and
valid shares have arrived from the IDs 2 and 3. -/
def exampleUnregistered : SharingMember (ZMod 11) (ZMod 11) :=
  ((((({ exampleLocal with memberIDs := [1] } : LocalMember (ZMod 11)
    (ZMod 11)).InitializeSharing.AddCommitmentsFromID 2 [3, 2]).AddCommitmentsFromID 3
    [6, 1]).AddShareFromID 1 2 5).AddShareFromID 1 3 7)

/-- Member 1 in the justification phase after member 2 has accused member
3. -/
def exampleAccused : JustifyingMember (ZMod 11) (ZMod 11) :=
  exampleShared.InitializeJustification.AddAccusationFromID 2 3

end Thresholdgroup

namespace Gjkr

/-- The method `Initiate` of `finalizationState`: it computes and checks
nothing and returns `nil`; the state stays as it is. -/
def finalizationStateInitiate {Ch M : Type} (fs : State Ch M) : State Ch M × Option String :=
  (fs, none)

/-! ### `ActiveBlocks` and `Initiate` -/

variable {Ch M : Type}

/-- The method `ActiveBlocks` of every state. -/
def State.ActiveBlocks : State Ch M → Int
  | .initializationState .. => 3
  | .joinState .. => 3
  | .ephemeralKeyPairGenerationState .. => 3
  | .symmetricKeyGenerationState .. => 0
  | .commitmentState .. => 3
  | .commitmentsVerificationState .. => 3
  | .sharesJustificationState .. => 0
  | .qualificationState .. => 0
  | .pointsShareState .. => 3
  | .pointsValidationState .. => 3
  | .pointsJustificationState .. => 0
  | .keyRevealState .. => 1
  | .reconstructionState .. => 0
  | .combinationState .. => 0
  | .finalizationState .. => 0

/-- The channel of a state. -/
def State.channel : State Ch M → Ch
  | .initializationState c _ => c
  | .joinState c _ => c
  | .ephemeralKeyPairGenerationState c _ _ => c
  | .symmetricKeyGenerationState c _ _ => c
  | .commitmentState c _ _ _ => c
  | .commitmentsVerificationState c _ _ _ _ => c
  | .sharesJustificationState c _ _ => c
  | .qualificationState c _ => c
  | .pointsShareState c _ _ => c
  | .pointsValidationState c _ _ _ => c
  | .pointsJustificationState c _ _ => c
  | .keyRevealState c _ _ => c
  | .reconstructionState c _ _ => c
  | .combinationState c _ => c
  | .finalizationState c _ => c

/-- The broadcast channel (`net.BroadcastChannel`) is an interface whose
implementations are outside the embedded files, so its method `Send` is a
parameter of the embedding: it returns the channel after the call and the
error (`none` is Go `nil`). -/
structure ChannelOps (Ch : Type) where
  Send : Ch → Payload → Ch × Option String

/-- The member computations that the `Initiate` methods call. Their code is in
the member files of the package, outside the embedded files, so they are
parameters of the embedding. The methods have pointer receivers: each returns
the member after the call next to its Go results, an `error` result being
`Except.error`. The four `MarkInactiveMembers` methods belong to four member
types and carry the name of the state that calls them. -/
structure InitiateOps (M : Type) where
  NewJoinMessage : MemberIndex → PhaseMessage
  GenerateEphemeralKeyPair : M → M × Except String PhaseMessage
  symmetricKeyGenerationMarkInactiveMembers : M → List PhaseMessage → M
  GenerateSymmetricKeys : M → List PhaseMessage → M × Option String
  CalculateMembersSharesAndCommitments : M → M × Except String (PhaseMessage × PhaseMessage)
  commitmentsVerificationMarkInactiveMembers : M → List PhaseMessage → List PhaseMessage → M
  VerifyReceivedSharesAndCommitmentsMessages :
    M → List PhaseMessage → List PhaseMessage → M × Except String PhaseMessage
  ResolveSecretSharesAccusationsMessages :
    M → List PhaseMessage → M × Except String (List MemberIndex)
  CombineMemberShares : M → M
  CalculatePublicKeySharePoints : M → M × PhaseMessage
  pointsValidationMarkInactiveMembers : M → List PhaseMessage → M
  VerifyPublicKeySharePoints : M → List PhaseMessage → M × Except String PhaseMessage
  ResolvePublicKeySharePointsAccusationsMessages :
    M → List PhaseMessage → M × Except String (List MemberIndex)
  RevealDisqualifiedMembersKeys : M → M × Except String PhaseMessage
  reconstructionMarkInactiveMembers : M → List PhaseMessage → M
  ReconstructDisqualifiedIndividualKeys : M → List PhaseMessage → M × Option String
  CombineGroupPublicKey : M → M

/-- The method `Initiate` of every state: the state after the call, with the
channel and the member as the calls left them, and the returned error (`none`
is Go `nil`). The line that `sharesJustificationState` and
`pointsJustificationState` print to the standard output is left out. -/
def State.Initiate (ops : MemberOps M) (iops : InitiateOps M) (cops : ChannelOps Ch)
    (s : State Ch M) : State Ch M × Option String :=
  match s with
  | .initializationState channel member => (.initializationState channel member, none)
  | .joinState channel member =>
      match cops.Send channel (.JoinMessage (iops.NewJoinMessage (ops.ID member))) with
      | (channel, err) => (.joinState channel member, err)
  | .ephemeralKeyPairGenerationState channel member phaseMessages =>
      match iops.GenerateEphemeralKeyPair member with
      | (member, .error err) =>
          (.ephemeralKeyPairGenerationState channel member phaseMessages, some err)
      | (member, .ok message) =>
          match cops.Send channel (.EphemeralPublicKeyMessage message) with
          | (channel, some err) =>
              (.ephemeralKeyPairGenerationState channel member phaseMessages, some err)
          | (channel, none) =>
              (.ephemeralKeyPairGenerationState channel member phaseMessages, none)
  | .symmetricKeyGenerationState channel member previousPhaseMessages =>
      let member := iops.symmetricKeyGenerationMarkInactiveMembers member previousPhaseMessages
      match iops.GenerateSymmetricKeys member previousPhaseMessages with
      | (member, err) => (.symmetricKeyGenerationState channel member previousPhaseMessages, err)
  | .commitmentState channel member phaseSharesMessages phaseCommitmentsMessages =>
      match iops.CalculateMembersSharesAndCommitments member with
      | (member, .error err) =>
          (.commitmentState channel member phaseSharesMessages phaseCommitmentsMessages,
            some err)
      | (member, .ok (sharesMsg, commitmentsMsg)) =>
          match cops.Send channel (.PeerSharesMessage sharesMsg) with
          | (channel, some err) =>
              (.commitmentState channel member phaseSharesMessages phaseCommitmentsMessages,
                some err)
          | (channel, none) =>
              match cops.Send channel (.MemberCommitmentsMessage commitmentsMsg) with
              | (channel, some err) =>
                  (.commitmentState channel member phaseSharesMessages
                    phaseCommitmentsMessages, some err)
              | (channel, none) =>
                  (.commitmentState channel member phaseSharesMessages
                    phaseCommitmentsMessages, none)
  | .commitmentsVerificationState channel member previousPhaseSharesMessages
      previousPhaseCommitmentsMessages phaseAccusationsMessages =>
      let member := iops.commitmentsVerificationMarkInactiveMembers member
        previousPhaseSharesMessages previousPhaseCommitmentsMessages
      match iops.VerifyReceivedSharesAndCommitmentsMessages member
          previousPhaseSharesMessages previousPhaseCommitmentsMessages with
      | (member, .error err) =>
          (.commitmentsVerificationState channel member previousPhaseSharesMessages
            previousPhaseCommitmentsMessages phaseAccusationsMessages, some err)
      | (member, .ok accusationsMsg) =>
          match cops.Send channel (.SecretSharesAccusationsMessage accusationsMsg) with
          | (channel, some err) =>
              (.commitmentsVerificationState channel member previousPhaseSharesMessages
                previousPhaseCommitmentsMessages phaseAccusationsMessages, some err)
          | (channel, none) =>
              (.commitmentsVerificationState channel member previousPhaseSharesMessages
                previousPhaseCommitmentsMessages phaseAccusationsMessages, none)
  | .sharesJustificationState channel member previousPhaseAccusationsMessages =>
      match iops.ResolveSecretSharesAccusationsMessages member
          previousPhaseAccusationsMessages with
      | (member, .error err) =>
          (.sharesJustificationState channel member previousPhaseAccusationsMessages, some err)
      | (member, .ok _) =>
          (.sharesJustificationState channel member previousPhaseAccusationsMessages, none)
  | .qualificationState channel member =>
      (.qualificationState channel (iops.CombineMemberShares member), none)
  | .pointsShareState channel member phaseMessages =>
      match iops.CalculatePublicKeySharePoints member with
      | (member, message) =>
          match cops.Send channel (.MemberPublicKeySharePointsMessage message) with
          | (channel, some err) => (.pointsShareState channel member phaseMessages, some err)
          | (channel, none) => (.pointsShareState channel member phaseMessages, none)
  | .pointsValidationState channel member previousPhaseMessages phaseMessages =>
      let member := iops.pointsValidationMarkInactiveMembers member previousPhaseMessages
      match iops.VerifyPublicKeySharePoints member previousPhaseMessages with
      | (member, .error err) =>
          (.pointsValidationState channel member previousPhaseMessages phaseMessages, some err)
      | (member, .ok accusationMsg) =>
          match cops.Send channel (.PointsAccusationsMessage accusationMsg) with
          | (channel, some err) =>
              (.pointsValidationState channel member previousPhaseMessages phaseMessages,
                some err)
          | (channel, none) =>
              (.pointsValidationState channel member previousPhaseMessages phaseMessages, none)
  | .pointsJustificationState channel member previousPhaseMessages =>
      match iops.ResolvePublicKeySharePointsAccusationsMessages member
          previousPhaseMessages with
      | (member, .error err) =>
          (.pointsJustificationState channel member previousPhaseMessages, some err)
      | (member, .ok _) =>
          (.pointsJustificationState channel member previousPhaseMessages, none)
  | .keyRevealState channel member phaseMessages =>
      match iops.RevealDisqualifiedMembersKeys member with
      | (member, .error err) => (.keyRevealState channel member phaseMessages, some err)
      | (member, .ok revealMsg) =>
          match cops.Send channel (.DisqualifiedEphemeralKeysMessage revealMsg) with
          | (channel, some err) => (.keyRevealState channel member phaseMessages, some err)
          | (channel, none) => (.keyRevealState channel member phaseMessages, none)
  | .reconstructionState channel member previousPhaseMessages =>
      let member := iops.reconstructionMarkInactiveMembers member previousPhaseMessages
      match iops.ReconstructDisqualifiedIndividualKeys member previousPhaseMessages with
      | (member, some err) =>
          (.reconstructionState channel member previousPhaseMessages, some err)
      | (member, none) => (.reconstructionState channel member previousPhaseMessages, none)
  | .combinationState channel member =>
      (.combinationState channel (iops.CombineGroupPublicKey member), none)
  | .finalizationState channel member => (.finalizationState channel member, none)

/-- The state `s` with another member in the place of its own. -/
def State.withMember (s : State Ch M) (m : M) : State Ch M :=
  match s with
  | .initializationState c _ => .initializationState c m
  | .joinState c _ => .joinState c m
  | .ephemeralKeyPairGenerationState c _ l => .ephemeralKeyPairGenerationState c m l
  | .symmetricKeyGenerationState c _ l => .symmetricKeyGenerationState c m l
  | .commitmentState c _ l l' => .commitmentState c m l l'
  | .commitmentsVerificationState c _ l l' l'' => .commitmentsVerificationState c m l l' l''
  | .sharesJustificationState c _ l => .sharesJustificationState c m l
  | .qualificationState c _ => .qualificationState c m
  | .pointsShareState c _ l => .pointsShareState c m l
  | .pointsValidationState c _ l l' => .pointsValidationState c m l l'
  | .pointsJustificationState c _ l => .pointsJustificationState c m l
  | .keyRevealState c _ l => .keyRevealState c m l
  | .reconstructionState c _ l => .reconstructionState c m l
  | .combinationState c _ => .combinationState c m
  | .finalizationState c _ => .finalizationState c m

/-- The member computation that `Initiate` invokes in a state, which is the
part of `Initiate` before its first `Send`: the member after the computation,
and either the error of the computation or the messages that `Initiate` goes
on to pass to `Send`, in order. -/
def State.computation (ops : MemberOps M) (iops : InitiateOps M) :
    State Ch M → M × Except String (List Payload)
  | .initializationState _ member => (member, .ok [])
  | .joinState _ member => (member, .ok [.JoinMessage (iops.NewJoinMessage (ops.ID member))])
  | .ephemeralKeyPairGenerationState _ member _ =>
      match iops.GenerateEphemeralKeyPair member with
      | (member, .error err) => (member, .error err)
      | (member, .ok message) => (member, .ok [.EphemeralPublicKeyMessage message])
  | .symmetricKeyGenerationState _ member previousPhaseMessages =>
      match iops.GenerateSymmetricKeys
        (iops.symmetricKeyGenerationMarkInactiveMembers member previousPhaseMessages)
        previousPhaseMessages with
      | (member, some err) => (member, .error err)
      | (member, none) => (member, .ok [])
  | .commitmentState _ member _ _ =>
      match iops.CalculateMembersSharesAndCommitments member with
      | (member, .error err) => (member, .error err)
      | (member, .ok (sharesMsg, commitmentsMsg)) =>
          (member, .ok [.PeerSharesMessage sharesMsg, .MemberCommitmentsMessage commitmentsMsg])
  | .commitmentsVerificationState _ member previousPhaseSharesMessages
      previousPhaseCommitmentsMessages _ =>
      match iops.VerifyReceivedSharesAndCommitmentsMessages
        (iops.commitmentsVerificationMarkInactiveMembers member previousPhaseSharesMessages
          previousPhaseCommitmentsMessages)
        previousPhaseSharesMessages previousPhaseCommitmentsMessages with
      | (member, .error err) => (member, .error err)
      | (member, .ok accusationsMsg) =>
          (member, .ok [.SecretSharesAccusationsMessage accusationsMsg])
  | .sharesJustificationState _ member previousPhaseAccusationsMessages =>
      match iops.ResolveSecretSharesAccusationsMessages member
        previousPhaseAccusationsMessages with
      | (member, .error err) => (member, .error err)
      | (member, .ok _) => (member, .ok [])
  | .qualificationState _ member => (iops.CombineMemberShares member, .ok [])
  | .pointsShareState _ member _ =>
      match iops.CalculatePublicKeySharePoints member with
      | (member, message) => (member, .ok [.MemberPublicKeySharePointsMessage message])
  | .pointsValidationState _ member previousPhaseMessages _ =>
      match iops.VerifyPublicKeySharePoints
        (iops.pointsValidationMarkInactiveMembers member previousPhaseMessages)
        previousPhaseMessages with
      | (member, .error err) => (member, .error err)
      | (member, .ok accusationMsg) => (member, .ok [.PointsAccusationsMessage accusationMsg])
  | .pointsJustificationState _ member previousPhaseMessages =>
      match iops.ResolvePublicKeySharePointsAccusationsMessages member
        previousPhaseMessages with
      | (member, .error err) => (member, .error err)
      | (member, .ok _) => (member, .ok [])
  | .keyRevealState _ member _ =>
      match iops.RevealDisqualifiedMembersKeys member with
      | (member, .error err) => (member, .error err)
      | (member, .ok revealMsg) => (member, .ok [.DisqualifiedEphemeralKeysMessage revealMsg])
  | .reconstructionState _ member previousPhaseMessages =>
      match iops.ReconstructDisqualifiedIndividualKeys
        (iops.reconstructionMarkInactiveMembers member previousPhaseMessages)
        previousPhaseMessages with
      | (member, some err) => (member, .error err)
      | (member, none) => (member, .ok [])
  | .combinationState _ member => (iops.CombineGroupPublicKey member, .ok [])
  | .finalizationState _ member => (member, .ok [])

/-- The error of the member computation that `Initiate` invokes in a state,
`none` when the computation succeeds. -/
def State.computationError (ops : MemberOps M) (iops : InitiateOps M) (s : State Ch M) :
    Option String :=
  match (s.computation ops iops).2 with
  | .error err => some err
  | .ok _ => none

/-- The messages that `Initiate` has to broadcast in a state once its member
computation has succeeded, in order. -/
def State.messages (ops : MemberOps M) (iops : InitiateOps M) (s : State Ch M) :
    List Payload :=
  match (s.computation ops iops).2 with
  | .error _ => []
  | .ok msgs => msgs

/-- Pass the messages to `Send` one after the other and stop at the first
error: the channel after the calls and that error. -/
def ChannelOps.sendAll (cops : ChannelOps Ch) : Ch → List Payload → Ch × Option String
  | channel, [] => (channel, none)
  | channel, message :: rest =>
      match cops.Send channel message with
      | (channel, some err) => (channel, some err)
      | (channel, none) => cops.sendAll channel rest

/-- The `Send` calls made when the messages are passed to `Send` one after
the other up to the first error, each with the error returned. -/
def ChannelOps.attempts (cops : ChannelOps Ch) : Ch → List Payload → List (Payload × Option String)
  | _, [] => []
  | channel, message :: rest =>
      match cops.Send channel message with
      | (_, some err) => [(message, some err)]
      | (channel, none) => (message, none) :: cops.attempts channel rest

/-- A channel that keeps, next to the channel it wraps, the list of the
`Send` calls made on it, each with the message and the error returned. -/
def ChannelOps.recording (cops : ChannelOps Ch) :
    ChannelOps (Ch × List (Payload × Option String)) where
  Send := fun channel message =>
    (((cops.Send channel.1 message).1,
      channel.2 ++ [(message, (cops.Send channel.1 message).2)]),
     (cops.Send channel.1 message).2)

/-- The state `s` with another channel in the place of its own. -/
def State.withChannel {Ch' : Type} (s : State Ch M) (c : Ch') : State Ch' M :=
  match s with
  | .initializationState _ m => .initializationState c m
  | .joinState _ m => .joinState c m
  | .ephemeralKeyPairGenerationState _ m l => .ephemeralKeyPairGenerationState c m l
  | .symmetricKeyGenerationState _ m l => .symmetricKeyGenerationState c m l
  | .commitmentState _ m l l' => .commitmentState c m l l'
  | .commitmentsVerificationState _ m l l' l'' => .commitmentsVerificationState c m l l' l''
  | .sharesJustificationState _ m l => .sharesJustificationState c m l
  | .qualificationState _ m => .qualificationState c m
  | .pointsShareState _ m l => .pointsShareState c m l
  | .pointsValidationState _ m l l' => .pointsValidationState c m l l'
  | .pointsJustificationState _ m l => .pointsJustificationState c m l
  | .keyRevealState _ m l => .keyRevealState c m l
  | .reconstructionState _ m l => .reconstructionState c m l
  | .combinationState _ m => .combinationState c m
  | .finalizationState _ m => .finalizationState c m

/-- The `Send` calls that `Initiate` makes in state `s`, in order, each with
its message and the error returned: what the recording channel has listed
after `Initiate`, having started with an empty list. -/
def State.sends (ops : MemberOps M) (iops : InitiateOps M) (cops : ChannelOps Ch)
    (s : State Ch M) : List (Payload × Option String) :=
  (State.Initiate ops iops cops.recording
    (s.withChannel (s.channel, ([] : List (Payload × Option String))))).1.channel.2

/-- An example channel: the list of the errors its coming `Send` calls
return; once the list is used up every `Send` succeeds. -/
def scriptedChannel : ChannelOps (List (Option String)) where
  Send := fun channel _ =>
    match channel with
    | [] => ([], none)
    | err :: rest => (rest, err)

/-- Example member computations over `ExampleMember`: each leaves the member
as it is; a computation that can fail does so when the member accepts no
sender, and a message it produces has the member as its sender. -/
def exampleInitiateOps : InitiateOps ExampleMember where
  NewJoinMessage := fun id => ⟨id, []⟩
  GenerateEphemeralKeyPair := fun m =>
    (m, if m.accepted = [] then .error "no peers" else .ok ⟨m.ID, [1]⟩)
  symmetricKeyGenerationMarkInactiveMembers := fun m _ => m
  GenerateSymmetricKeys := fun m _ => (m, if m.accepted = [] then some "no peers" else none)
  CalculateMembersSharesAndCommitments := fun m =>
    (m, if m.accepted = [] then .error "no peers" else .ok (⟨m.ID, [3]⟩, ⟨m.ID, [4]⟩))
  commitmentsVerificationMarkInactiveMembers := fun m _ _ => m
  VerifyReceivedSharesAndCommitmentsMessages := fun m _ _ =>
    (m, if m.accepted = [] then .error "no peers" else .ok ⟨m.ID, [5]⟩)
  ResolveSecretSharesAccusationsMessages := fun m _ =>
    (m, if m.accepted = [] then .error "no peers" else .ok [])
  CombineMemberShares := fun m => m
  CalculatePublicKeySharePoints := fun m => (m, ⟨m.ID, [7]⟩)
  pointsValidationMarkInactiveMembers := fun m _ => m
  VerifyPublicKeySharePoints := fun m _ =>
    (m, if m.accepted = [] then .error "no peers" else .ok ⟨m.ID, [8]⟩)
  ResolvePublicKeySharePointsAccusationsMessages := fun m _ =>
    (m, if m.accepted = [] then .error "no peers" else .ok [])
  RevealDisqualifiedMembersKeys := fun m =>
    (m, if m.accepted = [] then .error "no peers" else .ok ⟨m.ID, [10]⟩)
  reconstructionMarkInactiveMembers := fun m _ => m
  ReconstructDisqualifiedIndividualKeys := fun m _ =>
    (m, if m.accepted = [] then some "no peers" else none)
  CombineGroupPublicKey := fun m => m

/-- The message list a state keeps for the messages of its phase; for
`commitmentState` the list of its `PeerSharesMessage`s. -/
def State.phaseMessages : State Ch M → List PhaseMessage
  | .ephemeralKeyPairGenerationState _ _ phaseMessages => phaseMessages
  | .commitmentState _ _ phaseSharesMessages _ => phaseSharesMessages
  | .commitmentsVerificationState _ _ _ _ phaseAccusationsMessages => phaseAccusationsMessages
  | .pointsShareState _ _ phaseMessages => phaseMessages
  | .pointsValidationState _ _ _ phaseMessages => phaseMessages
  | .keyRevealState _ _ phaseMessages => phaseMessages
  | _ => []

/-- The messages of the previous phase that a state was handed; for
`commitmentsVerificationState` the list of the `PeerSharesMessage`s. -/
def State.previousPhaseMessages : State Ch M → List PhaseMessage
  | .symmetricKeyGenerationState _ _ previousPhaseMessages => previousPhaseMessages
  | .commitmentsVerificationState _ _ previousPhaseSharesMessages _ _ =>
      previousPhaseSharesMessages
  | .sharesJustificationState _ _ previousPhaseAccusationsMessages =>
      previousPhaseAccusationsMessages
  | .pointsValidationState _ _ previousPhaseMessages _ => previousPhaseMessages
  | .pointsJustificationState _ _ previousPhaseMessages => previousPhaseMessages
  | .reconstructionState _ _ previousPhaseMessages => previousPhaseMessages
  | _ => []

/-- The specification of the retained messages: of the received messages,
those of the type that the state keeps in `phaseMessages` whose sender is not
the local member and is accepted by the filter of the member, in the order of
arrival. -/
def acceptedPhaseMessages (ops : MemberOps M) (name : StateName) (member : M)
    (msgs : List Message) : List PhaseMessage :=
  msgs.filterMap (fun msg =>
    match name, msg.Payload with
    | .ephemeralKeyPairGeneration, .EphemeralPublicKeyMessage m
    | .commitment, .PeerSharesMessage m
    | .commitmentsVerification, .SecretSharesAccusationsMessage m
    | .pointsShare, .MemberPublicKeySharePointsMessage m
    | .pointsValidation, .PointsAccusationsMessage m
    | .keyReveal, .DisqualifiedEphemeralKeysMessage m =>
        if m.senderID ≠ ops.ID member ∧ ops.IsSenderAccepted member m.senderID = true then some m
        else none
    | _, _ => none)

end Gjkr

namespace Thresholdgroup

/-! ### New members and sequences of accusations -/

variable {F G : Type} [CommRing F] [DecidableEq F] [AddCommGroup G] [Module F G]
  [DecidableEq G]

/-- NewMember creates a new member with the given id for a threshold group
with the given threshold. `blsID.SetHexString(id)` and `SetByCSPRNG()` are
calls of the library: `setHexString id` is the ID that the first leaves in
`blsID`, its error result being ignored, and `csprng i` is the secret key
drawn for the coefficient `i`. `make` panics on a negative length or
capacity, which is `none`. -/
def NewMember (generator : G) (setHexString : String → F) (csprng : Nat → F) (id : String)
    (threshold groupSize : Int) : Option (LocalMember F G) :=
  let blsID := setHexString id
  if threshold < 0 then none
  else
    let secretShares := (List.range threshold.toNat).map csprng
    let shareCommitments := secretShares.map (getPublicKey generator)
    if groupSize < 0 then none
    else
      some { ID := id
             BlsID := blsID
             groupSize := groupSize.toNat
             threshold := threshold.toNat
             secretShares := secretShares
             shareCommitments := shareCommitments
             memberIDs := [] }

/-- A sequence of `AddAccusationFromID` calls, each given by its `senderID`
and its `accusedID`. -/
def JustifyingMember.addAccusations (jm : JustifyingMember F G) (accusations : List (F × F)) :
    JustifyingMember F G :=
  accusations.foldl (fun jm accusation => jm.AddAccusationFromID accusation.1 accusation.2) jm

/-- Example of the library call `SetHexString`: the IDs "1", "2" and "3". -/
def exampleSetHexString (id : String) : ZMod 11 :=
  if id = "1" then 1 else if id = "2" then 2 else 3

/-- Example of the random draws: the coefficients 4, 5, 6 and so on. -/
def exampleCsprng (i : Nat) : ZMod 11 := (i : ZMod 11) + 4

/-! ### Threshold signatures

The signing functions of the BLS library are outside the repository. A
signature is an element of a group `S` on which the scalars act, onto which a
message is hashed by `hashToPoint`; the pairing of `S` with the group `G` of
the public keys has its values in `P`. The serialized form of a signature is
the signature itself. -/

section Signatures

variable {F G S P : Type} [Field F] [DecidableEq F] [AddCommGroup G] [Module F G]
  [DecidableEq G] [AddCommGroup S] [Module F S] [DecidableEq P]

/-- Modelled from the spec: the call `sk.Sign(message)` of the library, the
hash of the message multiplied by the secret key. -/
def secretKeySign (hashToPoint : String → S) (sk : F) (message : String) : S :=
  sk • hashToPoint message

/-- Modelled from the spec: the coefficient of the share of the ID `i` in the
Lagrange interpolation at 0 over the IDs `ids`. -/
def lagrangeCoefficient (ids : List F) (i : F) : F :=
  ((ids.filter (fun j => !decide (j = i))).map (fun j => j * (j - i)⁻¹)).prod

/-- Modelled from the spec: the call `sign.Recover(sigs, ids)` of the
library, the Lagrange interpolation at 0 of the signature shares `sigs` of the
members `ids`. -/
def signRecover (sigs : List S) (ids : List F) : S :=
  ((ids.zip sigs).map (fun share => lagrangeCoefficient ids share.1 • share.2)).sum

/-- Modelled from the spec: the call `sign.Verify(pub, message)` of the
library, the comparison of the pairing of the signature and the generator
with the pairing of the hash of the message and the public key. -/
def signVerify (pairing : S → G → P) (generator : G) (hashToPoint : String → S) (sign : S)
    (pub : G) (message : String) : Bool :=
  decide (pairing sign generator = pairing (hashToPoint message) pub)

/-- SignatureShare returns this member's share of the threshold signature
for the given message. -/
def Member.SignatureShare (hashToPoint : String → S) (m : Member F G) (message : String) : S :=
  secretKeySign hashToPoint m.groupSecretKeyShare message

/-- One round of the loop of `VerifySignature`: when there is a signature
share for the member, its ID and its share are appended to those collected. -/
def collectShare (signatureShares : GoMap F S) (collected : List F × List S) (memberID : F) :
    List F × List S :=
  match signatureShares.lookup memberID with
  | some serializedShare => (collected.1 ++ [memberID], collected.2 ++ [serializedShare])
  | none => collected

/-- The loop of `VerifySignature`: the IDs of the members, of those in
`memberIDs` and in that order, for which there is a signature share, and
their shares. -/
def collectShares (memberIDs : List F) (signatureShares : GoMap F S) : List F × List S :=
  memberIDs.foldl (collectShare signatureShares) ([], [])

/-- VerifySignature takes a message and a set of signature shares by member
ID, and verifies that the signature shares combine to a group signature that
is valid for the given message. -/
def Member.VerifySignature (pairing : S → G → P) (generator : G) (hashToPoint : String → S)
    (m : Member F G) (signatureShares : GoMap F S) (message : String) : Bool :=
  let availableIDs := (collectShares m.memberIDs signatureShares).1
  let deserializedShares := (collectShares m.memberIDs signatureShares).2
  let fullSignature := signRecover deserializedShares availableIDs
  signVerify pairing generator hashToPoint fullSignature m.groupPublicKey message

/-- The map of the signature shares of the members `signers`. -/
def signatureSharesOf (signers : List F) (share : F → S) : GoMap F S :=
  signers.foldl (fun (shares : GoMap F S) signer => shares.insert signer (share signer)) ∅

/-- The specification of an honest run up to finalization, for the member
`i` of a group whose member `k` has drawn the secret coefficients `coeffs k`:
the member has the ID `i` and the threshold `T`, knows the members of the
group, holds the commitments to its own coefficients and its own share, has
recorded from every other member of the group, and from nobody else, the
commitments to that member's coefficients and the share that member generated
for `i`, and no justification is pending. -/
def SharedHonestly (generator : G) (group : List F) (coeffs : F → List F) (T : Nat) (i : F)
    (jm : JustifyingMember F G) : Prop :=
  jm.BlsID = i ∧ jm.threshold = T ∧ jm.memberIDs.Perm group ∧
  jm.shareCommitments = (coeffs i).map (getPublicKey generator) ∧
  jm.memberShares.lookup i = some (secretKeySet (coeffs i) i) ∧
  (∀ k, jm.commitments.lookup k =
    if k ∈ group ∧ k ≠ i then some ((coeffs k).map (getPublicKey generator)) else none) ∧
  (∀ k, jm.receivedShares.lookup k =
    if k ∈ group ∧ k ≠ i then some (secretKeySet (coeffs k) i) else none) ∧
  jm.pendingJustificationIDs.entries = []

end Signatures

/-- Member 2 of the example group, whose secret polynomial is `3 + 2x`. -/
def exampleLocalOther : LocalMember (ZMod 11) (ZMod 11) :=
  { ID := "2", BlsID := 2, groupSize := 3, threshold := 2, secretShares := [3, 2],
    shareCommitments := [3, 2], memberIDs := [1, 2, 3] }

/-- Member 2 after the commitments and the valid shares of the members 1 and
3 have arrived. -/
def exampleSharedOther : SharingMember (ZMod 11) (ZMod 11) :=
  ((((exampleLocalOther.InitializeSharing.AddCommitmentsFromID 1 [4, 5]).AddCommitmentsFromID 3
    [6, 1]).AddShareFromID 1 1 3).AddShareFromID 1 3 8)

/-- Member 3 of the example group, whose secret polynomial is `6 + x`. -/
def exampleLocalThird : LocalMember (ZMod 11) (ZMod 11) :=
  { ID := "3", BlsID := 3, groupSize := 3, threshold := 2, secretShares := [6, 1],
    shareCommitments := [6, 1], memberIDs := [1, 2, 3] }

/-- Member 3 after the commitments and the valid shares of the members 1 and
2 have arrived. -/
def exampleSharedThird : SharingMember (ZMod 11) (ZMod 11) :=
  ((((exampleLocalThird.InitializeSharing.AddCommitmentsFromID 1 [4, 5]).AddCommitmentsFromID 2
    [3, 2]).AddShareFromID 1 1 8).AddShareFromID 1 2 9)

/-- The secret coefficients of the members of the example group. -/
def exampleCoeffs (i : ZMod 11) : List (ZMod 11) :=
  if i = 1 then [4, 5] else if i = 2 then [3, 2] else [6, 1]

/-- The members of the example group at the end of the sharing, by ID. -/
def exampleMembers (i : ZMod 11) : JustifyingMember (ZMod 11) (ZMod 11) :=
  if i = 1 then exampleShared.InitializeJustification
  else if i = 2 then exampleSharedOther.InitializeJustification
  else exampleSharedThird.InitializeJustification

/-- The commitments that the members of the example group generated. -/
def exampleGenerated (i : ZMod 11) : List (ZMod 11) :=
  if i = 1 then [4, 5] else if i = 2 then [3, 2] else [6, 1]

/-- Member 1 of a group in which member 3 has the constant secret polynomial
`6`, so that the share of member 3 is 6 for every member, after the shares of
the members 2 and 3 have arrived and member 2 has accused member 3. -/
def exampleAccusedConstant : JustifyingMember (ZMod 11) (ZMod 11) :=
  ((((exampleLocal.InitializeSharing.AddCommitmentsFromID 2 [3, 2]).AddCommitmentsFromID 3
    [6, 0]).AddShareFromID 1 2 5).AddShareFromID 1 3 6).InitializeJustification.AddAccusationFromID
      2 3

instance factPrimeEleven : Fact (Nat.Prime 11) := ⟨by norm_num⟩

/-- Example of the hash onto the signature group. -/
def exampleHashToPoint (message : String) : ZMod 11 := (message.length : ZMod 11) + 1

/-- Example of the pairing: the product in the field of 11 elements. -/
def examplePairing (sign pub : ZMod 11) : ZMod 11 := sign * pub

end Thresholdgroup

/-! ## The sortedness check (`sort.IsSorted` of the Go standard library) -/

namespace Membership

namespace Sorting

/-- The loop of `sort.IsSorted` from the index `i` down to 1: `false` as soon
as `Less(i, i-1)` holds; a panic of `Less` is `none`. -/
def isSortedLoop (ts : Tickets) : Nat → Option Bool
  | 0 => some true
  | i + 1 =>
      match ts.Less (i + 1) i with
      | none => none
      | some true => some false
      | some false => isSortedLoop ts i

/-- The check `sort.IsSorted` of the Go standard library on `Tickets`: it
reports whether `Less(i, i-1)` is false for every `i > 0`. -/
def sortIsSorted (ts : Tickets) : Option Bool :=
  let n := ts.Len
  isSortedLoop ts (n - 1)

end Sorting

end Membership

/-! ## Theorems: ticket calculation -/

namespace Membership

theorem Sum256_length (data : List Nat) : (Sha256.Sum256 data).length = 32 := rfl

theorem bigBytes_length_le (x : Nat) (h : x < 2 ^ 256) : (bigBytes x).length ≤ 32 := by
  unfold bigBytes
  rw [List.length_reverse]
  rcases Nat.eq_zero_or_pos x with rfl | hpos
  · simp
  · by_contra hc
    have h33 : 33 ≤ (Nat.digits 256 x).length := by omega
    have hle := Nat.base_pow_length_digits_le 256 x (by norm_num) (by omega)
    have hpow : 256 ^ 33 ≤ 256 ^ (Nat.digits 256 x).length :=
      Nat.pow_le_pow_right (by norm_num) h33
    have h' : 256 * x < 256 ^ 33 := by norm_num at h ⊢; omega
    omega

theorem SerializeCompressed_length (p : PublicKey) (h : p.X < 2 ^ 256) :
    p.SerializeCompressed.length = 33 := by
  have hb := bigBytes_length_le p.X h
  simp only [PublicKey.SerializeCompressed, paddedAppend, List.length_append,
    List.length_replicate, List.length_singleton]
  omega

theorem PutUint64_zero_buffer (v : Nat) :
    PutUint64 (List.replicate 64 0) v =
      [v % 256, (v / 2 ^ 8) % 256, (v / 2 ^ 16) % 256, (v / 2 ^ 24) % 256,
       (v / 2 ^ 32) % 256, (v / 2 ^ 40) % 256, (v / 2 ^ 48) % 256, (v / 2 ^ 56) % 256]
      ++ List.replicate 56 0 := by
  simp only [PutUint64, Nat.shiftRight_eq_div_pow]
  rfl

theorem calculateTicket_ok (s : Staker) (beaconOutput : List Nat) (v : Nat)
    (h1 : 1 ≤ v) (h2 : v ≤ s.VirtualStakers) :
    s.calculateTicket beaconOutput v =
      .ok { Value := Sha256.Sum256 (combinedValue beaconOutput s.PubKey v)
            Proof := { StakerValue := s.PubKey, VirtualStakerIndex := v } } := by
  unfold Staker.calculateTicket
  have : ¬ ((decide (v > s.VirtualStakers) || decide (v < 1)) = true) := by
    simp only [Bool.or_eq_true, decide_eq_true_eq]
    omega
  rw [if_neg this]

theorem calculateTicket_error (s : Staker) (beaconOutput : List Nat) (v : Nat)
    (h : v < 1 ∨ v > s.VirtualStakers) :
    s.calculateTicket beaconOutput v =
      .error ("virtualStakerIndex not in range [1, " ++ toString s.VirtualStakers ++ "]") := by
  unfold Staker.calculateTicket
  have : (decide (v > s.VirtualStakers) || decide (v < 1)) = true := by
    simp only [Bool.or_eq_true, decide_eq_true_eq]
    omega
  rw [if_pos this]

/-- C1: `calculateTicket` returns an error (and no ticket) exactly when the
virtual staker index is below 1 or above the staker's `VirtualStakers`; the
indices `0` and `VirtualStakers + 1` are rejected and every index in
`[1, VirtualStakers]` yields a ticket. -/
theorem calculateTicket_error_iff (s : Staker) (beaconOutput : List Nat) (v : Nat) :
    ((∃ e, s.calculateTicket beaconOutput v = .error e) ↔ (v < 1 ∨ v > s.VirtualStakers)) ∧
    ((∃ t, s.calculateTicket beaconOutput v = .ok t) ↔ (1 ≤ v ∧ v ≤ s.VirtualStakers)) ∧
    (∃ e, s.calculateTicket beaconOutput 0 = .error e) ∧
    (∃ e, s.calculateTicket beaconOutput (s.VirtualStakers + 1) = .error e) := by
  refine ⟨⟨?_, ?_⟩, ⟨?_, ?_⟩, ?_, ?_⟩
  · rintro ⟨e, he⟩
    by_contra hc
    rw [calculateTicket_ok s beaconOutput v (by omega) (by omega)] at he
    cases he
  · intro h
    exact ⟨_, calculateTicket_error s beaconOutput v h⟩
  · rintro ⟨t, ht⟩
    by_contra hc
    rw [calculateTicket_error s beaconOutput v (by omega)] at ht
    cases ht
  · rintro ⟨h1, h2⟩
    exact ⟨_, calculateTicket_ok s beaconOutput v h1 h2⟩
  · exact ⟨_, calculateTicket_error s beaconOutput 0 (by omega)⟩
  · exact ⟨_, calculateTicket_error s beaconOutput _ (by omega)⟩

/-- C2: for an index `v` in `[1, VirtualStakers]` the ticket value is the
SHA-256 checksum of the beacon output followed by the compressed public key
and a 64-byte buffer holding `v` in its first eight bytes, least significant
first, and zeros after. The compressed key of a curve point (`X` below
`2 ^ 256`) has 33 bytes, so the hashed input has `len(seed) + 97` bytes. The
ticket depends on the seed, the public key and `v` only: any staker with the
same key gives the same ticket. -/
theorem calculateTicket_value (s : Staker) (beaconOutput : List Nat) (v : Nat)
    (h1 : 1 ≤ v) (h2 : v ≤ s.VirtualStakers) :
    ∃ t, s.calculateTicket beaconOutput v = .ok t ∧
      t.Value = Sha256.Sum256 (beaconOutput ++ s.PubKey.SerializeCompressed ++
        ([v % 256, (v / 2 ^ 8) % 256, (v / 2 ^ 16) % 256, (v / 2 ^ 24) % 256,
          (v / 2 ^ 32) % 256, (v / 2 ^ 40) % 256, (v / 2 ^ 48) % 256, (v / 2 ^ 56) % 256]
          ++ List.replicate 56 0)) ∧
      t.Value.length = 32 ∧
      (s.PubKey.X < 2 ^ 256 → s.PubKey.SerializeCompressed.length = 33 ∧
        (beaconOutput ++ s.PubKey.SerializeCompressed ++
          ([v % 256, (v / 2 ^ 8) % 256, (v / 2 ^ 16) % 256, (v / 2 ^ 24) % 256,
            (v / 2 ^ 32) % 256, (v / 2 ^ 40) % 256, (v / 2 ^ 48) % 256,
            (v / 2 ^ 56) % 256] ++ List.replicate 56 0)).length =
          beaconOutput.length + 97) ∧
      ∀ s' : Staker, s'.PubKey = s.PubKey → v ≤ s'.VirtualStakers →
        s'.calculateTicket beaconOutput v = .ok t := by
  refine ⟨_, calculateTicket_ok s beaconOutput v h1 h2, ?_, ?_, ?_, ?_⟩
  · simp only [combinedValue, List.nil_append, PutUint64_zero_buffer]
  · rfl
  · intro hX
    refine ⟨SerializeCompressed_length _ hX, ?_⟩
    simp only [List.length_append, SerializeCompressed_length _ hX, List.length_replicate,
      List.length_cons, List.length_nil]
  · intro s' hpk hv'
    rw [calculateTicket_ok s' beaconOutput v h1 hv', hpk]

/-- Witness for C2: index 2 of a staker with three virtual stakers. -/
theorem calculateTicket_value_witness :
    ∃ t, (Staker.mk ⟨5, 7⟩ 3).calculateTicket [1, 2, 3] 2 = .ok t ∧
      t.Value = Sha256.Sum256 ([1, 2, 3] ++ (PublicKey.mk 5 7).SerializeCompressed ++
        ([2 % 256, (2 / 2 ^ 8) % 256, (2 / 2 ^ 16) % 256, (2 / 2 ^ 24) % 256,
          (2 / 2 ^ 32) % 256, (2 / 2 ^ 40) % 256, (2 / 2 ^ 48) % 256, (2 / 2 ^ 56) % 256]
          ++ List.replicate 56 0)) ∧
      t.Value.length = 32 ∧
      ((PublicKey.mk 5 7).X < 2 ^ 256 → (PublicKey.mk 5 7).SerializeCompressed.length = 33 ∧
        ([1, 2, 3] ++ (PublicKey.mk 5 7).SerializeCompressed ++
          ([2 % 256, (2 / 2 ^ 8) % 256, (2 / 2 ^ 16) % 256, (2 / 2 ^ 24) % 256,
            (2 / 2 ^ 32) % 256, (2 / 2 ^ 40) % 256, (2 / 2 ^ 48) % 256,
            (2 / 2 ^ 56) % 256] ++ List.replicate 56 0)).length =
          [1, 2, 3].length + 97) ∧
      ∀ s' : Staker, s'.PubKey = ⟨5, 7⟩ → 2 ≤ s'.VirtualStakers →
        s'.calculateTicket [1, 2, 3] 2 = .ok t :=
  calculateTicket_value ⟨⟨5, 7⟩, 3⟩ [1, 2, 3] 2 (by decide) (by decide)

/-- C3: an honestly calculated ticket carries the staker's public key and the
index in its proof, and calculating a ticket again from the seed and the
proof (for any staker with that public key for which the index is in range)
gives back the same value, so verification by recomputation accepts it. -/
theorem calculateTicket_proof_recompute (s : Staker) (beaconOutput : List Nat) (v : Nat)
    (h1 : 1 ≤ v) (h2 : v ≤ s.VirtualStakers) :
    ∃ t, s.calculateTicket beaconOutput v = .ok t ∧
      t.Proof.StakerValue = s.PubKey ∧ t.Proof.VirtualStakerIndex = v ∧
      ∀ s' : Staker, s'.PubKey = t.Proof.StakerValue →
        t.Proof.VirtualStakerIndex ≤ s'.VirtualStakers →
        ∃ t', s'.calculateTicket beaconOutput t.Proof.VirtualStakerIndex = .ok t' ∧
          t'.Value = t.Value ∧ t'.Proof = t.Proof := by
  refine ⟨_, calculateTicket_ok s beaconOutput v h1 h2, rfl, rfl, ?_⟩
  intro s' hpk hv'
  simp only at hpk hv' ⊢
  refine ⟨_, calculateTicket_ok s' beaconOutput v h1 hv', ?_, ?_⟩
  · simp only [hpk]
  · simp only [hpk]

/-- Witness for C3: index 2 of a staker with three virtual stakers. -/
theorem calculateTicket_proof_recompute_witness :
    ∃ t, (Staker.mk ⟨5, 7⟩ 3).calculateTicket [1, 2, 3] 2 = .ok t ∧
      t.Proof.StakerValue = ⟨5, 7⟩ ∧ t.Proof.VirtualStakerIndex = 2 ∧
      ∀ s' : Staker, s'.PubKey = t.Proof.StakerValue →
        t.Proof.VirtualStakerIndex ≤ s'.VirtualStakers →
        ∃ t', s'.calculateTicket [1, 2, 3] t.Proof.VirtualStakerIndex = .ok t' ∧
          t'.Value = t.Value ∧ t'.Proof = t.Proof :=
  calculateTicket_proof_recompute ⟨⟨5, 7⟩, 3⟩ [1, 2, 3] 2 (by decide) (by decide)

end Membership

/-! ## Theorems: the order of tickets -/

namespace Membership

theorem bytesCompare_cases (a b : List Nat) :
    bytesCompare a b = -1 ∨ bytesCompare a b = 0 ∨ bytesCompare a b = 1 := by
  induction a generalizing b with
  | nil => cases b <;> simp [bytesCompare]
  | cons c1 a ih =>
    cases b with
    | nil => simp [bytesCompare]
    | cons c2 b =>
      simp only [bytesCompare]
      split
      · simp
      · split
        · simp
        · exact ih b

theorem bytesCompare_eq_neg_one_iff (a b : List Nat) :
    bytesCompare a b = -1 ↔ bytewiseLT a b := by
  unfold bytewiseLT
  induction a generalizing b with
  | nil =>
    cases b with
    | nil => simp [bytesCompare]
    | cons c2 b => simp [bytesCompare, List.Lex.nil]
  | cons c1 a ih =>
    cases b with
    | nil => simp [bytesCompare]
    | cons c2 b =>
      simp only [bytesCompare]
      constructor
      · intro h
        split at h
        · exact List.Lex.rel (by assumption)
        · split at h
          · simp at h
          · have hc : c1 = c2 := by omega
            subst hc
            exact List.Lex.cons ((ih b).1 h)
      · intro h
        cases h with
        | cons h' =>
          simp only [lt_self_iff_false, if_false, gt_iff_lt]
          exact (ih b).2 h'
        | rel h' => simp [h']

theorem bytesCompare_eq_zero_iff (a b : List Nat) : bytesCompare a b = 0 ↔ a = b := by
  induction a generalizing b with
  | nil => cases b <;> simp [bytesCompare]
  | cons c1 a ih =>
    cases b with
    | nil => simp [bytesCompare]
    | cons c2 b =>
      simp only [bytesCompare, List.cons.injEq]
      constructor
      · intro h
        split at h
        · simp at h
        · split at h
          · simp at h
          · exact ⟨by omega, (ih b).1 h⟩
      · rintro ⟨rfl, rfl⟩
        simp only [lt_self_iff_false, if_false, gt_iff_lt]
        exact (ih a).2 rfl

theorem bytesCompare_eq_one_iff (a b : List Nat) :
    bytesCompare a b = 1 ↔ bytewiseLT b a := by
  unfold bytewiseLT
  induction a generalizing b with
  | nil => cases b <;> simp [bytesCompare]
  | cons c1 a ih =>
    cases b with
    | nil => simp [bytesCompare, List.Lex.nil]
    | cons c2 b =>
      simp only [bytesCompare]
      constructor
      · intro h
        split at h
        · simp at h
        · split at h
          · exact List.Lex.rel (by assumption)
          · have hc : c1 = c2 := by omega
            subst hc
            exact List.Lex.cons ((ih b).1 h)
      · intro h
        cases h with
        | cons h' =>
          simp only [lt_self_iff_false, if_false, gt_iff_lt]
          exact (ih b).2 h'
        | rel h' =>
          have : ¬ c1 < c2 := by omega
          simp [this, h']

theorem bytewiseLT_irrefl (a : List Nat) : ¬ bytewiseLT a a := by
  intro h
  have h1 := (bytesCompare_eq_neg_one_iff a a).2 h
  have h0 := (bytesCompare_eq_zero_iff a a).2 rfl
  omega

theorem bytewiseLT_asymm (a b : List Nat) : bytewiseLT a b → ¬ bytewiseLT b a := by
  intro h h'
  have h1 := (bytesCompare_eq_neg_one_iff a b).2 h
  have h2 := (bytesCompare_eq_one_iff a b).2 h'
  omega

theorem bytewiseLE_iff_not_gt (a b : List Nat) : bytewiseLE a b ↔ ¬ bytewiseLT b a := by
  unfold bytewiseLE
  constructor
  · rintro (rfl | h)
    · exact bytewiseLT_irrefl a
    · exact bytewiseLT_asymm a b h
  · intro h
    rcases bytesCompare_cases a b with h1 | h0 | h1
    · exact Or.inr ((bytesCompare_eq_neg_one_iff a b).1 h1)
    · exact Or.inl ((bytesCompare_eq_zero_iff a b).1 h0)
    · exact absurd ((bytesCompare_eq_one_iff a b).1 h1) h

theorem bytewiseLE_total (a b : List Nat) : bytewiseLE a b ∨ bytewiseLE b a := by
  rcases bytesCompare_cases a b with h1 | h0 | h1
  · exact Or.inl (Or.inr ((bytesCompare_eq_neg_one_iff a b).1 h1))
  · exact Or.inl (Or.inl ((bytesCompare_eq_zero_iff a b).1 h0))
  · exact Or.inr (Or.inr ((bytesCompare_eq_one_iff a b).1 h1))

theorem bytewiseLT_trans {a b c : List Nat} (h1 : bytewiseLT a b) (h2 : bytewiseLT b c) :
    bytewiseLT a c := by
  unfold bytewiseLT at *
  induction h1 generalizing c with
  | nil => cases h2 <;> exact List.Lex.nil
  | cons _ ih =>
    cases h2 with
    | cons h => exact List.Lex.cons (ih h)
    | rel h => exact List.Lex.rel h
  | rel hr =>
    cases h2 with
    | cons h => exact List.Lex.rel hr
    | rel h => exact List.Lex.rel (lt_trans hr h)

theorem bytewiseLE_trans {a b c : List Nat} (h1 : bytewiseLE a b) (h2 : bytewiseLE b c) :
    bytewiseLE a c := by
  rcases h1 with rfl | h1
  · exact h2
  · rcases h2 with rfl | h2
    · exact Or.inr h1
    · exact Or.inr (bytewiseLT_trans h1 h2)

theorem lessOfValues_eq_true_iff (a b : List Nat) : lessOfValues a b = true ↔ bytewiseLE a b := by
  unfold lessOfValues
  rcases bytesCompare_cases a b with h | h | h
  · rw [h]
    simp only [true_iff]
    exact Or.inr ((bytesCompare_eq_neg_one_iff a b).1 h)
  · rw [h]
    simp only [true_iff]
    exact Or.inl ((bytesCompare_eq_zero_iff a b).1 h)
  · rw [h]
    simp only [Bool.false_eq_true, false_iff]
    rw [bytewiseLE_iff_not_gt, not_not]
    exact (bytesCompare_eq_one_iff a b).1 h

theorem lessOfValues_eq_false_iff (a b : List Nat) :
    lessOfValues a b = false ↔ bytewiseLT b a := by
  rw [← Bool.not_eq_true, lessOfValues_eq_true_iff, bytewiseLE_iff_not_gt, not_not]

theorem Less_eq_some (ts : Tickets) (i j : Nat) (hi : i < ts.length) (hj : j < ts.length) :
    Tickets.Less ts i j = some (lessOfValues ts[i].Value ts[j].Value) := by
  unfold Tickets.Less lessOfValues
  rw [List.getElem?_eq_getElem hi, List.getElem?_eq_getElem hj]

end Membership

namespace Membership

theorem bigEndian_foldl (acc : Nat) (a : List Nat) :
    a.foldl (fun acc c => acc * 256 + c) acc = acc * 256 ^ a.length + bigEndian a := by
  unfold bigEndian
  induction a generalizing acc with
  | nil => simp
  | cons c a ih =>
    simp only [List.foldl_cons, List.length_cons]
    rw [ih (acc * 256 + c), ih (0 * 256 + c)]
    ring

theorem bigEndian_cons (c : Nat) (a : List Nat) :
    bigEndian (c :: a) = c * 256 ^ a.length + bigEndian a := by
  have h := bigEndian_foldl c a
  unfold bigEndian at *
  simpa using h

theorem bigEndian_lt (a : List Nat) (h : ∀ c ∈ a, c < 256) : bigEndian a < 256 ^ a.length := by
  induction a with
  | nil => simp [bigEndian]
  | cons c a ih =>
    rw [bigEndian_cons, List.length_cons, pow_succ]
    have hc : c < 256 := h c (List.mem_cons_self _ _)
    have ha := ih (fun x hx => h x (List.mem_cons_of_mem _ hx))
    nlinarith

theorem bytewiseLT_iff_bigEndian_lt (a b : List Nat) (hlen : a.length = b.length)
    (ha : ∀ c ∈ a, c < 256) (hb : ∀ c ∈ b, c < 256) :
    bytewiseLT a b ↔ bigEndian a < bigEndian b := by
  unfold bytewiseLT
  induction a generalizing b with
  | nil =>
    cases b with
    | nil => simp [bigEndian]
    | cons c2 b => simp at hlen
  | cons c1 a ih =>
    cases b with
    | nil => simp at hlen
    | cons c2 b =>
      have hlen' : a.length = b.length := by simpa using hlen
      have ha' := fun x hx => ha x (List.mem_cons_of_mem _ hx)
      have hb' := fun x hx => hb x (List.mem_cons_of_mem _ hx)
      have hA := bigEndian_lt a ha'
      have hB := bigEndian_lt b hb'
      rw [bigEndian_cons, bigEndian_cons, hlen']
      rw [hlen'] at hA
      constructor
      · intro h
        cases h with
        | cons h' =>
          have := (ih b hlen' ha' hb').1 h'
          omega
        | rel h' =>
          have : (c1 + 1) * 256 ^ b.length ≤ c2 * 256 ^ b.length :=
            Nat.mul_le_mul_right _ h'
          nlinarith
      · intro h
        rcases Nat.lt_trichotomy c1 c2 with hlt | heq | hgt
        · exact List.Lex.rel hlt
        · subst heq
          exact List.Lex.cons ((ih b hlen' ha' hb').2 (by omega))
        · exfalso
          have : (c2 + 1) * 256 ^ b.length ≤ c1 * 256 ^ b.length :=
            Nat.mul_le_mul_right _ hgt
          nlinarith

theorem bigEndian_injective (a b : List Nat) (hlen : a.length = b.length)
    (ha : ∀ c ∈ a, c < 256) (hb : ∀ c ∈ b, c < 256) (h : bigEndian a = bigEndian b) :
    a = b := by
  rcases bytesCompare_cases a b with h1 | h0 | h1
  · have := (bytewiseLT_iff_bigEndian_lt a b hlen ha hb).1
      ((bytesCompare_eq_neg_one_iff a b).1 h1)
    omega
  · exact (bytesCompare_eq_zero_iff a b).1 h0
  · have := (bytewiseLT_iff_bigEndian_lt b a hlen.symm hb ha).1
      ((bytesCompare_eq_one_iff a b).1 h1)
    omega

theorem bytewiseLE_iff_bigEndian_le (a b : List Nat) (ha : isValue a) (hb : isValue b) :
    bytewiseLE a b ↔ bigEndian a ≤ bigEndian b := by
  have hlen : b.length = a.length := by rw [ha.1, hb.1]
  rw [bytewiseLE_iff_not_gt, bytewiseLT_iff_bigEndian_lt b a hlen hb.2 ha.2]
  omega

/-- C4: for in-range indices, `Less(i, j)` is true exactly when the value of
ticket `i` is bytewise less than or equal to the value of ticket `j`; it is
true when the two values are equal, so `Less(i, i)` is true, and false exactly
when the value of ticket `i` is the greater one. For well-formed 32-byte
values this is the comparison of the values as unsigned big-endian numbers. -/
theorem Less_iff_bytewiseLE (ts : Tickets) (i j : Nat) (hi : i < ts.length)
    (hj : j < ts.length) :
    (Tickets.Less ts i j = some true ↔ bytewiseLE ts[i].Value ts[j].Value) ∧
    (Tickets.Less ts i j = some false ↔ bytewiseLT ts[j].Value ts[i].Value) ∧
    (Tickets.Less ts i j = some true ∨ Tickets.Less ts i j = some false) ∧
    (ts[i].Value = ts[j].Value → Tickets.Less ts i j = some true) ∧
    Tickets.Less ts i i = some true ∧
    (isValue ts[i].Value → isValue ts[j].Value →
      (Tickets.Less ts i j = some true ↔ bigEndian ts[i].Value ≤ bigEndian ts[j].Value)) := by
  have hT : Tickets.Less ts i j = some true ↔ bytewiseLE ts[i].Value ts[j].Value := by
    rw [Less_eq_some ts i j hi hj, Option.some.injEq, lessOfValues_eq_true_iff]
  refine ⟨hT, ?_, ?_, ?_, ?_, ?_⟩
  · rw [Less_eq_some ts i j hi hj, Option.some.injEq, lessOfValues_eq_false_iff]
  · rw [Less_eq_some ts i j hi hj]
    cases lessOfValues ts[i].Value ts[j].Value <;> simp
  · intro h
    exact hT.2 (Or.inl h)
  · rw [Less_eq_some ts i i hi hi, Option.some.injEq, lessOfValues_eq_true_iff]
    exact Or.inl rfl
  · intro hvi hvj
    rw [hT, bytewiseLE_iff_bigEndian_le _ _ hvi hvj]

end Membership

namespace Membership

/-- Witness for C4: the tickets `ticketA`, `ticketB` at indices 0 and 1. -/
theorem Less_iff_bytewiseLE_witness :
    (Tickets.Less [ticketA, ticketB] 0 1 = some true ↔
      bytewiseLE [ticketA, ticketB][0].Value [ticketA, ticketB][1].Value) ∧
    (Tickets.Less [ticketA, ticketB] 0 1 = some false ↔
      bytewiseLT [ticketA, ticketB][1].Value [ticketA, ticketB][0].Value) ∧
    (Tickets.Less [ticketA, ticketB] 0 1 = some true ∨
      Tickets.Less [ticketA, ticketB] 0 1 = some false) ∧
    ([ticketA, ticketB][0].Value = [ticketA, ticketB][1].Value →
      Tickets.Less [ticketA, ticketB] 0 1 = some true) ∧
    Tickets.Less [ticketA, ticketB] 0 0 = some true ∧
    (isValue [ticketA, ticketB][0].Value → isValue [ticketA, ticketB][1].Value →
      (Tickets.Less [ticketA, ticketB] 0 1 = some true ↔
        bigEndian [ticketA, ticketB][0].Value ≤ bigEndian [ticketA, ticketB][1].Value)) :=
  Less_iff_bytewiseLE [ticketA, ticketB] 0 1 (by decide) (by decide)

/-- Counterexample for C5: on the list `[ticketA, ticketC]`, two tickets with
equal values and different proofs, `Less(0, 0)` is true, and `Less(0, 1)` and
`Less(1, 0)` are both true; the same holds with the two tickets exchanged, so
the public key and the index decide nothing. -/
theorem Less_strict_order_counterexample :
    Tickets.Less [ticketA, ticketC] 0 0 = some true ∧
    (Tickets.Less [ticketA, ticketC] 0 1 = some true ∧
      Tickets.Less [ticketA, ticketC] 1 0 = some true) ∧
    ticketA.Value = ticketC.Value ∧ ticketA.Proof ≠ ticketC.Proof ∧
    (Tickets.Less [ticketC, ticketA] 0 1 = some true ∧
      Tickets.Less [ticketC, ticketA] 1 0 = some true) := by
  decide

/-- C5 (amended): `Less` orders the tickets by their values alone. For two
tickets with different values exactly one of `Less(i, j)` and `Less(j, i)` is
true, and the result is the same for any list with the same values, whatever
the proofs (public key, virtual staker index) of its tickets are. -/
theorem Less_orders_by_value_only (ts : Tickets) (i j : Nat) (hi : i < ts.length)
    (hj : j < ts.length) :
    (ts[i].Value ≠ ts[j].Value →
      (Tickets.Less ts i j = some true ∧ Tickets.Less ts j i = some false) ∨
      (Tickets.Less ts i j = some false ∧ Tickets.Less ts j i = some true)) ∧
    (∀ ts' : Tickets, ts'.map Ticket.Value = ts.map Ticket.Value →
      Tickets.Less ts' i j = Tickets.Less ts i j) := by
  constructor
  · intro hne
    rw [Less_eq_some ts i j hi hj, Less_eq_some ts j i hj hi]
    simp only [Option.some.injEq, lessOfValues_eq_true_iff, lessOfValues_eq_false_iff]
    rcases bytesCompare_cases ts[i].Value ts[j].Value with h | h | h
    · have hlt := (bytesCompare_eq_neg_one_iff _ _).1 h
      exact Or.inl ⟨Or.inr hlt, hlt⟩
    · exact absurd ((bytesCompare_eq_zero_iff _ _).1 h) hne
    · have hlt := (bytesCompare_eq_one_iff _ _).1 h
      exact Or.inr ⟨hlt, Or.inr hlt⟩
  · intro ts' hmap
    have hlen : ts'.length = ts.length := by
      have := congrArg List.length hmap
      simpa using this
    have hi' : i < ts'.length := by omega
    have hj' : j < ts'.length := by omega
    have hvi : ts'[i].Value = ts[i].Value := by
      have h1 : (ts'.map Ticket.Value)[i]? = (ts.map Ticket.Value)[i]? := by rw [hmap]
      simpa [List.getElem?_map, List.getElem?_eq_getElem hi, List.getElem?_eq_getElem hi']
        using h1
    have hvj : ts'[j].Value = ts[j].Value := by
      have h1 : (ts'.map Ticket.Value)[j]? = (ts.map Ticket.Value)[j]? := by rw [hmap]
      simpa [List.getElem?_map, List.getElem?_eq_getElem hj, List.getElem?_eq_getElem hj']
        using h1
    rw [Less_eq_some ts i j hi hj, Less_eq_some ts' i j hi' hj', hvi, hvj]

/-- Witness for C5 (amended): the tickets `ticketA`, `ticketB`. -/
theorem Less_orders_by_value_only_witness :
    ([ticketA, ticketB][0].Value ≠ [ticketA, ticketB][1].Value →
      (Tickets.Less [ticketA, ticketB] 0 1 = some true ∧
        Tickets.Less [ticketA, ticketB] 1 0 = some false) ∨
      (Tickets.Less [ticketA, ticketB] 0 1 = some false ∧
        Tickets.Less [ticketA, ticketB] 1 0 = some true)) ∧
    (∀ ts' : Tickets, ts'.map Ticket.Value = [ticketA, ticketB].map Ticket.Value →
      Tickets.Less ts' 0 1 = Tickets.Less [ticketA, ticketB] 0 1) :=
  Less_orders_by_value_only [ticketA, ticketB] 0 1 (by decide) (by decide)

end Membership

/-! ## Theorems: sorting the tickets -/

namespace Membership

namespace Sorting

theorem val_eq_of_getElem? {ts ts' : Tickets} {k k' : Nat} (h : ts'[k']? = ts[k]?) :
    val ts' k' = val ts k := by
  unfold val
  rw [h]

theorem Shuffled.length {a b : Nat} {ts ts' : Tickets} (h : Shuffled a b ts ts') :
    ts'.length = ts.length := h.perm.length_eq

theorem Shuffled.val_outside {a b : Nat} {ts ts' : Tickets} (h : Shuffled a b ts ts')
    (k : Nat) (hk : k < a ∨ b ≤ k) : val ts' k = val ts k :=
  val_eq_of_getElem? (h.outside k hk)

theorem Shuffled.refl (a b : Nat) (ts : Tickets) : Shuffled a b ts ts :=
  ⟨List.Perm.refl _, fun _ _ => rfl, fun _ h => h⟩

theorem Shuffled.trans {a b : Nat} {ts ts' ts'' : Tickets} (h1 : Shuffled a b ts ts')
    (h2 : Shuffled a b ts' ts'') : Shuffled a b ts ts'' :=
  ⟨h2.perm.trans h1.perm, fun k hk => (h2.outside k hk).trans (h1.outside k hk),
    fun P hP => h2.inside P (h1.inside P hP)⟩

theorem Shuffled.mono {a b a' b' : Nat} {ts ts' : Tickets} (h : Shuffled a b ts ts')
    (ha : a' ≤ a) (hb : b ≤ b') : Shuffled a' b' ts ts' := by
  refine ⟨h.perm, fun k hk => h.outside k (by omega), ?_⟩
  intro P hP k hk1 hk2
  by_cases hin : a ≤ k ∧ k < b
  · exact h.inside P (fun k' h1 h2 => hP k' (by omega) (by omega)) k hin.1 hin.2
  · rw [h.val_outside k (by omega)]
    exact hP k hk1 hk2

theorem Less_val (ts : Tickets) (i j : Nat) (hi : i < ts.length) (hj : j < ts.length) :
    Tickets.Less ts i j = some (lessOfValues (val ts i) (val ts j)) := by
  rw [Less_eq_some ts i j hi hj]
  simp [val, List.getElem?_eq_getElem hi, List.getElem?_eq_getElem hj]

theorem perm_set_cons {α : Type} (t : List α) (j : Nat) (hj : j < t.length) (a : α) :
    (t[j] :: t.set j a).Perm (a :: t) := by
  induction t generalizing j with
  | nil => simp at hj
  | cons x t ih =>
    cases j with
    | zero => exact List.Perm.swap _ _ _
    | succ j =>
      simp only [List.getElem_cons_succ, List.set_cons_succ]
      have hj' : j < t.length := by simpa using hj
      exact (List.Perm.swap _ _ _).trans (((ih j hj').cons x).trans (List.Perm.swap _ _ _))

theorem swap_perm {α : Type} (ts : List α) (i j : Nat) (hi : i < ts.length)
    (hj : j < ts.length) : ((ts.set i ts[j]).set j ts[i]).Perm ts := by
  induction ts generalizing i j with
  | nil => simp at hi
  | cons x t ih =>
    cases i with
    | zero =>
      cases j with
      | zero => simp
      | succ j =>
        simp only [List.getElem_cons_succ, List.set_cons_zero, List.set_cons_succ,
          List.getElem_cons_zero]
        exact perm_set_cons t j (by simpa using hj) x
    | succ i =>
      cases j with
      | zero =>
        simp only [List.getElem_cons_succ, List.set_cons_zero, List.set_cons_succ,
          List.getElem_cons_zero]
        exact perm_set_cons t i (by simpa using hi) x
      | succ j =>
        simp only [List.getElem_cons_succ, List.set_cons_succ]
        exact (ih i j (by simpa using hi) (by simpa using hj)).cons x

theorem Swap_spec (ts : Tickets) (i j : Nat) (hi : i < ts.length) (hj : j < ts.length) :
    ∃ ts', Tickets.Swap ts i j = some ts' ∧ ts'.Perm ts ∧
      ts'[i]? = ts[j]? ∧ ts'[j]? = ts[i]? ∧
      ∀ k, k ≠ i → k ≠ j → ts'[k]? = ts[k]? := by
  refine ⟨(ts.set i ts[j]).set j ts[i], ?_, swap_perm ts i j hi hj, ?_, ?_, ?_⟩
  · unfold Tickets.Swap
    rw [List.getElem?_eq_getElem hi, List.getElem?_eq_getElem hj]
  · rw [List.getElem?_set, List.getElem?_set]
    simp only [List.length_set, hi, hj, if_true]
    by_cases h : j = i
    · subst h
      simp
    · simp [h, List.getElem?_eq_getElem hj]
  · rw [List.getElem?_set]
    simp [hj, List.getElem?_eq_getElem hi]
  · intro k hki hkj
    rw [List.getElem?_set_ne (Ne.symm hkj), List.getElem?_set_ne (Ne.symm hki)]

theorem Shuffled.swap {a b : Nat} {ts ts' : Tickets} {i j : Nat} (hi : i < ts.length)
    (hj : j < ts.length) (hai : a ≤ i) (hib : i < b) (haj : a ≤ j) (hjb : j < b)
    (h : Tickets.Swap ts i j = some ts') : Shuffled a b ts ts' := by
  obtain ⟨ts'', hs, hperm, h1, h2, h3⟩ := Swap_spec ts i j hi hj
  rw [hs] at h
  cases h
  refine ⟨hperm, fun k hk => h3 k (by omega) (by omega), ?_⟩
  intro P hP k hk1 hk2
  by_cases hki : k = i
  · subst hki
    rw [val_eq_of_getElem? h1]
    exact hP j haj hjb
  · by_cases hkj : k = j
    · subst hkj
      rw [val_eq_of_getElem? h2]
      exact hP i hai hib
    · rw [val_eq_of_getElem? (h3 k hki hkj)]
      exact hP k hk1 hk2

/-- The facts about one exchange that the loop invariants use. -/
theorem Swap_val (ts : Tickets) (i j : Nat) (hi : i < ts.length) (hj : j < ts.length) :
    ∃ ts', Tickets.Swap ts i j = some ts' ∧ ts'.length = ts.length ∧
      val ts' i = val ts j ∧ val ts' j = val ts i ∧
      (∀ k, k ≠ i → k ≠ j → val ts' k = val ts k) ∧
      ∀ a b, a ≤ i → i < b → a ≤ j → j < b → Shuffled a b ts ts' := by
  obtain ⟨ts', hs, hperm, h1, h2, h3⟩ := Swap_spec ts i j hi hj
  exact ⟨ts', hs, hperm.length_eq, val_eq_of_getElem? h1, val_eq_of_getElem? h2,
    fun k hki hkj => val_eq_of_getElem? (h3 k hki hkj),
    fun a b hai hib haj hjb => Shuffled.swap hi hj hai hib haj hjb hs⟩

theorem lessOfValues_false {x y : List Nat} (h : lessOfValues x y = false) :
    bytewiseLE y x ∧ ¬ bytewiseLE x y := by
  have hlt := (lessOfValues_eq_false_iff x y).1 h
  exact ⟨Or.inr hlt, fun hle => (bytewiseLE_iff_not_gt x y).1 hle hlt⟩

theorem lessOfValues_true {x y : List Nat} (h : lessOfValues x y = true) :
    bytewiseLE x y := (lessOfValues_eq_true_iff x y).1 h

theorem bytewiseLE_refl (x : List Nat) : bytewiseLE x x := Or.inl rfl

theorem SortedOn.restrict {a b a' b' : Nat} {ts : Tickets} (h : SortedOn a b ts) (ha : a ≤ a')
    (hb : b' ≤ b) : SortedOn a' b' ts :=
  fun i j hi hij hj => h i j (by omega) hij (by omega)

theorem sortedOn_of_strict {a b : Nat} {ts : Tickets}
    (h : ∀ p q, a ≤ p → p < q → q < b → bytewiseLE (val ts p) (val ts q)) :
    SortedOn a b ts := by
  intro i j hi hij hj
  rcases Nat.eq_or_lt_of_le hij with rfl | hlt
  · exact bytewiseLE_refl _
  · exact h i j hi hlt hj

theorem insertionSortInner_spec (a i : Nat) :
    ∀ (j : Nat) (ts : Tickets), a ≤ j → j ≤ i → i < ts.length →
      (∀ p q, a ≤ p → p < q → q ≤ i → q ≠ j → bytewiseLE (val ts p) (val ts q)) →
      ∃ ts', insertionSortInner a j ts = some ts' ∧ Shuffled a (i + 1) ts ts' ∧
        SortedOn a (i + 1) ts' := by
  intro j
  induction j with
  | zero =>
    intro ts ha _ _ hinv
    refine ⟨ts, rfl, Shuffled.refl _ _ _, sortedOn_of_strict ?_⟩
    intro p q hp hpq hq
    exact hinv p q hp hpq (by omega) (by omega)
  | succ j ih =>
    intro ts ha hji hlen hinv
    unfold insertionSortInner
    by_cases hgt : j + 1 > a
    · rw [if_pos hgt, Less_val ts (j + 1) j (by omega) (by omega)]
      cases hless : lessOfValues (val ts (j + 1)) (val ts j) with
      | false =>
        simp only
        obtain ⟨hle, _⟩ := lessOfValues_false hless
        refine ⟨ts, rfl, Shuffled.refl _ _ _, sortedOn_of_strict ?_⟩
        intro p q hp hpq hq
        by_cases hqj : q = j + 1
        · subst hqj
          by_cases hpj : p = j
          · subst hpj
            exact hle
          · exact bytewiseLE_trans (hinv p j hp (by omega) (by omega) (by omega)) hle
        · exact hinv p q hp hpq (by omega) hqj
      | true =>
        simp only
        have hxy := lessOfValues_true hless
        obtain ⟨ts', hs, hlen', h1, h2, h3, hsh⟩ :=
          Swap_val ts (j + 1) j (by omega) (by omega)
        rw [hs]
        simp only
        have hinv' : ∀ p q, a ≤ p → p < q → q ≤ i → q ≠ j →
            bytewiseLE (val ts' p) (val ts' q) := by
          intro p q hp hpq hq hqj
          by_cases hq1 : q = j + 1
          · subst hq1
            rw [h1]
            by_cases hpj : p = j
            · subst hpj
              rw [h2]
              exact hxy
            · rw [h3 p (by omega) hpj]
              exact hinv p j hp (by omega) (by omega) (by omega)
          · rw [h3 q hq1 hqj]
            by_cases hp1 : p = j + 1
            · subst hp1
              rw [h1]
              exact hinv j q (by omega) (by omega) hq hq1
            · by_cases hpj : p = j
              · subst hpj
                rw [h2]
                exact hinv (p + 1) q (by omega) (by omega) hq hq1
              · rw [h3 p hp1 hpj]
                exact hinv p q hp hpq hq hq1
        obtain ⟨ts'', hr, hsh', hsorted⟩ := ih ts' (by omega) (by omega) (by omega) hinv'
        exact ⟨ts'', hr,
          (hsh a (i + 1) (by omega) (by omega) (by omega) (by omega)).trans hsh', hsorted⟩
    · rw [if_neg hgt]
      refine ⟨ts, rfl, Shuffled.refl _ _ _, sortedOn_of_strict ?_⟩
      intro p q hp hpq hq
      exact hinv p q hp hpq (by omega) (by omega)

theorem insertionSortFrom_spec (a b : Nat) :
    ∀ (n i : Nat) (ts : Tickets), n = b - i → a < i → b ≤ ts.length → SortedOn a i ts →
      ∃ ts', insertionSortFrom a b i ts = some ts' ∧ Shuffled a b ts ts' ∧
        SortedOn a b ts' := by
  intro n
  induction n with
  | zero =>
    intro i ts hn hai hlen hs
    rw [insertionSortFrom, if_neg (by omega)]
    exact ⟨ts, rfl, Shuffled.refl _ _ _, hs.restrict (le_refl _) (by omega)⟩
  | succ n ih =>
    intro i ts hn hai hlen hs
    rw [insertionSortFrom, if_pos (by omega)]
    have hinv : ∀ p q, a ≤ p → p < q → q ≤ i → q ≠ i →
        bytewiseLE (val ts p) (val ts q) :=
      fun p q hp hpq hq hqi => hs p q hp (by omega) (by omega)
    obtain ⟨ts', hr, hsh, hsorted⟩ :=
      insertionSortInner_spec a i i ts (by omega) (le_refl _) (by omega) hinv
    rw [hr]
    simp only
    obtain ⟨ts'', hr', hsh', hsorted'⟩ :=
      ih (i + 1) ts' (by omega) (by omega) (by rw [hsh.length]; exact hlen) hsorted
    exact ⟨ts'', hr', (hsh.mono (le_refl _) (by omega)).trans hsh', hsorted'⟩

theorem insertionSort_spec (ts : Tickets) (a b : Nat) (hlen : b ≤ ts.length) :
    ∃ ts', insertionSort ts a b = some ts' ∧ Shuffled a b ts ts' ∧ SortedOn a b ts' := by
  unfold insertionSort
  apply insertionSortFrom_spec a b (b - (a + 1)) (a + 1) ts rfl (by omega) hlen
  intro i j hi hij hj
  have : i = j := by omega
  subst this
  exact bytewiseLE_refl _

theorem shellPass_spec (a b : Nat) :
    ∀ (n i : Nat) (ts : Tickets), n = b - i → a + 6 ≤ i → b ≤ ts.length →
      ∃ ts', shellPass b i ts = some ts' ∧ Shuffled a b ts ts' := by
  intro n
  induction n with
  | zero =>
    intro i ts hn hai hlen
    rw [shellPass, if_neg (by omega)]
    exact ⟨ts, rfl, Shuffled.refl _ _ _⟩
  | succ n ih =>
    intro i ts hn hai hlen
    rw [shellPass, if_pos (by omega), Less_val ts i (i - 6) (by omega) (by omega)]
    cases lessOfValues (val ts i) (val ts (i - 6)) with
    | false =>
      simp only
      exact ih (i + 1) ts (by omega) (by omega) hlen
    | true =>
      simp only
      obtain ⟨ts', hs, hlen', _, _, _, hsh⟩ := Swap_val ts i (i - 6) (by omega) (by omega)
      rw [hs]
      simp only
      obtain ⟨ts'', hr, hsh'⟩ := ih (i + 1) ts' (by omega) (by omega) (by omega)
      exact ⟨ts'', hr, (hsh a b (by omega) (by omega) (by omega) (by omega)).trans hsh'⟩

theorem quickSortSmall_spec (ts : Tickets) (a b : Nat) (hlen : b ≤ ts.length) :
    ∃ ts', quickSortSmall ts a b = some ts' ∧ Shuffled a b ts ts' ∧ SortedOn a b ts' := by
  unfold quickSortSmall
  by_cases h : b - a > 1
  · rw [if_pos h]
    obtain ⟨ts1, h1, hsh1⟩ := shellPass_spec a b (b - (a + 6)) (a + 6) ts rfl (le_refl _) hlen
    rw [h1]
    simp only
    obtain ⟨ts2, h2, hsh2, hsorted⟩ := insertionSort_spec ts1 a b (by rw [hsh1.length]; exact hlen)
    exact ⟨ts2, h2, hsh1.trans hsh2, hsorted⟩
  · rw [if_neg h]
    refine ⟨ts, rfl, Shuffled.refl _ _ _, ?_⟩
    intro i j hi hij hj
    have : i = j := by omega
    subst this
    exact bytewiseLE_refl _

theorem siftDownLoop_spec (hi first lo : Nat) :
    ∀ (n root : Nat) (ts : Tickets), n = hi - root → lo ≤ root → first + hi ≤ ts.length →
      (∀ r c, lo ≤ r → r ≠ root → c < hi → (c = 2 * r + 1 ∨ c = 2 * r + 2) →
        bytewiseLE (val ts (first + c)) (val ts (first + r))) →
      (∀ g c, lo ≤ g → (root = 2 * g + 1 ∨ root = 2 * g + 2) → c < hi →
        (c = 2 * root + 1 ∨ c = 2 * root + 2) →
        bytewiseLE (val ts (first + c)) (val ts (first + g))) →
      ∃ ts', siftDownLoop hi first root ts = some ts' ∧
        Shuffled (first + lo) (first + hi) ts ts' ∧ IsHeap first lo hi ts' := by
  intro n
  induction n using Nat.strong_induction_on with
  | _ n ih =>
    intro root ts hn hlo hlen h1 h2
    rw [siftDownLoop]
    simp only []
    by_cases hge : 2 * root + 1 ≥ hi
    · rw [if_pos hge]
      refine ⟨ts, rfl, Shuffled.refl _ _ _, ?_⟩
      intro r c hr hc hrc
      by_cases hroot : r = root
      · subst hroot
        omega
      · exact h1 r c hr hroot hc hrc
    · rw [if_neg hge]
      have hpick : ∃ lessNext : Bool,
          (if 2 * root + 1 + 1 < hi then
              ts.Less (first + (2 * root + 1)) (first + (2 * root + 1) + 1)
            else some false) = some lessNext ∧
          ∃ child, (if 2 * root + 1 + 1 < hi ∧ lessNext = true then 2 * root + 1 + 1
              else 2 * root + 1) = child ∧
            (child = 2 * root + 1 ∨ child = 2 * root + 2) ∧ child < hi ∧
            ∀ c, c < hi → (c = 2 * root + 1 ∨ c = 2 * root + 2) →
              bytewiseLE (val ts (first + c)) (val ts (first + child)) := by
        by_cases hnext : 2 * root + 1 + 1 < hi
        · rw [if_pos hnext, Less_val ts _ _ (by omega) (by omega)]
          cases hless : lessOfValues (val ts (first + (2 * root + 1)))
              (val ts (first + (2 * root + 1) + 1)) with
          | false =>
            refine ⟨false, rfl, 2 * root + 1, by simp, Or.inl rfl, by omega, ?_⟩
            intro c hc hrc
            rcases hrc with rfl | rfl
            · exact bytewiseLE_refl _
            · exact (lessOfValues_false hless).1
          | true =>
            refine ⟨true, rfl, 2 * root + 1 + 1, by simp [hnext], Or.inr rfl, by omega, ?_⟩
            intro c hc hrc
            rcases hrc with rfl | rfl
            · exact lessOfValues_true hless
            · exact bytewiseLE_refl _
        · rw [if_neg hnext]
          refine ⟨false, rfl, 2 * root + 1, by simp, Or.inl rfl, by omega, ?_⟩
          intro c hc hrc
          rcases hrc with rfl | rfl
          · exact bytewiseLE_refl _
          · omega
      obtain ⟨lessNext, hln, child, hchild, hch, hchi, hmax⟩ := hpick
      rw [hln]
      simp only []
      rw [hchild, Less_val ts _ _ (by omega) (by omega)]
      cases hless : lessOfValues (val ts (first + root)) (val ts (first + child)) with
      | false =>
        simp only []
        refine ⟨ts, rfl, Shuffled.refl _ _ _, ?_⟩
        intro r c hr hc hrc
        by_cases hroot : r = root
        · subst hroot
          exact bytewiseLE_trans (hmax c hc hrc) (lessOfValues_false hless).1
        · exact h1 r c hr hroot hc hrc
      | true =>
        simp only []
        have hrc := lessOfValues_true hless
        obtain ⟨ts', hs, hlen', e1, e2, e3, hsh⟩ :=
          Swap_val ts (first + root) (first + child) (by omega) (by omega)
        rw [hs]
        simp only []
        have h1' : ∀ r c, lo ≤ r → r ≠ child → c < hi → (c = 2 * r + 1 ∨ c = 2 * r + 2) →
            bytewiseLE (val ts' (first + c)) (val ts' (first + r)) := by
          intro r c hr hrne hc hcr
          by_cases hroot : r = root
          · subst hroot
            rw [e1]
            by_cases hcc : c = child
            · subst hcc
              rw [e2]
              exact hrc
            · rw [e3 (first + c) (by omega) (by omega)]
              exact hmax c hc hcr
          · rw [e3 (first + r) (by omega) (by omega)]
            by_cases hcroot : c = root
            · subst hcroot
              rw [e1]
              exact h2 r child hr hcr hchi hch
            · rw [e3 (first + c) (by omega) (by omega)]
              exact h1 r c hr hroot hc hcr
        have h2' : ∀ g c, lo ≤ g → (child = 2 * g + 1 ∨ child = 2 * g + 2) → c < hi →
            (c = 2 * child + 1 ∨ c = 2 * child + 2) →
            bytewiseLE (val ts' (first + c)) (val ts' (first + g)) := by
          intro g c hg hgc hc hcc
          have hgroot : g = root := by omega
          subst hgroot
          rw [e1, e3 (first + c) (by omega) (by omega)]
          exact h1 child c (by omega) (by omega) hc hcc
        obtain ⟨ts'', hr, hsh', hheap⟩ :=
          ih (hi - child) (by omega) child ts' rfl (by omega) (by omega) h1' h2'
        exact ⟨ts'', hr,
          (hsh (first + lo) (first + hi) (by omega) (by omega) (by omega) (by omega)).trans
            hsh', hheap⟩

theorem siftDown_spec (ts : Tickets) (lo hi first : Nat) (hlen : first + hi ≤ ts.length)
    (h : IsHeap first (lo + 1) hi ts) :
    ∃ ts', siftDown ts lo hi first = some ts' ∧
      Shuffled (first + lo) (first + hi) ts ts' ∧ IsHeap first lo hi ts' := by
  unfold siftDown
  apply siftDownLoop_spec hi first lo (hi - lo) lo ts rfl (le_refl _) hlen
  · intro r c hr hne hc hrc
    exact h r c (by omega) hc hrc
  · intro g c hg hgr
    omega

theorem heapBuild_spec (hi first : Nat) :
    ∀ (n : Nat) (ts : Tickets), first + hi ≤ ts.length → IsHeap first n hi ts →
      ∃ ts', heapBuild hi first n ts = some ts' ∧
        Shuffled first (first + hi) ts ts' ∧ IsHeap first 0 hi ts' := by
  intro n
  induction n with
  | zero =>
    intro ts _ h
    exact ⟨ts, rfl, Shuffled.refl _ _ _, h⟩
  | succ i ih =>
    intro ts hlen h
    unfold heapBuild
    obtain ⟨ts', hs, hsh, hheap⟩ := siftDown_spec ts i hi first hlen h
    rw [hs]
    simp only []
    obtain ⟨ts'', hr, hsh', hheap'⟩ := ih ts' (by rw [hsh.length]; exact hlen) hheap
    exact ⟨ts'', hr, (hsh.mono (by omega) (le_refl _)).trans hsh', hheap'⟩

theorem IsHeap.root_max {first hi : Nat} {ts : Tickets} (h : IsHeap first 0 hi ts) :
    ∀ c, c < hi → bytewiseLE (val ts (first + c)) (val ts (first + 0)) := by
  intro c
  induction c using Nat.strong_induction_on with
  | _ c ih =>
    intro hc
    rcases Nat.eq_zero_or_pos c with rfl | hpos
    · exact bytewiseLE_refl _
    · have hparent : c = 2 * ((c - 1) / 2) + 1 ∨ c = 2 * ((c - 1) / 2) + 2 := by omega
      exact bytewiseLE_trans (h ((c - 1) / 2) c (Nat.zero_le _) hc hparent)
        (ih ((c - 1) / 2) (by omega) (by omega))

theorem heapPop_spec (first b : Nat) :
    ∀ (n : Nat) (ts : Tickets), first + n ≤ b → b ≤ ts.length → IsHeap first 0 n ts →
      SortedOn (first + n) b ts →
      (∀ p q, first ≤ p → p < first + n → first + n ≤ q → q < b →
        bytewiseLE (val ts p) (val ts q)) →
      ∃ ts', heapPop 0 first n ts = some ts' ∧ Shuffled first b ts ts' ∧
        SortedOn first b ts' := by
  intro n
  induction n with
  | zero =>
    intro ts _ _ _ hs _
    exact ⟨ts, rfl, Shuffled.refl _ _ _, by simpa using hs⟩
  | succ i ih =>
    intro ts hnb hlen hheap hsorted hcross
    unfold heapPop
    obtain ⟨ts1, hs, hlen1, e1, e2, e3, hsh⟩ :=
      Swap_val ts first (first + i) (by omega) (by omega)
    rw [hs]
    simp only []
    have hmax := hheap.root_max
    have hheap1 : IsHeap first (0 + 1) i ts1 := by
      intro r c hr hc hrc
      rw [e3 (first + c) (by omega) (by omega), e3 (first + r) (by omega) (by omega)]
      exact hheap r c (Nat.zero_le _) (by omega) hrc
    obtain ⟨ts2, hs2, hsh2, hheap2⟩ := siftDown_spec ts1 0 i first (by omega) hheap1
    rw [hs2]
    simp only []
    have hsh2' : Shuffled first (first + i) ts1 ts2 := by simpa using hsh2
    -- every value of the remaining heap is below every value from `first + i` on
    have hbelow : ∀ k, first ≤ k → k < first + i → ∀ q, first + i ≤ q → q < b →
        bytewiseLE (val ts1 k) (val ts1 q) := by
      intro k hk1 hk2 q hq1 hq2
      have hkv : ∃ k', first ≤ k' ∧ k' < first + (i + 1) ∧ val ts1 k = val ts k' := by
        by_cases hkf : k = first
        · subst hkf
          exact ⟨k + i, by omega, by omega, e1⟩
        · exact ⟨k, hk1, by omega, e3 k hkf (by omega)⟩
      obtain ⟨k', hk'1, hk'2, hk'v⟩ := hkv
      rw [hk'v]
      by_cases hqi : q = first + i
      · subst hqi
        rw [e2]
        have := hmax (k' - first) (by omega)
        simpa [Nat.add_sub_cancel' hk'1] using this
      · rw [e3 q (by omega) hqi]
        exact hcross k' q hk'1 hk'2 (by omega) hq2
    have hcross2 : ∀ p q, first ≤ p → p < first + i → first + i ≤ q → q < b →
        bytewiseLE (val ts2 p) (val ts2 q) := by
      intro p q hp1 hp2 hq1 hq2
      rw [hsh2'.val_outside q (by omega)]
      exact hsh2'.inside (fun v => ∀ q, first + i ≤ q → q < b → bytewiseLE v (val ts1 q))
        hbelow p hp1 hp2 q hq1 hq2
    have hsorted2 : SortedOn (first + i) b ts2 := by
      apply sortedOn_of_strict
      intro p q hp hpq hq
      rw [hsh2'.val_outside p (by omega), hsh2'.val_outside q (by omega)]
      rw [e3 q (by omega) (by omega)]
      by_cases hpi : p = first + i
      · subst hpi
        rw [e2]
        exact hcross first q (le_refl _) (by omega) (by omega) hq
      · rw [e3 p (by omega) hpi]
        exact hsorted p q (by omega) (by omega) hq
    obtain ⟨ts3, hs3, hsh3, hsorted3⟩ :=
      ih ts2 (by omega) (by rw [hsh2.length, hlen1]; exact hlen) hheap2 hsorted2 hcross2
    exact ⟨ts3, hs3,
      ((hsh first b (le_refl _) (by omega) (by omega) (by omega)).trans
        (hsh2'.mono (le_refl _) (by omega))).trans hsh3, hsorted3⟩

theorem heapSort_spec (ts : Tickets) (a b : Nat) (hab : a ≤ b) (hlen : b ≤ ts.length) :
    ∃ ts', heapSort ts a b = some ts' ∧ Shuffled a b ts ts' ∧ SortedOn a b ts' := by
  unfold heapSort
  simp only []
  have hheap0 : IsHeap a ((b - a - 1) / 2 + 1) (b - a) ts := by
    intro r c hr hc hrc
    omega
  obtain ⟨ts1, hs1, hsh1, hheap1⟩ :=
    heapBuild_spec (b - a) a ((b - a - 1) / 2 + 1) ts (by omega) hheap0
  rw [hs1]
  simp only []
  have hab' : a + (b - a) = b := by omega
  rw [hab'] at hsh1
  obtain ⟨ts2, hs2, hsh2, hsorted⟩ :=
    heapPop_spec a b (b - a) ts1 (by omega) (by rw [hsh1.length]; exact hlen) hheap1
      (by intro i j hi hij hj; omega) (by intro p q hp1 hp2 hq1 hq2; omega)
  exact ⟨ts2, hs2, hsh1.trans hsh2, hsorted⟩

theorem swapIfLess_spec (ts : Tickets) (i j a b : Nat) (hi : a ≤ i ∧ i < b)
    (hj : a ≤ j ∧ j < b) (hlen : b ≤ ts.length) :
    ∃ ts', swapIfLess ts i j = some ts' ∧ Shuffled a b ts ts' ∧
      (j ≠ i → bytewiseLE (val ts' j) (val ts' i)) := by
  unfold swapIfLess
  rw [Less_val ts i j (by omega) (by omega)]
  cases hless : lessOfValues (val ts i) (val ts j) with
  | false => exact ⟨ts, rfl, Shuffled.refl _ _ _, fun _ => (lessOfValues_false hless).1⟩
  | true =>
    obtain ⟨ts1, hs, _, e1, e2, _, hsh⟩ := Swap_val ts i j (by omega) (by omega)
    refine ⟨ts1, hs, hsh a b hi.1 hi.2 hj.1 hj.2, fun _ => ?_⟩
    rw [e1, e2]
    exact lessOfValues_true hless

theorem medianOfThree_spec (ts : Tickets) (m1 m0 m2 a b : Nat)
    (h1 : a ≤ m1 ∧ m1 < b) (h0 : a ≤ m0 ∧ m0 < b) (h2 : a ≤ m2 ∧ m2 < b)
    (hlen : b ≤ ts.length) :
    ∃ ts', medianOfThree ts m1 m0 m2 = some ts' ∧ Shuffled a b ts ts' ∧
      (m0 ≠ m1 → m1 ≠ m2 → m0 ≠ m2 → bytewiseLE (val ts' m1) (val ts' m2)) := by
  unfold medianOfThree
  obtain ⟨ts1, hs1, hsh1, hle1⟩ := swapIfLess_spec ts m1 m0 a b h1 h0 hlen
  rw [hs1]
  simp only []
  have hlen1 : b ≤ ts1.length := by rw [hsh1.length]; exact hlen
  rw [Less_val ts1 m2 m1 (by omega) (by omega)]
  cases hless2 : lessOfValues (val ts1 m2) (val ts1 m1) with
  | false => exact ⟨ts1, rfl, hsh1, fun _ _ _ => (lessOfValues_false hless2).1⟩
  | true =>
    simp only []
    obtain ⟨ts2, hs2, hlen2, e1, e2, e3, hsh2⟩ := Swap_val ts1 m2 m1 (by omega) (by omega)
    rw [hs2]
    simp only []
    have hsh12 := hsh1.trans (hsh2 a b h2.1 h2.2 h1.1 h1.2)
    unfold swapIfLess
    rw [Less_val ts2 m1 m0 (by omega) (by omega)]
    cases hless3 : lessOfValues (val ts2 m1) (val ts2 m0) with
    | false =>
      refine ⟨ts2, rfl, hsh12, fun _ _ _ => ?_⟩
      rw [e1, e2]
      exact lessOfValues_true hless2
    | true =>
      simp only []
      obtain ⟨ts3, hs3, _, f1, f2, f3, hsh3⟩ := Swap_val ts2 m1 m0 (by omega) (by omega)
      refine ⟨ts3, hs3, hsh12.trans (hsh3 a b h1.1 h1.2 h0.1 h0.2), fun h01 h12 h02 => ?_⟩
      rw [f1, f3 m2 (Ne.symm h12) (Ne.symm h02), e3 m0 h02 h01, e1]
      exact hle1 h01

theorem scanLess_spec (ts : Tickets) (pivot c : Nat) (hp : pivot < ts.length)
    (hc : c ≤ ts.length) :
    ∀ (n a : Nat), n = c - a →
      ∃ a', scanLess ts pivot c a = some a' ∧ a ≤ a' ∧ (a ≤ c → a' ≤ c) ∧
        ∀ k, a ≤ k → k < a' → bytewiseLE (val ts k) (val ts pivot) := by
  intro n
  induction n with
  | zero =>
    intro a hn
    rw [scanLess, if_neg (by omega)]
    exact ⟨a, rfl, le_refl _, fun h => h, fun k h1 h2 => by omega⟩
  | succ n ih =>
    intro a hn
    rw [scanLess, if_pos (by omega), Less_val ts a pivot (by omega) hp]
    cases hless : lessOfValues (val ts a) (val ts pivot) with
    | false => exact ⟨a, rfl, le_refl _, fun h => h, fun k h1 h2 => by omega⟩
    | true =>
      simp only []
      obtain ⟨a', hs, h1, h2, h3⟩ := ih (a + 1) (by omega)
      refine ⟨a', hs, by omega, fun _ => h2 (by omega), ?_⟩
      intro k hk1 hk2
      by_cases hka : k = a
      · subst hka
        exact lessOfValues_true hless
      · exact h3 k (by omega) hk2

theorem scanLess_all (ts : Tickets) (pivot c : Nat) (hp : pivot < ts.length)
    (hc : c ≤ ts.length) :
    ∀ (n a : Nat), n = c - a →
      (∀ k, a ≤ k → k < c → bytewiseLE (val ts k) (val ts pivot)) →
      ∃ a', scanLess ts pivot c a = some a' ∧ c ≤ a' := by
  intro n
  induction n with
  | zero =>
    intro a hn _
    rw [scanLess, if_neg (by omega)]
    exact ⟨a, rfl, by omega⟩
  | succ n ih =>
    intro a hn hall
    rw [scanLess, if_pos (by omega), Less_val ts a pivot (by omega) hp]
    have hless : lessOfValues (val ts a) (val ts pivot) = true :=
      (lessOfValues_eq_true_iff _ _).2 (hall a (le_refl _) (by omega))
    rw [hless]
    simp only []
    exact ih (a + 1) (by omega) (fun k h1 h2 => hall k (by omega) h2)

theorem scanNotGreater_spec (ts : Tickets) (pivot c : Nat) (hp : pivot < ts.length)
    (hc : c ≤ ts.length) :
    ∀ (n b : Nat), n = c - b →
      ∃ b', scanNotGreater ts pivot c b = some b' ∧ b ≤ b' ∧ (b ≤ c → b' ≤ c) ∧
        (∀ k, b ≤ k → k < b' → bytewiseLE (val ts k) (val ts pivot)) ∧
        (b' < c → bytewiseLE (val ts pivot) (val ts b')) := by
  intro n
  induction n with
  | zero =>
    intro b hn
    rw [scanNotGreater, if_neg (by omega)]
    exact ⟨b, rfl, le_refl _, fun h => h, fun k h1 h2 => by omega, fun h => by omega⟩
  | succ n ih =>
    intro b hn
    rw [scanNotGreater, if_pos (by omega), Less_val ts pivot b hp (by omega)]
    cases hless : lessOfValues (val ts pivot) (val ts b) with
    | true =>
      exact ⟨b, rfl, le_refl _, fun h => h, fun k h1 h2 => by omega,
        fun _ => lessOfValues_true hless⟩
    | false =>
      simp only []
      obtain ⟨b', hs, h1, h2, h3, h4⟩ := ih (b + 1) (by omega)
      refine ⟨b', hs, by omega, fun _ => h2 (by omega), ?_, h4⟩
      intro k hk1 hk2
      by_cases hkb : k = b
      · subst hkb
        exact (lessOfValues_false hless).1
      · exact h3 k (by omega) hk2

theorem scanGreater_spec (ts : Tickets) (pivot b : Nat) (hp : pivot < ts.length) :
    ∀ (c : Nat), c ≤ ts.length →
      ∃ c', scanGreater ts pivot b c = some c' ∧ c' ≤ c ∧ (b ≤ c → b ≤ c') ∧
        (∀ k, c' ≤ k → k < c → bytewiseLE (val ts pivot) (val ts k)) ∧
        (b < c' → ¬ bytewiseLE (val ts pivot) (val ts (c' - 1))) := by
  intro c
  induction c with
  | zero =>
    intro _
    exact ⟨0, rfl, le_refl _, fun h => h, fun k h1 h2 => by omega, fun h => by omega⟩
  | succ c ih =>
    intro hc
    unfold scanGreater
    by_cases hbc : b < c + 1
    · rw [if_pos hbc, Less_val ts pivot c hp (by omega)]
      cases hless : lessOfValues (val ts pivot) (val ts c) with
      | false =>
        exact ⟨c + 1, rfl, le_refl _, fun h => h, fun k h1 h2 => by omega,
          fun _ => (lessOfValues_false hless).2⟩
      | true =>
        simp only []
        obtain ⟨c', hs, h1, h2, h3, h4⟩ := ih (by omega)
        refine ⟨c', hs, by omega, fun _ => h2 (by omega), ?_, h4⟩
        intro k hk1 hk2
        by_cases hkc : k = c
        · subst hkc
          exact lessOfValues_true hless
        · exact h3 k hk1 (by omega)
    · rw [if_neg hbc]
      exact ⟨c + 1, rfl, le_refl _, fun h => h, fun k h1 h2 => by omega, fun h => by omega⟩

theorem partitionLoop_spec (lo hi : Nat) :
    ∀ (fuel : Nat) (ts : Tickets) (b c : Nat), c - b < fuel → lo < b → b ≤ c → c < hi →
      hi ≤ ts.length →
      (∀ k, lo < k → k < b → bytewiseLE (val ts k) (val ts lo)) →
      (∀ k, c ≤ k → k < hi → bytewiseLE (val ts lo) (val ts k)) →
      ∃ ts' b', partitionLoop lo fuel ts b c = some (ts', b', b') ∧
        Shuffled (lo + 1) (hi - 1) ts ts' ∧ b ≤ b' ∧ b' < hi ∧
        (∀ k, lo < k → k < b' → bytewiseLE (val ts' k) (val ts' lo)) ∧
        (∀ k, b' ≤ k → k < hi → bytewiseLE (val ts' lo) (val ts' k)) := by
  intro fuel
  induction fuel with
  | zero =>
    intro ts b c hf
    omega
  | succ fuel ih =>
    intro ts b c hf hlob hbc hchi hlen hL hR
    unfold partitionLoop
    obtain ⟨b1, hs1, hb1, hb1c, hL1, hstop1⟩ :=
      scanNotGreater_spec ts lo c (by omega) (by omega) (c - b) b rfl
    rw [hs1]
    simp only []
    have hb1c' := hb1c hbc
    obtain ⟨c1, hs2, hc1, hbc1, hR1, hstop2⟩ :=
      scanGreater_spec ts lo b1 (by omega) c (by omega)
    rw [hs2]
    simp only []
    have hbc1' := hbc1 hb1c'
    have hLall : ∀ k, lo < k → k < b1 → bytewiseLE (val ts k) (val ts lo) := by
      intro k hk1 hk2
      by_cases hkb : k < b
      · exact hL k hk1 hkb
      · exact hL1 k (by omega) hk2
    have hRall : ∀ k, c1 ≤ k → k < hi → bytewiseLE (val ts lo) (val ts k) := by
      intro k hk1 hk2
      by_cases hkc : k < c
      · exact hR1 k hk1 hkc
      · exact hR k (by omega) hk2
    by_cases hge : b1 ≥ c1
    · rw [if_pos hge]
      have heq : c1 = b1 := by omega
      subst heq
      exact ⟨ts, c1, rfl, Shuffled.refl _ _ _, by omega, by omega, hLall, hRall⟩
    · rw [if_neg hge]
      have hnle := hstop2 (by omega)
      have hne : b1 ≠ c1 - 1 := by
        intro heq
        apply hnle
        rw [← heq]
        exact hstop1 (by omega)
      obtain ⟨ts', hs, hlen', e1, e2, e3, hsh⟩ :=
        Swap_val ts b1 (c1 - 1) (by omega) (by omega)
      rw [hs]
      simp only []
      have hlo' : val ts' lo = val ts lo := e3 lo (by omega) (by omega)
      have hL' : ∀ k, lo < k → k < b1 + 1 → bytewiseLE (val ts' k) (val ts' lo) := by
        intro k hk1 hk2
        rw [hlo']
        by_cases hkb : k = b1
        · subst hkb
          rw [e1]
          rcases bytewiseLE_total (val ts lo) (val ts (c1 - 1)) with h | h
          · exact absurd h hnle
          · exact h
        · rw [e3 k hkb (by omega)]
          exact hLall k hk1 (by omega)
      have hR' : ∀ k, c1 - 1 ≤ k → k < hi → bytewiseLE (val ts' lo) (val ts' k) := by
        intro k hk1 hk2
        rw [hlo']
        by_cases hkc : k = c1 - 1
        · subst hkc
          rw [e2]
          exact hstop1 (by omega)
        · rw [e3 k (by omega) hkc]
          exact hRall k (by omega) hk2
      obtain ⟨ts'', b', hr, hsh', h1, h2, h3, h4⟩ :=
        ih ts' (b1 + 1) (c1 - 1) (by omega) (by omega) (by omega) (by omega) (by omega) hL' hR'
      exact ⟨ts'', b', hr,
        (hsh (lo + 1) (hi - 1) (by omega) (by omega) (by omega) (by omega)).trans hsh',
        by omega, h2, h3, h4⟩

theorem lessOfValues_of_le {x y : List Nat} (h : bytewiseLE x y) : lessOfValues x y = true :=
  (lessOfValues_eq_true_iff x y).2 h

theorem testDuplicates_spec (ts : Tickets) (lo hi m b c : Nat) (hlob : lo < b) (hbhi : b < hi)
    (hm1 : lo < m) (hm2 : m < b) (hlen : hi ≤ ts.length)
    (hL : ∀ k, lo < k → k < b → bytewiseLE (val ts k) (val ts lo))
    (hlast : bytewiseLE (val ts lo) (val ts (hi - 1))) :
    testDuplicates ts lo hi m b c = some (ts, b, c, false) := by
  unfold testDuplicates
  simp only []
  rw [Less_val ts lo (hi - 1) (by omega) (by omega), lessOfValues_of_le hlast]
  simp only []
  have hb1 : bytewiseLE (val ts (b - 1)) (val ts lo) := by
    by_cases hb : b - 1 = lo
    · rw [hb]
      exact bytewiseLE_refl _
    · exact hL (b - 1) (by omega) (by omega)
  rw [Less_val ts (b - 1) lo (by omega) (by omega), lessOfValues_of_le hb1]
  simp only []
  rw [Less_val ts m lo (by omega) (by omega), lessOfValues_of_le (hL m hm1 hm2)]
  simp

theorem scanEqualDown_spec (ts : Tickets) (lo a b : Nat) (hloa : lo < a)
    (hlen : b ≤ ts.length)
    (hL : ∀ k, lo < k → k < b → bytewiseLE (val ts k) (val ts lo)) :
    scanEqualDown ts lo a b = some b := by
  cases b with
  | zero => rfl
  | succ b =>
    unfold scanEqualDown
    by_cases hab : a < b + 1
    · rw [if_pos hab, Less_val ts b lo (by omega) (by omega),
        lessOfValues_of_le (hL b (by omega) (by omega))]
    · rw [if_neg hab]

theorem protectLoop_spec (ts : Tickets) (lo a b fuel : Nat) (hloa : lo < a) (hab : a ≤ b)
    (hlen : b ≤ ts.length)
    (hL : ∀ k, lo < k → k < b → bytewiseLE (val ts k) (val ts lo)) :
    protectLoop lo (fuel + 1) ts a b = some (ts, b) := by
  unfold protectLoop
  rw [scanEqualDown_spec ts lo a b hloa hlen hL]
  simp only []
  obtain ⟨a', hs, ha'⟩ := scanLess_all ts lo b (by omega) hlen (b - a) a rfl
    (fun k hk1 hk2 => hL k (by omega) hk2)
  rw [hs]
  simp only []
  rw [if_pos ha']

theorem ninther_spec (ts : Tickets) (lo hi : Nat) (h : hi - lo > 40) (hlen : hi ≤ ts.length) :
    ∃ ts', ninther ts lo hi ((lo + hi) / 2) = some ts' ∧ Shuffled lo hi ts ts' := by
  unfold ninther
  simp only []
  obtain ⟨ts1, hs1, hsh1, _⟩ := medianOfThree_spec ts lo (lo + (hi - lo) / 8)
    (lo + 2 * ((hi - lo) / 8)) lo hi (by omega) (by omega) (by omega) hlen
  rw [hs1]
  simp only []
  obtain ⟨ts2, hs2, hsh2, _⟩ := medianOfThree_spec ts1 ((lo + hi) / 2)
    ((lo + hi) / 2 - (hi - lo) / 8) ((lo + hi) / 2 + (hi - lo) / 8) lo hi
    (by omega) (by omega) (by omega) (by rw [hsh1.length]; exact hlen)
  rw [hs2]
  simp only []
  obtain ⟨ts3, hs3, hsh3, _⟩ := medianOfThree_spec ts2 (hi - 1) (hi - 1 - (hi - lo) / 8)
    (hi - 1 - 2 * ((hi - lo) / 8)) lo hi (by omega) (by omega) (by omega)
    (by rw [hsh2.length, hsh1.length]; exact hlen)
  exact ⟨ts3, hs3, (hsh1.trans hsh2).trans hsh3⟩

/-- The result of `doPivot`: the part before `midlo` holds values not above
the pivot value `v`, the middle part values equal to it in the order, and
the part from `midhi` on values not below it. -/
theorem doPivot_spec (ts : Tickets) (lo hi : Nat) (h : hi - lo > 12) (hlen : hi ≤ ts.length) :
    ∃ ts' mlo mhi, doPivot ts lo hi = some (ts', mlo, mhi) ∧ Shuffled lo hi ts ts' ∧
      lo ≤ mlo ∧ mlo < mhi ∧ mhi ≤ hi ∧
      ∃ v, (∀ k, lo ≤ k → k < mlo → bytewiseLE (val ts' k) v) ∧
        (∀ k, mlo ≤ k → k < mhi → bytewiseLE (val ts' k) v ∧ bytewiseLE v (val ts' k)) ∧
        (∀ k, mhi ≤ k → k < hi → bytewiseLE v (val ts' k)) := by
  unfold doPivot
  simp only []
  have hm : (lo + hi) >>> 1 = (lo + hi) / 2 := by
    rw [Nat.shiftRight_eq_div_pow]
  rw [hm]
  -- the candidates for the pivot
  have hcand : ∃ ts0, (if hi - lo > 40 then ninther ts lo hi ((lo + hi) / 2) else some ts) =
      some ts0 ∧ Shuffled lo hi ts ts0 := by
    by_cases h40 : hi - lo > 40
    · rw [if_pos h40]
      exact ninther_spec ts lo hi h40 hlen
    · rw [if_neg h40]
      exact ⟨ts, rfl, Shuffled.refl _ _ _⟩
  obtain ⟨ts0, hs0, hsh0⟩ := hcand
  rw [hs0]
  simp only []
  have hlen0 : hi ≤ ts0.length := by rw [hsh0.length]; exact hlen
  obtain ⟨ts1, hs1, hsh1, hmed⟩ := medianOfThree_spec ts0 lo ((lo + hi) / 2) (hi - 1) lo hi
    (by omega) (by omega) (by omega) hlen0
  rw [hs1]
  simp only []
  have hlast := hmed (by omega) (by omega) (by omega)
  have hlen1 : hi ≤ ts1.length := by rw [hsh1.length]; exact hlen0
  -- the first scan
  obtain ⟨a, hsa, ha1, ha2, hLa⟩ :=
    scanLess_spec ts1 lo (hi - 1) (by omega) (by omega) (hi - 1 - (lo + 1)) (lo + 1) rfl
  rw [hsa]
  simp only []
  have ha2' := ha2 (by omega)
  -- the partitioning loop
  have hR0 : ∀ k, hi - 1 ≤ k → k < hi → bytewiseLE (val ts1 lo) (val ts1 k) := by
    intro k hk1 hk2
    have : k = hi - 1 := by omega
    subst this
    exact hlast
  obtain ⟨ts2, b, hs2, hsh2, hab, hb2, hL2, hR2⟩ :=
    partitionLoop_spec lo hi (hi - 1 - a + 1) ts1 a (hi - 1) (by omega) (by omega) ha2'
      (by omega) hlen1 (fun k hk1 hk2 => hLa k (by omega) hk2) hR0
  rw [hs2]
  simp only []
  have hlen2 : hi ≤ ts2.length := by rw [hsh2.length]; exact hlen1
  have hb1 : lo < b := by omega
  -- the test for duplicates leaves everything as it is
  have hdup : (if (!decide (hi - b < 5) && decide (hi - b < (hi - lo) / 4)) = true then
        testDuplicates ts2 lo hi ((lo + hi) / 2) b b
      else some (ts2, b, b, decide (hi - b < 5))) =
      some (ts2, b, b, decide (hi - b < 5)) := by
    by_cases hc : (!decide (hi - b < 5) && decide (hi - b < (hi - lo) / 4)) = true
    · rw [if_pos hc]
      simp only [Bool.and_eq_true, Bool.not_eq_true', decide_eq_false_iff_not,
        decide_eq_true_eq] at hc
      rw [testDuplicates_spec ts2 lo hi ((lo + hi) / 2) b b hb1 hb2 (by omega) (by omega)
        hlen2 hL2 (hR2 (hi - 1) (by omega) (by omega))]
      simp [hc.1]
    · rw [if_neg hc]
  rw [hdup]
  simp only []
  -- the loop against duplicates leaves everything as it is
  have hprot : (if decide (hi - b < 5) = true then protectLoop lo (b - a + 1) ts2 a b
      else some (ts2, b)) = some (ts2, b) := by
    by_cases hc : decide (hi - b < 5) = true
    · rw [if_pos hc]
      exact protectLoop_spec ts2 lo a b (b - a) (by omega) hab (by omega) hL2
    · rw [if_neg hc]
  rw [hprot]
  simp only []
  -- the pivot goes into the middle
  obtain ⟨ts3, hs3, hlen3, e1, e2, e3, hsh3⟩ := Swap_val ts2 lo (b - 1) (by omega) (by omega)
  rw [hs3]
  refine ⟨ts3, b - 1, b, rfl, ?_, by omega, by omega, by omega, val ts2 lo, ?_, ?_, ?_⟩
  · exact ((hsh0.trans hsh1).trans (hsh2.mono (by omega) (by omega))).trans
      (hsh3 lo hi (le_refl _) (by omega) (by omega) (by omega))
  · intro k hk1 hk2
    by_cases hklo : k = lo
    · subst hklo
      rw [e1]
      exact hL2 (b - 1) (by omega) (by omega)
    · rw [e3 k hklo (by omega)]
      exact hL2 k (by omega) (by omega)
  · intro k hk1 hk2
    have : k = b - 1 := by omega
    subst this
    rw [e2]
    exact ⟨bytewiseLE_refl _, bytewiseLE_refl _⟩
  · intro k hk1 hk2
    rw [e3 k (by omega) (by omega)]
    exact hR2 k hk1 hk2

theorem Partitioned.shuffle_left {a mlo mhi b : Nat} {v : List Nat} {ts ts' : Tickets}
    (h : Partitioned a mlo mhi b v ts) (hsh : Shuffled a mlo ts ts') (hm : mlo ≤ mhi) :
    Partitioned a mlo mhi b v ts' := by
  refine ⟨?_, ?_, ?_⟩
  · exact hsh.inside (fun x => bytewiseLE x v) h.1
  · intro k hk1 hk2
    rw [hsh.val_outside k (by omega)]
    exact h.2.1 k hk1 hk2
  · intro k hk1 hk2
    rw [hsh.val_outside k (by omega)]
    exact h.2.2 k hk1 hk2

theorem Partitioned.shuffle_right {a mlo mhi b : Nat} {v : List Nat} {ts ts' : Tickets}
    (h : Partitioned a mlo mhi b v ts) (hsh : Shuffled mhi b ts ts') (hm : mlo ≤ mhi) :
    Partitioned a mlo mhi b v ts' := by
  refine ⟨?_, ?_, ?_⟩
  · intro k hk1 hk2
    rw [hsh.val_outside k (by omega)]
    exact h.1 k hk1 hk2
  · intro k hk1 hk2
    rw [hsh.val_outside k (by omega)]
    exact h.2.1 k hk1 hk2
  · exact hsh.inside (fun x => bytewiseLE v x) h.2.2

theorem SortedOn.of_shuffled_outside {a b a' b' : Nat} {ts ts' : Tickets}
    (h : SortedOn a b ts) (hsh : Shuffled a' b' ts ts') (hdisj : b ≤ a' ∨ b' ≤ a) :
    SortedOn a b ts' := by
  intro i j hi hij hj
  rw [hsh.val_outside i (by omega), hsh.val_outside j (by omega)]
  exact h i j hi hij hj

theorem Partitioned.sorted {a mlo mhi b : Nat} {v : List Nat} {ts : Tickets}
    (h : Partitioned a mlo mhi b v ts) (hl : SortedOn a mlo ts) (hr : SortedOn mhi b ts) :
    SortedOn a b ts := by
  intro i j hi hij hj
  by_cases hi1 : i < mlo
  · by_cases hj1 : j < mlo
    · exact hl i j hi hij hj1
    · by_cases hj2 : j < mhi
      · exact bytewiseLE_trans (h.1 i hi hi1) (h.2.1 j (by omega) hj2).2
      · exact bytewiseLE_trans (h.1 i hi hi1) (h.2.2 j (by omega) hj)
  · by_cases hi2 : i < mhi
    · by_cases hj2 : j < mhi
      · exact bytewiseLE_trans (h.2.1 i (by omega) hi2).1 (h.2.1 j (by omega) hj2).2
      · exact bytewiseLE_trans (h.2.1 i (by omega) hi2).1 (h.2.2 j (by omega) hj)
    · exact hr i j (by omega) hij hj

theorem quickSort_spec :
    ∀ (maxDepth : Nat) (ts : Tickets) (a b : Nat), b ≤ ts.length →
      ∃ ts', quickSort maxDepth ts a b = some ts' ∧ Shuffled a b ts ts' ∧
        SortedOn a b ts' := by
  intro maxDepth
  induction maxDepth with
  | zero =>
    intro ts a b hlen
    unfold quickSort
    by_cases h : b - a > 12
    · rw [if_pos h]
      exact heapSort_spec ts a b (by omega) hlen
    · rw [if_neg h]
      exact quickSortSmall_spec ts a b hlen
  | succ maxDepth ih =>
    intro ts a b hlen
    unfold quickSort
    by_cases h : b - a > 12
    · rw [if_pos h]
      obtain ⟨ts1, mlo, mhi, hs1, hsh1, hm1, hm2, hm3, v, hpart⟩ := doPivot_spec ts a b h hlen
      rw [hs1]
      simp only []
      have hpart1 : Partitioned a mlo mhi b v ts1 := hpart
      have hlen1 : b ≤ ts1.length := by rw [hsh1.length]; exact hlen
      by_cases hside : mlo - a < b - mhi
      · rw [if_pos hside]
        obtain ⟨ts2, hs2, hsh2, hsorted2⟩ := ih ts1 a mlo (by omega)
        rw [hs2]
        simp only []
        obtain ⟨ts3, hs3, hsh3, hsorted3⟩ := ih ts2 mhi b (by rw [hsh2.length]; exact hlen1)
        refine ⟨ts3, hs3, ?_, ?_⟩
        · exact (hsh1.trans (hsh2.mono (le_refl _) (by omega))).trans
            (hsh3.mono (by omega) (le_refl _))
        · exact ((hpart1.shuffle_left hsh2 (by omega)).shuffle_right hsh3 (by omega)).sorted
            (hsorted2.of_shuffled_outside hsh3 (Or.inl (by omega))) hsorted3
      · rw [if_neg hside]
        obtain ⟨ts2, hs2, hsh2, hsorted2⟩ := ih ts1 mhi b hlen1
        rw [hs2]
        simp only []
        obtain ⟨ts3, hs3, hsh3, hsorted3⟩ := ih ts2 a mlo (by rw [hsh2.length]; omega)
        refine ⟨ts3, hs3, ?_, ?_⟩
        · exact (hsh1.trans (hsh2.mono (by omega) (le_refl _))).trans
            (hsh3.mono (le_refl _) (by omega))
        · exact ((hpart1.shuffle_right hsh2 (by omega)).shuffle_left hsh3 (by omega)).sorted
            hsorted3 (hsorted2.of_shuffled_outside hsh3 (Or.inr (by omega)))
    · rw [if_neg h]
      exact quickSortSmall_spec ts a b hlen

theorem val_of_lt (ts : Tickets) (k : Nat) (h : k < ts.length) : val ts k = ts[k].Value := by
  simp [val, List.getElem?_eq_getElem h]

/-- C6: sorting a list of tickets with `sort.Sort` through its methods `Len`,
`Less` and `Swap` returns (no index is out of range), and the result is a
permutation of the input in which the values are non-decreasing: for all
positions `i < j` of the result the value at `i` is bytewise less than or
equal to the value at `j`. -/
theorem sortSort_sorted (ts : Tickets) :
    ∃ r, sortSort ts = some r ∧ r.Perm ts ∧
      ∀ (i j : Nat) (hi : i < r.length) (hj : j < r.length), i < j →
        bytewiseLE r[i].Value r[j].Value := by
  unfold sortSort
  simp only []
  obtain ⟨r, hr, hsh, hsorted⟩ := quickSort_spec (maxDepth ts.Len) ts 0 ts.Len (le_refl _)
  refine ⟨r, hr, hsh.perm, ?_⟩
  intro i j hi hj hij
  have hlen : r.length = ts.Len := hsh.length
  have := hsorted i j (Nat.zero_le _) (by omega) (by omega)
  rwa [val_of_lt r i hi, val_of_lt r j hj] at this

end Sorting

end Membership

/-! ## Theorems: the key-generation states -/

namespace Gjkr

variable {Ch M : Type}

/-- C7: from `initializationState`, repeated `Next` visits the fifteen states
in the listed order and `finalizationState.Next` returns `nil`; from every
state, `Next` returns `nil` within 15 calls, more fuel lists no further
state, and no state type occurs twice on the way. -/
theorem chain_from_initialization (ops : MemberOps M) (channel : Ch) (member : M) :
    ((State.chain ops 15 (.initializationState channel member)).map State.name =
      [.initialization, .join, .ephemeralKeyPairGeneration, .symmetricKeyGeneration,
       .commitment, .commitmentsVerification, .sharesJustification, .qualification,
       .pointsShare, .pointsValidation, .pointsJustification, .keyReveal,
       .reconstruction, .combination, .finalization]) ∧
    State.Next ops (.finalizationState channel member) = none ∧
    (∃ fin, State.nextN ops 14 (.initializationState channel member) = some fin ∧
      fin.name = .finalization) ∧
    (∀ s : State Ch M, State.nextN ops 15 s = none) ∧
    (∀ (s : State Ch M) (k : Nat), State.chain ops (k + 15) s = State.chain ops 15 s) ∧
    (∀ s : State Ch M, (State.chain ops 15 s).length ≤ 15 ∧
      ((State.chain ops 15 s).map State.name).Nodup) := by
  refine ⟨rfl, rfl, ⟨_, rfl, rfl⟩, ?_, ?_, ?_⟩
  · intro s
    cases s <;> rfl
  · intro s k
    cases s <;> rfl
  · intro s
    cases s <;> exact ⟨by simp [State.chain, State.Next], by
      simp [State.chain, State.Next, State.name]⟩

end Gjkr

namespace Gjkr

variable {Ch M : Type}

/-- Counterexample for C8: the member with index 1 whose filter accepts only
sender 2. In `commitmentState` a `MemberCommitmentsMessage` from sender 3,
which the filter rejects, is appended to the commitments messages; in
`joinState` a `JoinMessage` from the member itself and one from the rejected
sender 3 both have their sender added to the group. -/
theorem Receive_sender_check_counterexample :
    exampleOps.IsSenderAccepted exampleMember 3 = false ∧
    State.Receive exampleOps (.commitmentState () exampleMember [] [])
        ⟨.MemberCommitmentsMessage ⟨3, [9]⟩⟩ =
      (.commitmentState () exampleMember [] [⟨3, [9]⟩], none) ∧
    exampleOps.ID exampleMember = 1 ∧
    State.Receive exampleOps (.joinState () exampleMember) ⟨.JoinMessage ⟨1, []⟩⟩ =
      (.joinState () ⟨1, [1, 2, 1], [2]⟩, none) ∧
    State.Receive exampleOps (.joinState () exampleMember) ⟨.JoinMessage ⟨3, []⟩⟩ =
      (.joinState () ⟨1, [1, 2, 3], [2]⟩, none) := by
  decide

/-- C8 (amended): outside `joinState`, whenever `Receive` changes the state
the payload is a protocol message whose sender is not the local member and,
unless it is a `MemberCommitmentsMessage` in `commitmentState`, whose sender
the member's filter accepts. In `joinState` a `JoinMessage` always has its
sender added to the group, without any check of the sender. -/
theorem Receive_takes_only_checked (ops : MemberOps M) (s : State Ch M) (msg : Message) :
    (s.name ≠ .join → (s.Receive ops msg).1 ≠ s →
      ∃ sender, msg.Payload.sender = some sender ∧ sender ≠ ops.ID s.member ∧
        ((s.name = .commitment ∧ ∃ pm, msg.Payload = .MemberCommitmentsMessage pm) ∨
          ops.IsSenderAccepted s.member sender = true)) ∧
    (∀ (channel : Ch) (member : M) (joinMsg : PhaseMessage),
      State.Receive ops (.joinState channel member) ⟨.JoinMessage joinMsg⟩ =
        (.joinState channel (ops.AddToGroup member joinMsg.senderID), none)) := by
  constructor
  · intro hjoin hchange
    obtain ⟨p⟩ := msg
    cases s <;> cases p <;>
      simp only [State.Receive, State.name, ne_eq, not_true_eq_false, not_false_eq_true,
        reduceCtorEq] at hjoin hchange ⊢ <;>
      first
      | exact absurd rfl hchange
      | (split at hchange
         · rename_i hc
           simp [isMessageFromSelf, isSenderAccepted] at hc
           simp [Payload.sender, Payload.message, State.member]
           exact hc
         · exact absurd rfl hchange)
  · intro channel member joinMsg
    rfl

/-- Witness for C8 (amended): a `PeerSharesMessage` from the accepted sender
2 changes the commitment state of the example member, and the sender is then
not the member and accepted; a `JoinMessage` has its sender added. -/
theorem Receive_takes_only_checked_witness :
    (∃ sender,
      (Message.mk (.PeerSharesMessage ⟨2, [9]⟩)).Payload.sender = some sender ∧
      sender ≠ exampleOps.ID (State.commitmentState () exampleMember [] []).member ∧
        (((State.commitmentState () exampleMember [] []).name = .commitment ∧
          ∃ pm, (Message.mk (.PeerSharesMessage ⟨2, [9]⟩)).Payload =
            .MemberCommitmentsMessage pm) ∨
          exampleOps.IsSenderAccepted (State.commitmentState () exampleMember [] []).member
            sender = true)) ∧
    State.Receive exampleOps (.joinState () exampleMember) ⟨.JoinMessage ⟨2, []⟩⟩ =
      (.joinState () (exampleOps.AddToGroup exampleMember 2), none) :=
  ⟨(Receive_takes_only_checked exampleOps (.commitmentState () exampleMember [] [])
      ⟨.PeerSharesMessage ⟨2, [9]⟩⟩).1 (by decide) (by decide),
   (Receive_takes_only_checked exampleOps (.commitmentState () exampleMember [] [])
      ⟨.PeerSharesMessage ⟨2, [9]⟩⟩).2 () exampleMember ⟨2, []⟩⟩

/-- C9: a message whose payload type is not one of the valid message types
of the state is dropped: `Receive` returns `nil` and the state is unchanged. -/
theorem Receive_invalid_type_unchanged (ops : MemberOps M) (s : State Ch M) (msg : Message)
    (h : s.name.isValidPayload msg.Payload = false) :
    s.Receive ops msg = (s, none) := by
  obtain ⟨p⟩ := msg
  cases s <;> cases p <;>
    first
    | rfl
    | (simp [State.name, StateName.isValidPayload] at h)

/-- Witness for C9: a `JoinMessage` arriving in `commitmentState`. -/
theorem Receive_invalid_type_unchanged_witness :
    State.Receive exampleOps (.commitmentState () exampleMember [⟨2, [1]⟩] [])
        ⟨.JoinMessage ⟨2, []⟩⟩ =
      (.commitmentState () exampleMember [⟨2, [1]⟩] [], none) :=
  Receive_invalid_type_unchanged exampleOps (.commitmentState () exampleMember [⟨2, [1]⟩] [])
    ⟨.JoinMessage ⟨2, []⟩⟩ (by decide)

/-- Counterexample for C10: in `ephemeralKeyPairGenerationState` two
`EphemeralPublicKeyMessage`s from the same accepted sender 2 are both
retained, the second one changing the state; so is the same message received
twice. -/
theorem Receive_first_wins_counterexample :
    State.receiveAll exampleOps (.ephemeralKeyPairGenerationState () exampleMember [])
        [⟨.EphemeralPublicKeyMessage ⟨2, [7]⟩⟩, ⟨.EphemeralPublicKeyMessage ⟨2, [8]⟩⟩] =
      .ephemeralKeyPairGenerationState () exampleMember [⟨2, [7]⟩, ⟨2, [8]⟩] ∧
    State.Receive exampleOps (.ephemeralKeyPairGenerationState () exampleMember [⟨2, [7]⟩])
        ⟨.EphemeralPublicKeyMessage ⟨2, [8]⟩⟩ ≠
      (.ephemeralKeyPairGenerationState () exampleMember [⟨2, [7]⟩], none) ∧
    State.receiveAll exampleOps (.commitmentsVerificationState () exampleMember [] [] [])
        [⟨.SecretSharesAccusationsMessage ⟨2, [7]⟩⟩,
         ⟨.SecretSharesAccusationsMessage ⟨2, [7]⟩⟩] =
      .commitmentsVerificationState () exampleMember [] [] [⟨2, [7]⟩, ⟨2, [7]⟩] := by
  decide

/-- C10 (amended): in every state other than `joinState`, each received
message of a valid type for the state whose sender is not the local member and
is accepted by the filter is appended to the list the state keeps for that
type, whether or not an earlier message of that type from the same sender is
already retained; `Receive` returns `nil`, and the state keeps its type and its member. -/
theorem Receive_appends_every_accepted (ops : MemberOps M) (s : State Ch M) (msg : Message)
    (pm : PhaseMessage) (hpm : msg.Payload.message = some pm)
    (hvalid : s.name.isValidPayload msg.Payload = true) (hjoin : s.name ≠ .join)
    (hself : pm.senderID ≠ ops.ID s.member)
    (hacc : ops.IsSenderAccepted s.member pm.senderID = true) :
    (s.Receive ops msg).1.phaseMessagesFor msg.Payload =
      s.phaseMessagesFor msg.Payload ++ [pm] ∧
    (s.Receive ops msg).2 = none ∧
    (s.Receive ops msg).1.name = s.name ∧
    (s.Receive ops msg).1.member = s.member := by
  obtain ⟨p⟩ := msg
  cases s <;> cases p <;>
    simp only [State.name, StateName.isValidPayload, Bool.false_eq_true, ne_eq,
      not_true_eq_false, reduceCtorEq] at hvalid hjoin <;>
    simp only [Payload.message, Option.some.injEq] at hpm <;>
    subst hpm <;>
    simp only [State.member] at hself hacc <;>
    simp [State.Receive, isMessageFromSelf, isSenderAccepted, hacc, hself,
      State.phaseMessagesFor, State.name, State.member]

/-- Witness for C10 (amended): a second `EphemeralPublicKeyMessage` from the
accepted sender 2 is appended after the first. -/
theorem Receive_appends_every_accepted_witness :
    (State.Receive exampleOps
        (.ephemeralKeyPairGenerationState () exampleMember [⟨2, [7]⟩])
        ⟨.EphemeralPublicKeyMessage ⟨2, [8]⟩⟩).1.phaseMessagesFor
        (Message.mk (.EphemeralPublicKeyMessage ⟨2, [8]⟩)).Payload =
      (State.ephemeralKeyPairGenerationState () exampleMember [⟨2, [7]⟩]).phaseMessagesFor
        (Message.mk (.EphemeralPublicKeyMessage ⟨2, [8]⟩)).Payload ++ [⟨2, [8]⟩] ∧
    (State.Receive exampleOps
        (.ephemeralKeyPairGenerationState () exampleMember [⟨2, [7]⟩])
        ⟨.EphemeralPublicKeyMessage ⟨2, [8]⟩⟩).2 = none ∧
    (State.Receive exampleOps
        (.ephemeralKeyPairGenerationState () exampleMember [⟨2, [7]⟩])
        ⟨.EphemeralPublicKeyMessage ⟨2, [8]⟩⟩).1.name =
      (State.ephemeralKeyPairGenerationState () exampleMember [⟨2, [7]⟩]).name ∧
    (State.Receive exampleOps
        (.ephemeralKeyPairGenerationState () exampleMember [⟨2, [7]⟩])
        ⟨.EphemeralPublicKeyMessage ⟨2, [8]⟩⟩).1.member =
      (State.ephemeralKeyPairGenerationState () exampleMember [⟨2, [7]⟩]).member :=
  Receive_appends_every_accepted exampleOps
    (.ephemeralKeyPairGenerationState () exampleMember [⟨2, [7]⟩])
    ⟨.EphemeralPublicKeyMessage ⟨2, [8]⟩⟩ ⟨2, [8]⟩ rfl (by decide) (by decide) (by decide)
    (by decide)

end Gjkr

/-! ## Theorems: `ActiveBlocks`, `Initiate` and the phase messages -/

namespace Gjkr

variable {Ch M : Type}

/-- `Initiate` is the member computation of the state followed by the `Send`
of its messages, in order, up to the first error. -/
theorem Initiate_eq (ops : MemberOps M) (iops : InitiateOps M)
    (cops : ChannelOps Ch) (s : State Ch M) :
    State.Initiate ops iops cops s =
      match s.computation ops iops with
      | (member, .error err) => (s.withMember member, some err)
      | (member, .ok msgs) =>
          (((s.withMember member).withChannel (cops.sendAll s.channel msgs).1),
            (cops.sendAll s.channel msgs).2) := by
  cases s with
  | initializationState c m => rfl
  | joinState c m =>
    rcases h : cops.Send c (Payload.JoinMessage (iops.NewJoinMessage (ops.ID m))) with
      ⟨c', _ | e⟩ <;>
    simp [State.Initiate, State.computation, State.withMember, State.withChannel,
      State.channel, ChannelOps.sendAll, h]
  | ephemeralKeyPairGenerationState c m l =>
    rcases h : iops.GenerateEphemeralKeyPair m with ⟨m', e | msg⟩
    · simp [State.Initiate, State.computation, State.withMember, State.withChannel,
      State.channel, ChannelOps.sendAll, h]
    · rcases h1 : cops.Send c (Payload.EphemeralPublicKeyMessage msg) with ⟨c', _ | e⟩ <;>
      simp [State.Initiate, State.computation, State.withMember, State.withChannel,
      State.channel, ChannelOps.sendAll, h, h1]
  | symmetricKeyGenerationState c m l =>
    rcases h : iops.GenerateSymmetricKeys
      (iops.symmetricKeyGenerationMarkInactiveMembers m l) l with ⟨m', _ | e⟩ <;>
    simp [State.Initiate, State.computation, State.withMember, State.withChannel,
      State.channel, ChannelOps.sendAll, h]
  | commitmentState c m l l' =>
    rcases h : iops.CalculateMembersSharesAndCommitments m with ⟨m', e | ⟨msg, msg'⟩⟩
    · simp [State.Initiate, State.computation, State.withMember, State.withChannel,
      State.channel, ChannelOps.sendAll, h]
    · rcases h1 : cops.Send c (Payload.PeerSharesMessage msg) with ⟨c', _ | e⟩
      · rcases h2 : cops.Send c' (Payload.MemberCommitmentsMessage msg') with ⟨c'', _ | e⟩ <;>
        simp [State.Initiate, State.computation, State.withMember, State.withChannel,
      State.channel, ChannelOps.sendAll, h, h1, h2]
      · simp [State.Initiate, State.computation, State.withMember, State.withChannel,
      State.channel, ChannelOps.sendAll, h, h1]
  | commitmentsVerificationState c m l l' l'' =>
    rcases h : iops.VerifyReceivedSharesAndCommitmentsMessages
      (iops.commitmentsVerificationMarkInactiveMembers m l l') l l' with ⟨m', e | msg⟩
    · simp [State.Initiate, State.computation, State.withMember, State.withChannel,
      State.channel, ChannelOps.sendAll, h]
    · rcases h1 : cops.Send c (Payload.SecretSharesAccusationsMessage msg) with ⟨c', _ | e⟩ <;>
      simp [State.Initiate, State.computation, State.withMember, State.withChannel,
      State.channel, ChannelOps.sendAll, h, h1]
  | sharesJustificationState c m l =>
    rcases h : iops.ResolveSecretSharesAccusationsMessages m l with ⟨m', e | d⟩ <;>
    simp [State.Initiate, State.computation, State.withMember, State.withChannel,
      State.channel, ChannelOps.sendAll, h]
  | qualificationState c m => rfl
  | pointsShareState c m l =>
    rcases h : iops.CalculatePublicKeySharePoints m with ⟨m', msg⟩
    rcases h1 : cops.Send c (Payload.MemberPublicKeySharePointsMessage msg) with ⟨c', _ | e⟩ <;>
    simp [State.Initiate, State.computation, State.withMember, State.withChannel,
      State.channel, ChannelOps.sendAll, h, h1]
  | pointsValidationState c m l l' =>
    rcases h : iops.VerifyPublicKeySharePoints
      (iops.pointsValidationMarkInactiveMembers m l) l with ⟨m', e | msg⟩
    · simp [State.Initiate, State.computation, State.withMember, State.withChannel,
      State.channel, ChannelOps.sendAll, h]
    · rcases h1 : cops.Send c (Payload.PointsAccusationsMessage msg) with ⟨c', _ | e⟩ <;>
      simp [State.Initiate, State.computation, State.withMember, State.withChannel,
      State.channel, ChannelOps.sendAll, h, h1]
  | pointsJustificationState c m l =>
    rcases h : iops.ResolvePublicKeySharePointsAccusationsMessages m l with ⟨m', e | d⟩ <;>
    simp [State.Initiate, State.computation, State.withMember, State.withChannel,
      State.channel, ChannelOps.sendAll, h]
  | keyRevealState c m l =>
    rcases h : iops.RevealDisqualifiedMembersKeys m with ⟨m', e | msg⟩
    · simp [State.Initiate, State.computation, State.withMember, State.withChannel,
      State.channel, ChannelOps.sendAll, h]
    · rcases h1 : cops.Send c (Payload.DisqualifiedEphemeralKeysMessage msg) with ⟨c', _ | e⟩ <;>
      simp [State.Initiate, State.computation, State.withMember, State.withChannel,
      State.channel, ChannelOps.sendAll, h, h1]
  | reconstructionState c m l =>
    rcases h : iops.ReconstructDisqualifiedIndividualKeys
      (iops.reconstructionMarkInactiveMembers m l) l with ⟨m', _ | e⟩ <;>
    simp [State.Initiate, State.computation, State.withMember, State.withChannel,
      State.channel, ChannelOps.sendAll, h]
  | combinationState c m => rfl
  | finalizationState c m => rfl

theorem computation_withChannel {Ch' : Type} (ops : MemberOps M) (iops : InitiateOps M)
    (s : State Ch M) (c : Ch') :
    (s.withChannel c).computation ops iops = s.computation ops iops := by
  cases s <;> rfl

theorem channel_withChannel {Ch' : Type} (s : State Ch M) (c : Ch') :
    (s.withChannel c).channel = c := by
  cases s <;> rfl

theorem channel_withMember (s : State Ch M) (m : M) : (s.withMember m).channel = s.channel := by
  cases s <;> rfl

theorem recording_Send (cops : ChannelOps Ch) (c : Ch) (log : List (Payload × Option String))
    (message : Payload) :
    cops.recording.Send (c, log) message =
      (((cops.Send c message).1, log ++ [(message, (cops.Send c message).2)]),
        (cops.Send c message).2) := rfl

/-- On the recording channel the messages are sent as on the channel it
wraps, and the calls made are added to the list. -/
theorem sendAll_recording (cops : ChannelOps Ch) (msgs : List Payload) :
    ∀ (c : Ch) (log : List (Payload × Option String)),
      cops.recording.sendAll (c, log) msgs =
        (((cops.sendAll c msgs).1, log ++ cops.attempts c msgs), (cops.sendAll c msgs).2) := by
  induction msgs with
  | nil => intro c log; simp [ChannelOps.sendAll, ChannelOps.attempts]
  | cons message rest ih =>
    intro c log
    rcases h : cops.Send c message with ⟨c', _ | e⟩
    · simp [ChannelOps.sendAll, ChannelOps.attempts, recording_Send, h, ih]
    · simp [ChannelOps.sendAll, ChannelOps.attempts, recording_Send, h]

/-- The `Send` calls of `Initiate` are those of sending the messages of the
state in order up to the first error. -/
theorem sends_eq (ops : MemberOps M) (iops : InitiateOps M) (cops : ChannelOps Ch)
    (s : State Ch M) :
    s.sends ops iops cops = cops.attempts s.channel (s.messages ops iops) := by
  unfold State.sends State.messages
  rw [Initiate_eq, computation_withChannel]
  rcases h : s.computation ops iops with ⟨m, e | msgs⟩
  · simp [channel_withMember, channel_withChannel, ChannelOps.attempts]
  · simp [channel_withMember, channel_withChannel, sendAll_recording]

/-- The error `Initiate` returns: that of the member computation, or else
that of sending the messages. -/
theorem Initiate_error_eq (ops : MemberOps M) (iops : InitiateOps M) (cops : ChannelOps Ch)
    (s : State Ch M) :
    (s.Initiate ops iops cops).2 =
      match s.computationError ops iops with
      | some err => some err
      | none => (cops.sendAll s.channel (s.messages ops iops)).2 := by
  unfold State.computationError State.messages
  rw [Initiate_eq]
  rcases h : s.computation ops iops with ⟨m, e | msgs⟩ <;> simp

theorem sendAll_error_eq (cops : ChannelOps Ch) (msgs : List Payload) :
    ∀ c : Ch, (cops.sendAll c msgs).2 = ((cops.attempts c msgs).filterMap Prod.snd).head? := by
  induction msgs with
  | nil => intro c; rfl
  | cons message rest ih =>
    intro c
    rcases h : cops.Send c message with ⟨c', _ | e⟩
    · simp [ChannelOps.sendAll, ChannelOps.attempts, h, ih]
    · simp [ChannelOps.sendAll, ChannelOps.attempts, h]

theorem attempts_stop (cops : ChannelOps Ch) (msgs : List Payload) :
    ∀ (c : Ch) (pre : List (Payload × Option String)) (e : Payload × Option String)
      (post : List (Payload × Option String)),
      cops.attempts c msgs = pre ++ e :: post → e.2 ≠ none →
        post = [] ∧ (cops.sendAll c msgs).2 = e.2 ∧ ∀ x ∈ pre, x.2 = none := by
  induction msgs with
  | nil => intro c pre e post h; simp [ChannelOps.attempts] at h
  | cons message rest ih =>
    intro c pre e post h he
    rcases hs : cops.Send c message with ⟨c', _ | err⟩
    · simp only [ChannelOps.attempts, hs] at h
      cases pre with
      | nil =>
        simp only [List.nil_append, List.cons.injEq] at h
        rw [← h.1] at he
        exact absurd rfl he
      | cons x pre =>
        simp only [List.cons_append, List.cons.injEq] at h
        obtain ⟨hp, hx, hall⟩ := ih c' pre e post h.2 he
        refine ⟨hp, ?_, ?_⟩
        · simpa [ChannelOps.sendAll, hs] using hx
        · intro y hy
          rcases List.mem_cons.1 hy with rfl | hy
          · rw [← h.1]
          · exact hall y hy
    · simp only [ChannelOps.attempts, hs] at h
      cases pre with
      | nil =>
        simp only [List.nil_append, List.cons.injEq] at h
        refine ⟨h.2.symm, ?_, by simp⟩
        rw [← h.1]
        simp [ChannelOps.sendAll, hs]
      | cons x pre =>
        simp only [List.cons_append, List.cons.injEq] at h
        have := h.2
        simp at this

theorem attempts_initial (cops : ChannelOps Ch) (msgs : List Payload) :
    ∀ c : Ch, (cops.attempts c msgs).map Prod.fst <+: msgs := by
  induction msgs with
  | nil => intro c; simp [ChannelOps.attempts]
  | cons message rest ih =>
    intro c
    rcases hs : cops.Send c message with ⟨c', _ | err⟩
    · simp only [ChannelOps.attempts, hs, List.map_cons]
      exact (List.prefix_cons_inj message).2 (ih c')
    · simp only [ChannelOps.attempts, hs, List.map_cons, List.map_nil]
      exact (List.prefix_cons_inj message).2 ⟨_, rfl⟩

theorem attempts_all (cops : ChannelOps Ch) (msgs : List Payload) :
    ∀ c : Ch, (cops.sendAll c msgs).2 = none →
      cops.attempts c msgs = msgs.map (fun message => (message, none)) := by
  induction msgs with
  | nil => intro c _; rfl
  | cons message rest ih =>
    intro c h
    rcases hs : cops.Send c message with ⟨c', _ | err⟩
    · simp only [ChannelOps.sendAll, hs] at h
      simp [ChannelOps.attempts, hs, ih c' h]
    · simp [ChannelOps.sendAll, hs] at h

theorem messages_length_le (ops : MemberOps M) (iops : InitiateOps M) (s : State Ch M) :
    (s.messages ops iops).length ≤ 2 ∧ (s.name ≠ .commitment → (s.messages ops iops).length ≤ 1) ∧
      (s.messages ops iops).Nodup := by
  cases s with
  | initializationState c m => simp [State.messages, State.computation]
  | joinState c m => simp [State.messages, State.computation]
  | ephemeralKeyPairGenerationState c m l =>
    rcases h : iops.GenerateEphemeralKeyPair m with ⟨m', e | msg⟩ <;>
    simp [State.messages, State.computation, h]
  | symmetricKeyGenerationState c m l =>
    rcases h : iops.GenerateSymmetricKeys
      (iops.symmetricKeyGenerationMarkInactiveMembers m l) l with ⟨m', _ | e⟩ <;>
    simp [State.messages, State.computation, h]
  | commitmentState c m l l' =>
    rcases h : iops.CalculateMembersSharesAndCommitments m with ⟨m', e | ⟨msg, msg'⟩⟩ <;>
    simp [State.messages, State.computation, h, State.name]
  | commitmentsVerificationState c m l l' l'' =>
    rcases h : iops.VerifyReceivedSharesAndCommitmentsMessages
      (iops.commitmentsVerificationMarkInactiveMembers m l l') l l' with ⟨m', e | msg⟩ <;>
    simp [State.messages, State.computation, h]
  | sharesJustificationState c m l =>
    rcases h : iops.ResolveSecretSharesAccusationsMessages m l with ⟨m', e | d⟩ <;>
    simp [State.messages, State.computation, h]
  | qualificationState c m => simp [State.messages, State.computation]
  | pointsShareState c m l =>
    rcases h : iops.CalculatePublicKeySharePoints m with ⟨m', msg⟩
    simp [State.messages, State.computation, h]
  | pointsValidationState c m l l' =>
    rcases h : iops.VerifyPublicKeySharePoints
      (iops.pointsValidationMarkInactiveMembers m l) l with ⟨m', e | msg⟩ <;>
    simp [State.messages, State.computation, h]
  | pointsJustificationState c m l =>
    rcases h : iops.ResolvePublicKeySharePointsAccusationsMessages m l with ⟨m', e | d⟩ <;>
    simp [State.messages, State.computation, h]
  | keyRevealState c m l =>
    rcases h : iops.RevealDisqualifiedMembersKeys m with ⟨m', e | msg⟩ <;>
    simp [State.messages, State.computation, h]
  | reconstructionState c m l =>
    rcases h : iops.ReconstructDisqualifiedIndividualKeys
      (iops.reconstructionMarkInactiveMembers m l) l with ⟨m', _ | e⟩ <;>
    simp [State.messages, State.computation, h]
  | combinationState c m => simp [State.messages, State.computation]
  | finalizationState c m => simp [State.messages, State.computation]

theorem messages_of_computationError (ops : MemberOps M) (iops : InitiateOps M) (s : State Ch M)
    (h : s.computationError ops iops ≠ none) : s.messages ops iops = [] := by
  unfold State.computationError at h
  unfold State.messages
  rcases hc : s.computation ops iops with ⟨m, e | msgs⟩
  · rfl
  · rw [hc] at h
    exact absurd rfl h

/-- `Receive` keeps the type of the state. -/
theorem Receive_name (ops : MemberOps M) (s : State Ch M) (msg : Message) :
    (s.Receive ops msg).1.name = s.name := by
  obtain ⟨p⟩ := msg
  cases s <;> cases p <;> simp only [State.Receive] <;> (try split) <;> rfl

/-- C27: `ActiveBlocks` is a constant of the type of the state: 3 for
initialization, join, ephemeralKeyPairGeneration, commitment,
commitmentsVerification, pointsShare and pointsValidation, 1 for keyReveal and
0 for the seven other states. It is never negative, it is the same for any two
states of one type, whatever their members and messages, and `Receive` does
not change it. The states of a run from initialization to finalization wait 22
blocks in all. -/
theorem ActiveBlocks_constant (ops : MemberOps M) (channel : Ch) (member : M) :
    (∀ s : State Ch M,
      (s.name ∈ [StateName.initialization, .join, .ephemeralKeyPairGeneration, .commitment,
          .commitmentsVerification, .pointsShare, .pointsValidation] → s.ActiveBlocks = 3) ∧
      (s.name = .keyReveal → s.ActiveBlocks = 1) ∧
      (s.name ∈ [StateName.symmetricKeyGeneration, .sharesJustification, .qualification,
          .pointsJustification, .reconstruction, .combination, .finalization] →
        s.ActiveBlocks = 0) ∧
      0 ≤ s.ActiveBlocks) ∧
    (∀ s s' : State Ch M, s.name = s'.name → s.ActiveBlocks = s'.ActiveBlocks) ∧
    (∀ (s : State Ch M) (msg : Message), (s.Receive ops msg).1.ActiveBlocks = s.ActiveBlocks) ∧
    (State.chain ops 15 (.initializationState channel member)).length = 15 ∧
    ((State.chain ops 15 (.initializationState channel member)).map State.ActiveBlocks).sum =
      22 := by
  have hname : ∀ s s' : State Ch M, s.name = s'.name → s.ActiveBlocks = s'.ActiveBlocks := by
    intro s s' h
    cases s <;> cases s' <;> first | rfl | (simp [State.name] at h)
  refine ⟨?_, hname, fun s msg => hname _ _ (Receive_name ops s msg), rfl, rfl⟩
  intro s
  cases s <;> simp [State.name, State.ActiveBlocks]

theorem filterMap_sublist_filterMap {α β : Type} (f g : α → Option β)
    (h : ∀ a b, f a = some b → g a = some b) (l : List α) :
    (l.filterMap f).Sublist (l.filterMap g) := by
  induction l with
  | nil => simp
  | cons a l ih =>
    cases hf : f a with
    | none =>
      rw [List.filterMap_cons_none hf]
      cases hg : g a with
      | none => rw [List.filterMap_cons_none hg]; exact ih
      | some b => rw [List.filterMap_cons_some hg]; exact ih.cons _
    | some b =>
      rw [List.filterMap_cons_some hf, List.filterMap_cons_some (h a b hf)]
      exact ih.cons₂ _

theorem acceptedPhaseMessages_cons (ops : MemberOps M) (name : StateName) (member : M)
    (msg : Message) (msgs : List Message) :
    acceptedPhaseMessages ops name member (msg :: msgs) =
      acceptedPhaseMessages ops name member [msg] ++
        acceptedPhaseMessages ops name member msgs := by
  unfold acceptedPhaseMessages
  rw [← List.filterMap_append]
  rfl

/-- One call of `Receive` in a state that keeps phase messages: the message
is appended when it is of the type of the state, not from the member itself
and from an accepted sender. -/
theorem Receive_phaseMessages (ops : MemberOps M) (s : State Ch M) (msg : Message)
    (h : s.name ∈ [StateName.ephemeralKeyPairGeneration, .commitment, .commitmentsVerification,
      .pointsShare, .pointsValidation, .keyReveal]) :
    (s.Receive ops msg).1.member = s.member ∧
    (s.Receive ops msg).1.phaseMessages =
      s.phaseMessages ++ acceptedPhaseMessages ops s.name s.member [msg] := by
  obtain ⟨p⟩ := msg
  cases s <;> simp [State.name] at h <;> cases p <;>
    simp only [State.Receive] <;> (try split_ifs with hc) <;>
    simp_all [acceptedPhaseMessages, State.member, State.phaseMessages, State.name,
      isMessageFromSelf, isSenderAccepted]

theorem receiveAll_phaseMessages (ops : MemberOps M) (msgs : List Message) :
    ∀ s : State Ch M,
      s.name ∈ [StateName.ephemeralKeyPairGeneration, .commitment, .commitmentsVerification,
        .pointsShare, .pointsValidation, .keyReveal] →
      (s.receiveAll ops msgs).name = s.name ∧
      (s.receiveAll ops msgs).phaseMessages =
        s.phaseMessages ++ acceptedPhaseMessages ops s.name s.member msgs := by
  induction msgs with
  | nil => intro s _; simp [State.receiveAll, acceptedPhaseMessages]
  | cons msg msgs ih =>
    intro s h
    have hname := Receive_name ops s msg
    obtain ⟨hmem, hpm⟩ := Receive_phaseMessages ops s msg h
    have := ih (s.Receive ops msg).1 (by rw [hname]; exact h)
    rw [hname, hmem, hpm] at this
    have hfold : s.receiveAll ops (msg :: msgs) = (s.Receive ops msg).1.receiveAll ops msgs := rfl
    rw [hfold]
    refine ⟨this.1, ?_⟩
    rw [this.2, List.append_assoc, ← acceptedPhaseMessages_cons]

/-- The state that `Next` creates has no phase message yet. -/
theorem Next_phaseMessages (ops : MemberOps M) (prev s : State Ch M)
    (h : prev.Next ops = some s) : s.phaseMessages = [] := by
  cases prev <;> simp only [State.Next, Option.some.injEq, reduceCtorEq] at h <;> subst h <;> rfl

/-- C28: in each of the states ephemeralKeyPairGeneration, commitment,
commitmentsVerification, pointsShare, pointsValidation and keyReveal, after
any sequence of `Receive` calls the stored list of phase messages (for
commitment the list of the `PeerSharesMessage`s) is the list the state had,
followed by the received messages of the type of the state whose sender is
not the local member and is accepted by the filter of the member, in the order
of arrival. The state starts with the empty list when `Next` has created it,
so that the stored list is then exactly that subsequence, and `Next` hands the
stored list unchanged to the following state as the messages of the previous
phase. -/
theorem receiveAll_keeps_accepted_in_order (ops : MemberOps M) (s : State Ch M)
    (msgs : List Message)
    (h : s.name ∈ [StateName.ephemeralKeyPairGeneration, .commitment, .commitmentsVerification,
      .pointsShare, .pointsValidation, .keyReveal]) :
    (s.receiveAll ops msgs).phaseMessages =
      s.phaseMessages ++ acceptedPhaseMessages ops s.name s.member msgs ∧
    (∀ prev : State Ch M, prev.Next ops = some s →
      (s.receiveAll ops msgs).phaseMessages =
        acceptedPhaseMessages ops s.name s.member msgs) ∧
    (acceptedPhaseMessages ops s.name s.member msgs).Sublist
      (msgs.filterMap (fun msg => msg.Payload.message)) ∧
    (∃ next, (s.receiveAll ops msgs).Next ops = some next ∧
      next.previousPhaseMessages = (s.receiveAll ops msgs).phaseMessages) := by
  obtain ⟨hname, hpm⟩ := receiveAll_phaseMessages ops msgs s h
  refine ⟨hpm, ?_, ?_, ?_⟩
  · intro prev hprev
    rw [hpm, Next_phaseMessages ops prev s hprev, List.nil_append]
  · unfold acceptedPhaseMessages
    apply filterMap_sublist_filterMap
    rintro ⟨p⟩ b hb
    cases hn : s.name <;> cases p <;> simp only [hn] at hb <;> simp at hb <;>
      simp [Payload.message, hb.2]
  · rw [← hname] at h
    generalize s.receiveAll ops msgs = t at h
    cases t <;> simp [State.name] at h <;> exact ⟨_, rfl, rfl⟩

/-- Witness for C28: the example member, whose filter accepts only sender
2, receives in `ephemeralKeyPairGenerationState` messages from the senders 2,
3 and 1 (itself), a `JoinMessage`, and a second message from sender 2. -/
theorem receiveAll_keeps_accepted_in_order_witness :
    (State.receiveAll exampleOps (.ephemeralKeyPairGenerationState () exampleMember [])
      [⟨.EphemeralPublicKeyMessage ⟨2, [7]⟩⟩, ⟨.EphemeralPublicKeyMessage ⟨3, [8]⟩⟩,
       ⟨.EphemeralPublicKeyMessage ⟨1, [9]⟩⟩, ⟨.JoinMessage ⟨2, []⟩⟩,
       ⟨.EphemeralPublicKeyMessage ⟨2, [6]⟩⟩]).phaseMessages = [⟨2, [7]⟩, ⟨2, [6]⟩] :=
  ((receiveAll_keeps_accepted_in_order exampleOps
    (.ephemeralKeyPairGenerationState () exampleMember [])
    [⟨.EphemeralPublicKeyMessage ⟨2, [7]⟩⟩, ⟨.EphemeralPublicKeyMessage ⟨3, [8]⟩⟩,
     ⟨.EphemeralPublicKeyMessage ⟨1, [9]⟩⟩, ⟨.JoinMessage ⟨2, []⟩⟩,
     ⟨.EphemeralPublicKeyMessage ⟨2, [6]⟩⟩] (by decide)).1).trans (by decide)

/-- Counterexample for C26: the channel fails on the first `Send` only, so
that a second attempt would succeed. In `joinState` and in
`ephemeralKeyPairGenerationState`, `Initiate` of the example member calls
`Send` once and returns its error; the send is not attempted a second time. -/
theorem Initiate_retry_counterexample :
    State.Initiate exampleOps exampleInitiateOps scriptedChannel
        (.joinState [some "send failed"] exampleMember) =
      (.joinState [] exampleMember, some "send failed") ∧
    State.sends exampleOps exampleInitiateOps scriptedChannel
        (.joinState [some "send failed"] exampleMember) =
      [(.JoinMessage ⟨1, []⟩, some "send failed")] ∧
    scriptedChannel.Send [] (.JoinMessage ⟨1, []⟩) = ([], none) ∧
    State.Initiate exampleOps exampleInitiateOps scriptedChannel
        (.ephemeralKeyPairGenerationState [some "send failed"] exampleMember []) =
      (.ephemeralKeyPairGenerationState [] exampleMember [], some "send failed") ∧
    State.sends exampleOps exampleInitiateOps scriptedChannel
        (.ephemeralKeyPairGenerationState [some "send failed"] exampleMember []) =
      [(.EphemeralPublicKeyMessage ⟨1, [1]⟩, some "send failed")] := by
  decide

/-- C26 (amended): a failed `Send` is not retried. In every state `Initiate`
passes each message it has to broadcast to `Send` at most once and in order:
the messages of its `Send` calls are an initial part of the messages of the
state, which are at most two, at most one outside `commitmentState`, and
never the same message twice. When a `Send` returns an error, `Initiate`
returns that error and makes no further `Send`. -/
theorem Initiate_sends_once (ops : MemberOps M) (iops : InitiateOps M) (cops : ChannelOps Ch)
    (s : State Ch M) :
    (s.sends ops iops cops).map Prod.fst <+: s.messages ops iops ∧
    (s.messages ops iops).length ≤ 2 ∧
    (s.name ≠ .commitment → (s.messages ops iops).length ≤ 1) ∧
    ((s.sends ops iops cops).map Prod.fst).Nodup ∧
    (∀ (pre : List (Payload × Option String)) (message : Payload) (err : String)
        (post : List (Payload × Option String)),
      s.sends ops iops cops = pre ++ (message, some err) :: post →
        post = [] ∧ (s.Initiate ops iops cops).2 = some err) := by
  obtain ⟨h2, h1, hnd⟩ := messages_length_le ops iops s
  have hpre := attempts_initial cops (s.messages ops iops) s.channel
  rw [← sends_eq] at hpre
  refine ⟨hpre, h2, h1, hpre.sublist.nodup hnd, ?_⟩
  intro pre message err post hs
  rw [sends_eq] at hs
  obtain ⟨hpost, herr, _⟩ := attempts_stop cops _ _ pre (message, some err) post hs (by simp)
  refine ⟨hpost, ?_⟩
  rw [Initiate_error_eq]
  cases hc : s.computationError ops iops with
  | none => exact herr
  | some e =>
    have := messages_of_computationError ops iops s (by rw [hc]; simp)
    rw [this] at hs
    simp [ChannelOps.attempts] at hs

/-- C29: `Initiate` returns an error exactly when the member computation of
the state fails or a `Send` it makes fails, and the error is the first of
these: that of the member computation, or else that of the first failed
`Send`. After a failed member computation no `Send` is made, and after a
failed `Send` no further one. In `commitmentState` nothing is sent when
`CalculateMembersSharesAndCommitments` fails; otherwise the
`PeerSharesMessage` is sent first, and the `MemberCommitmentsMessage` is sent
after it exactly when that first `Send` succeeded. In the states
initialization, qualification, combination and finalization `Initiate`
returns `nil` and sends nothing. -/
theorem Initiate_returns_first_error (ops : MemberOps M) (iops : InitiateOps M)
    (cops : ChannelOps Ch) (s : State Ch M) :
    ((s.Initiate ops iops cops).2 ≠ none ↔
      s.computationError ops iops ≠ none ∨ ∃ e ∈ s.sends ops iops cops, e.2 ≠ none) ∧
    ((s.Initiate ops iops cops).2 =
      match s.computationError ops iops with
      | some err => some err
      | none => ((s.sends ops iops cops).filterMap Prod.snd).head?) ∧
    (s.computationError ops iops ≠ none → s.sends ops iops cops = []) ∧
    (∀ (pre : List (Payload × Option String)) (e : Payload × Option String)
        (post : List (Payload × Option String)),
      s.sends ops iops cops = pre ++ e :: post → e.2 ≠ none → post = []) ∧
    ((s.Initiate ops iops cops).2 = none →
      s.sends ops iops cops = (s.messages ops iops).map (fun message => (message, none))) ∧
    (∀ (channel : Ch) (member : M) (l l' : List PhaseMessage),
      (∀ member' err,
        iops.CalculateMembersSharesAndCommitments member = (member', .error err) →
          State.sends ops iops cops (.commitmentState channel member l l') = [] ∧
          (State.Initiate ops iops cops (.commitmentState channel member l l')).2 = some err) ∧
      (∀ member' sharesMsg commitmentsMsg,
        iops.CalculateMembersSharesAndCommitments member =
            (member', .ok (sharesMsg, commitmentsMsg)) →
          (∀ err, (cops.Send channel (.PeerSharesMessage sharesMsg)).2 = some err →
            State.sends ops iops cops (.commitmentState channel member l l') =
              [(.PeerSharesMessage sharesMsg, some err)] ∧
            (State.Initiate ops iops cops (.commitmentState channel member l l')).2 =
              some err) ∧
          ((cops.Send channel (.PeerSharesMessage sharesMsg)).2 = none →
            State.sends ops iops cops (.commitmentState channel member l l') =
              [(.PeerSharesMessage sharesMsg, none),
               (.MemberCommitmentsMessage commitmentsMsg,
                 (cops.Send (cops.Send channel (.PeerSharesMessage sharesMsg)).1
                   (.MemberCommitmentsMessage commitmentsMsg)).2)] ∧
            (State.Initiate ops iops cops (.commitmentState channel member l l')).2 =
              (cops.Send (cops.Send channel (.PeerSharesMessage sharesMsg)).1
                (.MemberCommitmentsMessage commitmentsMsg)).2))) ∧
    (s.name ∈ [StateName.initialization, .qualification, .combination, .finalization] →
      (s.Initiate ops iops cops).2 = none ∧ s.sends ops iops cops = []) := by
  have hfirst : (s.Initiate ops iops cops).2 =
      match s.computationError ops iops with
      | some err => some err
      | none => ((s.sends ops iops cops).filterMap Prod.snd).head? := by
    rw [Initiate_error_eq, sends_eq]
    cases hc : s.computationError ops iops with
    | some e => rfl
    | none => exact sendAll_error_eq cops _ _
  have hnone : s.computationError ops iops ≠ none → s.sends ops iops cops = [] := by
    intro h
    rw [sends_eq, messages_of_computationError ops iops s h]
    rfl
  refine ⟨?_, hfirst, hnone, ?_, ?_, ?_, ?_⟩
  · rw [hfirst]
    cases hc : s.computationError ops iops with
    | some e => simp
    | none =>
      simp [List.head?_eq_none_iff]
  · intro pre e post hs he
    rw [sends_eq] at hs
    exact (attempts_stop cops _ _ pre e post hs he).1
  · intro h
    rw [Initiate_error_eq] at h
    cases hc : s.computationError ops iops with
    | some e => rw [hc] at h; simp at h
    | none =>
      rw [hc] at h
      rw [sends_eq]
      exact attempts_all cops _ _ h
  · intro channel member l l'
    constructor
    · intro member' err hcalc
      simp [State.sends, State.withChannel, State.channel, State.Initiate, hcalc]
    · intro member' sharesMsg commitmentsMsg hcalc
      constructor
      · intro err hsend
        rcases h1 : cops.Send channel (Payload.PeerSharesMessage sharesMsg) with ⟨c', e⟩
        rw [h1] at hsend
        simp only at hsend
        subst hsend
        simp [State.sends, State.withChannel, State.channel, State.Initiate, hcalc, h1,
          recording_Send]
      · intro hsend
        rcases h1 : cops.Send channel (Payload.PeerSharesMessage sharesMsg) with ⟨c', e⟩
        rw [h1] at hsend
        simp only at hsend
        subst hsend
        rcases h2 : cops.Send c' (Payload.MemberCommitmentsMessage commitmentsMsg) with
          ⟨c'', _ | e⟩ <;>
        simp [State.sends, State.withChannel, State.channel, State.Initiate, hcalc, h1, h2,
          recording_Send]
  · intro h
    cases s <;> simp [State.name] at h <;> exact ⟨rfl, rfl⟩

end Gjkr

/-! ## Theorems: threshold group members -/

set_option linter.unusedSectionVars false

namespace Thresholdgroup

variable {F G : Type} [CommRing F] [DecidableEq F] [AddCommGroup G] [Module F G]
  [DecidableEq G]

/-! ### Maps -/

theorem lookup_foldl_erase {V : Type} (ks : List F) (m : GoMap F V) (k : F) :
    (ks.foldl (fun (s : GoMap F V) a => s.erase a) m).lookup k =
      if k ∈ ks then none else m.lookup k := by
  induction ks generalizing m with
  | nil => simp
  | cons a ks ih =>
    rw [List.foldl_cons, ih]
    by_cases hk : k ∈ ks
    · simp [hk]
    · by_cases hka : k = a
      · subst hka
        simp [hk, AList.lookup_erase]
      · simp [hk, hka, AList.lookup_erase_ne hka]

theorem lookup_deleteAccused (pending : List (Sigma fun _ : F => GoMap F Bool))
    (rs : GoMap F F) (k : F) :
    (deleteAccused pending rs).lookup k =
      if isPendingAccused pending k = true then none else rs.lookup k := by
  unfold deleteAccused isPendingAccused
  induction pending generalizing rs with
  | nil => simp
  | cons e pending ih =>
    rw [List.foldl_cons, ih, lookup_foldl_erase, List.any_cons]
    by_cases h1 : (pending.any fun accuser => decide (k ∈ accuser.2.keys)) = true
    · simp [h1]
    · by_cases h2 : k ∈ e.2.keys
      · simp [h1, h2]
      · simp [h1, h2]

theorem mem_keys_iff_lookup {V : Type} (m : GoMap F V) (k : F) :
    k ∈ m.keys ↔ (m.lookup k).isSome = true := by
  rw [AList.lookup_isSome, AList.mem_keys]

theorem keys_foldl_erase {V : Type} (ks : List F) (m : GoMap F V) :
    (ks.foldl (fun (s : GoMap F V) a => s.erase a) m).keys =
      m.keys.filter (fun k => !decide (k ∈ ks)) := by
  induction ks generalizing m with
  | nil => simp
  | cons a ks ih =>
    rw [List.foldl_cons, ih, AList.keys_erase, m.keys_nodup.erase_eq_filter, List.filter_filter]
    congr 1
    funext k
    by_cases hka : k = a <;> by_cases hk : k ∈ ks <;> simp [hka, hk]

theorem keys_deleteAccused (pending : List (Sigma fun _ : F => GoMap F Bool))
    (rs : GoMap F F) :
    (deleteAccused pending rs).keys = rs.keys.filter (fun k => !isPendingAccused pending k) := by
  unfold deleteAccused isPendingAccused
  induction pending generalizing rs with
  | nil => simp
  | cons e pending ih =>
    rw [List.foldl_cons, ih, keys_foldl_erase, List.filter_filter]
    congr 1
    funext k
    simp only [List.any_cons, Bool.not_or, Bool.and_comm]

theorem copyInto_spec (dst src : List G) :
    (src.length ≤ dst.length →
      ∃ r, copyInto dst src = some r ∧ r.length = dst.length ∧
        r.headD 0 = if src = [] then dst.headD 0 else src.headD 0) ∧
    (dst.length < src.length → copyInto dst src = none) := by
  induction dst generalizing src with
  | nil =>
    cases src with
    | nil => simp [copyInto]
    | cons c src => simp [copyInto]
  | cons d dst ih =>
    cases src with
    | nil => simp [copyInto]
    | cons c src =>
      simp only [copyInto, List.length_cons, Nat.add_le_add_iff_right, Nat.add_lt_add_iff_right]
      constructor
      · intro h
        obtain ⟨r, hr, hlen, _⟩ := (ih src).1 h
        exact ⟨c :: r, by simp [hr], by simp [hlen], by simp⟩
      · intro h
        simp [(ih src).2 h]

theorem addInto_spec (dst set : List G) :
    (set.length ≤ dst.length →
      ∃ r, addInto dst set = some r ∧ r.length = dst.length ∧
        r.headD 0 = dst.headD 0 + (if dst = [] then 0 else set.headD 0)) ∧
    (dst.length < set.length → addInto dst set = none) := by
  induction dst generalizing set with
  | nil =>
    cases set with
    | nil => simp [addInto]
    | cons c set => simp [addInto]
  | cons d dst ih =>
    cases set with
    | nil => simp [addInto]
    | cons c set =>
      simp only [addInto, List.length_cons, Nat.add_le_add_iff_right, Nat.add_lt_add_iff_right]
      constructor
      · intro h
        obtain ⟨r, hr, hlen, _⟩ := (ih set).1 h
        exact ⟨(d + c) :: r, by simp [hr], by simp [hlen], by simp⟩
      · intro h
        simp [(ih set).2 h]

theorem addAllInto_spec (sets : List (List G)) :
    ∀ dst : List G,
      ((∀ set ∈ sets, set.length ≤ dst.length) →
        ∃ r, addAllInto dst sets = some r ∧ r.length = dst.length ∧
          r.headD 0 = dst.headD 0 +
            (if dst = [] then 0 else (sets.map (fun set => set.headD 0)).sum)) ∧
      ((∃ set ∈ sets, dst.length < set.length) → addAllInto dst sets = none) := by
  induction sets with
  | nil =>
    intro dst
    simp [addAllInto]
  | cons set sets ih =>
    intro dst
    constructor
    · intro h
      obtain ⟨r1, hr1, hlen1, hhead1⟩ := (addInto_spec dst set).1 (h set (List.mem_cons_self _ _))
      obtain ⟨r, hr, hlen, hhead⟩ := (ih r1).1
        (fun s hs => by rw [hlen1]; exact h s (List.mem_cons_of_mem _ hs))
      refine ⟨r, by simp [addAllInto, hr1, hr], by rw [hlen, hlen1], ?_⟩
      rw [hhead, hhead1]
      have hiff : r1 = [] ↔ dst = [] := by
        rw [← List.length_eq_zero, ← List.length_eq_zero (l := dst), hlen1]
      by_cases hd : dst = []
      · simp [hd, hiff.2 hd]
      · have hr1ne : ¬ r1 = [] := fun h' => hd (hiff.1 h')
        simp only [hd, hr1ne, if_false, List.map_cons, List.sum_cons]
        abel
    · rintro ⟨s, hs, hlt⟩
      rcases Nat.lt_or_ge dst.length set.length with hset | hset
      · simp [addAllInto, (addInto_spec dst set).2 hset]
      · obtain ⟨r1, hr1, hlen1, _⟩ := (addInto_spec dst set).1 hset
        rcases List.mem_cons.1 hs with rfl | hmem
        · omega
        · simp only [addAllInto, hr1]
          exact (ih r1).2 ⟨s, hmem, by rw [hlen1]; exact hlt⟩

theorem FinalizeMember_eq_some (jm : JustifyingMember F G) (h0 : 0 < jm.threshold)
    (hown : jm.shareCommitments.length ≤ jm.threshold)
    (hsets : ∀ set ∈ GoMap.values jm.commitments, set.length ≤ jm.threshold) :
    ∃ groupPublicKey,
      jm.FinalizeMember = some
        { toJustifyingMember := jm.deleteUnjustifiedShares
          groupSecretKeyShare :=
            (GoMap.values jm.deleteUnjustifiedShares.receivedShares).foldl
              (fun acc share => acc + share) (jm.toSharingMember.SecretShareForID jm.BlsID)
          groupPublicKey := groupPublicKey
          qualifiedMembers := jm.deleteUnjustifiedShares.receivedShares.keys } ∧
      groupPublicKey = zeroth jm.shareCommitments +
        ((GoMap.values jm.commitments).map zeroth).sum := by
  obtain ⟨r1, hr1, hlen1, hhead1⟩ :=
    (copyInto_spec (List.replicate jm.threshold (0 : G)) jm.shareCommitments).1
      (by simpa using hown)
  obtain ⟨r2, hr2, hlen2, hhead2⟩ :=
    (addAllInto_spec (GoMap.values jm.commitments) r1).1
      (fun s hs => by rw [hlen1]; simpa using hsets s hs)
  have hr1ne : ¬ r1 = [] := by
    intro h
    rw [h] at hlen1
    simp at hlen1
    omega
  have hrep : (List.replicate jm.threshold (0 : G)).headD 0 = 0 := by
    cases jm.threshold <;> simp [List.replicate]
  cases hr2c : r2 with
  | nil =>
    rw [hr2c] at hlen2
    rw [hlen1] at hlen2
    simp at hlen2
    omega
  | cons pk rest =>
    refine ⟨pk, ?_, ?_⟩
    · simp only [JustifyingMember.FinalizeMember, JustifyingMember.deleteUnjustifiedShares,
        SharingMember.SecretShareForID] at hr1 hr2 ⊢
      rw [hr1]
      simp only []
      rw [hr2, hr2c]
    · rw [hr2c] at hhead2
      simp only [List.headD_cons, hr1ne, if_false] at hhead2
      rw [hhead2, hhead1, hrep]
      unfold zeroth
      by_cases hs : jm.shareCommitments = []
      · simp [hs]
      · simp [hs]

theorem FinalizeMember_eq_none (jm : JustifyingMember F G)
    (h : jm.threshold = 0 ∨ jm.threshold < jm.shareCommitments.length ∨
      ∃ set ∈ GoMap.values jm.commitments, jm.threshold < set.length) :
    jm.FinalizeMember = none := by
  simp only [JustifyingMember.FinalizeMember, JustifyingMember.deleteUnjustifiedShares]
  rcases Nat.lt_or_ge jm.threshold jm.shareCommitments.length with hown | hown
  · rw [(copyInto_spec (List.replicate jm.threshold (0 : G)) jm.shareCommitments).2
      (by simpa using hown)]
  · obtain ⟨r1, hr1, hlen1, _⟩ :=
      (copyInto_spec (List.replicate jm.threshold (0 : G)) jm.shareCommitments).1
        (by simpa using hown)
    rw [hr1]
    simp only []
    by_cases hsets : ∃ set ∈ GoMap.values jm.commitments, jm.threshold < set.length
    · obtain ⟨s, hs, hlt⟩ := hsets
      rw [(addAllInto_spec (GoMap.values jm.commitments) r1).2
        ⟨s, hs, by rw [hlen1]; simpa using hlt⟩]
    · have h0 : jm.threshold = 0 := by
        rcases h with h | h | h
        · exact h
        · omega
        · exact absurd h hsets
      obtain ⟨r2, hr2, hlen2, _⟩ :=
        (addAllInto_spec (GoMap.values jm.commitments) r1).1
          (fun s hs => by
            rw [hlen1]
            simp only [List.length_replicate]
            by_contra hc
            exact hsets ⟨s, hs, by omega⟩)
      rw [hr2]
      have : r2 = [] := by
        rw [← List.length_eq_zero, hlen2, hlen1]
        simp [h0]
      rw [this]

theorem foldl_add_eq_sum (l : List F) (init : F) :
    l.foldl (fun acc share => acc + share) init = init + l.sum := by
  induction l generalizing init with
  | nil => simp
  | cons a l ih =>
    rw [List.foldl_cons, ih, List.sum_cons]
    ring

theorem keys_map_lookup_eq_values {V : Type} (d : V) (m : GoMap F V) :
    m.keys.map (fun k => (m.lookup k).getD d) = GoMap.values m := by
  obtain ⟨l, nd⟩ := m
  simp only [AList.keys, AList.lookup, GoMap.values]
  induction l with
  | nil => rfl
  | cons e l ih =>
    obtain ⟨a, b⟩ := e
    have hnot : a ∉ l.keys := List.not_mem_keys_of_nodupKeys_cons nd
    have nd' : l.NodupKeys := List.nodupKeys_of_nodupKeys_cons nd
    simp only [List.keys_cons, List.map_cons, List.dlookup_cons_eq, Option.getD_some]
    congr 1
    rw [← ih nd']
    apply List.map_congr_left
    intro k hk
    have hka : k ≠ a := fun h => hnot (h ▸ hk)
    rw [List.dlookup_cons_ne l ⟨a, b⟩ hka]

theorem perm_foldl_erase {V : Type} (ks : List F) (m m' : GoMap F V)
    (h : m'.entries.Perm m.entries) :
    (ks.foldl (fun (s : GoMap F V) a => s.erase a) m').entries.Perm
      (ks.foldl (fun (s : GoMap F V) a => s.erase a) m).entries := by
  induction ks generalizing m m' with
  | nil => exact h
  | cons a ks ih => exact ih _ _ (AList.perm_erase h)

theorem perm_deleteAccused (pending : List (Sigma fun _ : F => GoMap F Bool))
    (rs rs' : GoMap F F) (h : rs'.entries.Perm rs.entries) :
    (deleteAccused pending rs').entries.Perm (deleteAccused pending rs).entries := by
  unfold deleteAccused
  induction pending generalizing rs rs' with
  | nil => exact h
  | cons e pending ih => exact ih _ _ (perm_foldl_erase _ _ _ h)

/-- What `FinalizeMember` returns, whenever it returns. -/
theorem FinalizeMember_some_fields (jm : JustifyingMember F G) (m : Member F G)
    (h : jm.FinalizeMember = some m) :
    m.toJustifyingMember = jm.deleteUnjustifiedShares ∧
    m.groupSecretKeyShare =
      (GoMap.values jm.deleteUnjustifiedShares.receivedShares).foldl
        (fun acc share => acc + share) (jm.toSharingMember.SecretShareForID jm.BlsID) ∧
    m.groupPublicKey = zeroth jm.shareCommitments +
      ((GoMap.values jm.commitments).map zeroth).sum ∧
    m.qualifiedMembers = jm.deleteUnjustifiedShares.receivedShares.keys ∧
    0 < jm.threshold ∧ jm.shareCommitments.length ≤ jm.threshold ∧
    ∀ set ∈ GoMap.values jm.commitments, set.length ≤ jm.threshold := by
  by_cases hc : 0 < jm.threshold ∧ jm.shareCommitments.length ≤ jm.threshold ∧
      ∀ set ∈ GoMap.values jm.commitments, set.length ≤ jm.threshold
  · obtain ⟨pk, hs, hpk⟩ := FinalizeMember_eq_some jm hc.1 hc.2.1 hc.2.2
    rw [hs] at h
    cases h
    exact ⟨rfl, rfl, hpk, rfl, hc⟩
  · exfalso
    have hnone : jm.FinalizeMember = none := by
      apply FinalizeMember_eq_none
      by_contra hcon
      apply hc
      refine ⟨?_, ?_, ?_⟩
      · by_contra h0
        exact hcon (Or.inl (by omega))
      · by_contra h1
        exact hcon (Or.inr (Or.inl (by omega)))
      · intro set hset
        by_contra h2
        exact hcon (Or.inr (Or.inr ⟨set, hset, by omega⟩))
    rw [hnone] at h
    cases h

theorem mem_qualifiedMembers_iff (jm : JustifyingMember F G) (m : Member F G)
    (h : jm.FinalizeMember = some m) (k : F) :
    k ∈ m.qualifiedMembers ↔
      k ∈ jm.receivedShares.keys ∧
        isPendingAccused jm.pendingJustificationIDs.entries k = false := by
  obtain ⟨_, _, _, hq, _⟩ := FinalizeMember_some_fields jm m h
  rw [hq]
  simp only [JustifyingMember.deleteUnjustifiedShares, keys_deleteAccused, List.mem_filter,
    Bool.not_eq_true']

/-- Counterexample for C11: member 1 of the example group with threshold 2
and no received share at all, so that not a single other member is qualified,
is still finalized into a Member, with an empty list of qualified members;
`finalizationState.Initiate` returns `nil`. -/
theorem FinalizeMember_unchecked_counterexample :
    exampleSharing.InitializeJustification.threshold = 2 ∧
    exampleSharing.InitializeJustification.receivedShares.keys = [] ∧
    (exampleSharing.InitializeJustification.FinalizeMember).map
      (fun m => m.qualifiedMembers) = some [] ∧
    (Gjkr.finalizationStateInitiate
      (Gjkr.State.finalizationState () Gjkr.exampleMember)).2 = none := by
  decide

/-- `FinalizeMember` returns a Member exactly when the threshold is at least
1 and neither the member's own commitments nor any recorded list of
commitments is longer than the threshold. -/
theorem FinalizeMember_isSome_iff (jm : JustifyingMember F G) :
    (∃ m, jm.FinalizeMember = some m) ↔
      (0 < jm.threshold ∧ jm.shareCommitments.length ≤ jm.threshold ∧
        ∀ set ∈ GoMap.values jm.commitments, set.length ≤ jm.threshold) := by
  constructor
  · rintro ⟨m, hm⟩
    exact (FinalizeMember_some_fields jm m hm).2.2.2.2
  · rintro ⟨h0, h1, h2⟩
    obtain ⟨pk, hs, _⟩ := FinalizeMember_eq_some jm h0 h1 h2
    exact ⟨_, hs⟩

/-- C11 (amended): `FinalizeMember` does not look at the number of qualified
members. Whenever the threshold is at least 1 and neither the member's own
commitments nor any recorded list of commitments is longer than the threshold
it returns a Member, and whether it returns one does not depend on the
received shares or on the pending justifications;
`finalizationState.Initiate` returns `nil` and leaves the state as it is. -/
theorem FinalizeMember_ignores_qualified_count (jm : JustifyingMember F G) :
    ((0 < jm.threshold ∧ jm.shareCommitments.length ≤ jm.threshold ∧
        ∀ set ∈ GoMap.values jm.commitments, set.length ≤ jm.threshold) →
      ∃ m, jm.FinalizeMember = some m) ∧
    (∀ (receivedShares : GoMap F F) (pending : GoMap F (GoMap F Bool)),
      (∃ m, ({ jm with receivedShares := receivedShares
                       pendingJustificationIDs := pending } :
          JustifyingMember F G).FinalizeMember = some m) ↔
        ∃ m, jm.FinalizeMember = some m) ∧
    (∀ (Ch M : Type) (fs : Gjkr.State Ch M), Gjkr.finalizationStateInitiate fs = (fs, none)) := by
  refine ⟨(FinalizeMember_isSome_iff jm).2, ?_, fun _ _ _ => rfl⟩
  intro rs pending
  rw [FinalizeMember_isSome_iff, FinalizeMember_isSome_iff]

/-- C12: evaluation at the failing input. In the example group member 2 has
accused member 3 and no justification has arrived, so `FinalizeMember` removes
the share of member 3 and only member 2 is qualified; the group public key is
nevertheless `4 + 3 + 6`, the sum of the zeroth commitments of the members 1,
2 and 3, and not `4 + 3`, the sum over member 1 and the qualified member 2. -/
theorem FinalizeMember_groupPublicKey_failing :
    exampleAccused.commitments.lookup 3 = some [6, 1] ∧
    exampleAccused.FinalizeMember.map (fun m => m.qualifiedMembers) = some [2] ∧
    exampleAccused.FinalizeMember.map (fun m => m.receivedShares.lookup 3) = some none ∧
    exampleAccused.FinalizeMember.map (fun m => m.groupPublicKey) = some (4 + 3 + 6) ∧
    exampleAccused.FinalizeMember.map (fun m => m.groupPublicKey) ≠ some (4 + 3) := by
  decide

/-- C13: whenever `FinalizeMember` returns (the conditions are those under
which it does not panic), the group secret key share is the member's own
share for its own ID plus the sum of the received shares of exactly the
members in `qualifiedMembers`; it is the same for every order of the entries
of `receivedShares`, and `memberShares` is unchanged. -/
theorem FinalizeMember_groupSecretKeyShare (jm : JustifyingMember F G)
    (h0 : 0 < jm.threshold) (hown : jm.shareCommitments.length ≤ jm.threshold)
    (hsets : ∀ set ∈ GoMap.values jm.commitments, set.length ≤ jm.threshold) :
    ∃ m, jm.FinalizeMember = some m ∧
      m.groupSecretKeyShare = jm.toSharingMember.SecretShareForID jm.BlsID +
        (m.qualifiedMembers.map (fun i => (jm.receivedShares.lookup i).getD 0)).sum ∧
      m.memberShares = jm.memberShares ∧
      (∀ i, i ∈ m.qualifiedMembers ↔ i ∈ m.receivedShares.keys) ∧
      ∀ receivedShares : GoMap F F, receivedShares.entries.Perm jm.receivedShares.entries →
        ∃ m', ({ jm with receivedShares := receivedShares } :
            JustifyingMember F G).FinalizeMember = some m' ∧
          m'.groupSecretKeyShare = m.groupSecretKeyShare := by
  obtain ⟨pk, hs, _⟩ := FinalizeMember_eq_some jm h0 hown hsets
  refine ⟨_, hs, ?_, rfl, fun i => Iff.rfl, ?_⟩
  · simp only [foldl_add_eq_sum]
    congr 1
    rw [← keys_map_lookup_eq_values 0]
    congr 1
    apply List.map_congr_left
    intro k hk
    simp only [JustifyingMember.deleteUnjustifiedShares] at hk ⊢
    rw [lookup_deleteAccused]
    rw [keys_deleteAccused, List.mem_filter] at hk
    have : ¬ isPendingAccused jm.pendingJustificationIDs.entries k = true := by simpa using hk.2
    rw [if_neg this]
  · intro rs hperm
    obtain ⟨pk', hs', _⟩ := FinalizeMember_eq_some
      ({ jm with receivedShares := rs } : JustifyingMember F G) h0 hown hsets
    refine ⟨_, hs', ?_⟩
    simp only [foldl_add_eq_sum, SharingMember.SecretShareForID,
      JustifyingMember.deleteUnjustifiedShares, GoMap.values]
    congr 1
    exact ((perm_deleteAccused jm.pendingJustificationIDs.entries jm.receivedShares rs
      hperm).map _).sum_eq

/-- Witness for C13: member 1 of the example group after the valid shares of
the members 2 and 3. -/
theorem FinalizeMember_groupSecretKeyShare_witness :
    ∃ m, exampleShared.InitializeJustification.FinalizeMember = some m ∧
      m.groupSecretKeyShare =
        exampleShared.InitializeJustification.toSharingMember.SecretShareForID
          exampleShared.InitializeJustification.BlsID +
        (m.qualifiedMembers.map (fun i =>
          (exampleShared.InitializeJustification.receivedShares.lookup i).getD 0)).sum ∧
      m.memberShares = exampleShared.InitializeJustification.memberShares ∧
      (∀ i, i ∈ m.qualifiedMembers ↔ i ∈ m.receivedShares.keys) ∧
      ∀ receivedShares : GoMap (ZMod 11) (ZMod 11),
        receivedShares.entries.Perm
          exampleShared.InitializeJustification.receivedShares.entries →
        ∃ m', ({ exampleShared.InitializeJustification with
            receivedShares := receivedShares } :
            JustifyingMember (ZMod 11) (ZMod 11)).FinalizeMember = some m' ∧
          m'.groupSecretKeyShare = m.groupSecretKeyShare :=
  FinalizeMember_groupSecretKeyShare exampleShared.InitializeJustification (by decide)
    (by decide) (by decide)

/-- C14: evaluation at the failing input. Member 1 of the example group has
no received share yet, so every entry of `receivedShares` is valid. Member 3,
accused by member 1, justifies with the share 7, which is valid for the
commitments of member 3. `RecordJustificationFromID` stores the share under
the ID of the accuser, member 1 itself: the entry `receivedShares[1] = 7` does
not satisfy `isValidShare(1, 7)`, and member 3 still has no entry. -/
theorem receivedShares_invariant_failing :
    exampleSharing.InitializeJustification.receivedShares.keys = [] ∧
    exampleSharing.InitializeJustification.toSharingMember.isValidShare 1 3 7 = true ∧
    (exampleSharing.InitializeJustification.RecordJustificationFromID 1 3 1
      7).receivedShares.lookup 1 = some 7 ∧
    (exampleSharing.InitializeJustification.RecordJustificationFromID 1 3 1
      7).toSharingMember.isValidShare 1 1 7 = false ∧
    (exampleSharing.InitializeJustification.RecordJustificationFromID 1 3 1
      7).receivedShares.lookup 3 = none ∧
    (exampleSharing.InitializeJustification.RecordJustificationFromID 1 3 1
      7).commitments.keys = exampleSharing.commitments.keys := by
  decide

/-- C17: `AddShareFromID` associates the share with the sender if and only
if the share is valid with respect to the commitments recorded for the sender.
When it is valid the sender's entry is the share afterwards and every other
entry is unchanged; when it is not, the member is unchanged altogether, so the
sender's entry, if any, is the one it had before. Nothing but `receivedShares`
ever changes. -/
theorem AddShareFromID_iff_valid (generator : G) (sm : SharingMember F G) (senderID : F)
    (share : F) :
    (sm.AddShareFromID generator senderID share).receivedShares.lookup senderID =
      (if sm.isValidShare generator senderID share = true then some share
       else sm.receivedShares.lookup senderID) ∧
    (∀ k, k ≠ senderID →
      (sm.AddShareFromID generator senderID share).receivedShares.lookup k =
        sm.receivedShares.lookup k) ∧
    (sm.isValidShare generator senderID share = false →
      sm.AddShareFromID generator senderID share = sm) ∧
    (sm.isValidShare generator senderID share = true →
      (sm.AddShareFromID generator senderID share).receivedShares =
        sm.receivedShares.insert senderID share) ∧
    (sm.AddShareFromID generator senderID share).toLocalMember = sm.toLocalMember ∧
    (sm.AddShareFromID generator senderID share).memberShares = sm.memberShares ∧
    (sm.AddShareFromID generator senderID share).commitments = sm.commitments ∧
    (sm.isValidShare generator senderID share = true ↔
      publicKeySet ((sm.commitments.lookup senderID).getD []) sm.BlsID =
        getPublicKey generator share) := by
  unfold SharingMember.AddShareFromID
  cases hv : sm.isValidShare generator senderID share with
  | false =>
    simp only [Bool.false_eq_true, if_false, true_and, implies_true, false_implies, false_iff]
    intro h
    simp [SharingMember.isValidShare, h] at hv
  | true =>
    simp only [if_true, true_and, AList.lookup_insert, implies_true, Bool.true_eq_false,
      false_implies, true_iff]
    refine ⟨fun k hk => AList.lookup_insert_ne hk, ?_⟩
    simpa [SharingMember.isValidShare] using hv

/-- C18: evaluation at the failing input. In the example group member 1 has
received the valid share 5 from member 2 and the invalid share 8 from member
3, one call of `AddShareFromID` for each other member; `SharesComplete` is
false, as the invalid share left no entry. -/
theorem SharesComplete_failing :
    exampleSharing.OtherMemberIDs = some [2, 3] ∧
    exampleSharing.isValidShare 1 2 5 = true ∧
    exampleSharing.isValidShare 1 3 8 = false ∧
    ((exampleSharing.AddShareFromID 1 2 5).AddShareFromID 1 3 8).SharesComplete = false ∧
    ((exampleSharing.AddShareFromID 1 2 5).AddShareFromID 1 3 8).receivedShares.keys = [2] := by
  decide

/-- Counterexample for C19: in the example group of size 3, with commitments
recorded under the member's own ID 1 and under the ID 2, `CommitmentsComplete`
is true although member 3 has sent none; with commitments recorded under the
IDs 1, 2 and 3 it is false although both other members have sent theirs; and
with commitments recorded under the ID 2 and the ID 9, which is not in the
group, it is true. -/
theorem CommitmentsComplete_counterexample :
    exampleLocal.InitializeSharing.OtherMemberIDs = some [2, 3] ∧
    ((exampleLocal.InitializeSharing.AddCommitmentsFromID 1 [4, 5]).AddCommitmentsFromID 2
      [3, 2]).CommitmentsComplete = true ∧
    ((exampleLocal.InitializeSharing.AddCommitmentsFromID 1 [4, 5]).AddCommitmentsFromID 2
      [3, 2]).commitments.lookup 3 = none ∧
    (((exampleLocal.InitializeSharing.AddCommitmentsFromID 1 [4, 5]).AddCommitmentsFromID 2
      [3, 2]).AddCommitmentsFromID 3 [6, 1]).CommitmentsComplete = false ∧
    ((exampleLocal.InitializeSharing.AddCommitmentsFromID 2 [3, 2]).AddCommitmentsFromID 9
      [6, 1]).CommitmentsComplete = true := by
  decide

/-- C20: evaluation at the failing input. Member 1 has registered only
itself and holds valid shares from the IDs 2 and 3: `OtherMemberIDs` returns
the empty list, but `AccusedIDs` asks for a slice of capacity `1 - 2` and
panics instead of returning the empty list. -/
theorem AccusedIDs_failing :
    exampleUnregistered.memberIDs = [1] ∧
    exampleUnregistered.receivedShares.keys = [3, 2] ∧
    exampleUnregistered.OtherMemberIDs = some [] ∧
    exampleUnregistered.AccusedIDs = none := by
  decide

theorem len_eq_keys_length {V : Type} (m : GoMap F V) : GoMap.len m = m.keys.length := by
  simp [GoMap.len, AList.keys, List.keys]

/-- C19 (amended): `CommitmentsComplete` returns true exactly when the number
of IDs under which commitments are recorded is `groupSize - 1`; recording a
second time under the same ID does not change that number, while commitments
recorded under the member's own ID or under an ID outside the group count
like any other. When the member list is complete (`groupSize` distinct IDs,
the member's own among them) and commitments are recorded only under IDs of
other members of the group, it returns true exactly when commitments are
recorded from every other member. -/
theorem CommitmentsComplete_iff_count (sm : SharingMember F G) :
    (sm.CommitmentsComplete = true ↔ sm.commitments.keys.length + 1 = sm.groupSize) ∧
    (∀ (id : F) (c c' : List G),
      GoMap.len ((sm.AddCommitmentsFromID id c).AddCommitmentsFromID id c').commitments =
        GoMap.len (sm.AddCommitmentsFromID id c).commitments) ∧
    (sm.memberIDs.Nodup → sm.memberIDs.length = sm.groupSize → sm.BlsID ∈ sm.memberIDs →
      (∀ k ∈ sm.commitments.keys, k ∈ sm.memberIDs ∧ k ≠ sm.BlsID) →
      (sm.CommitmentsComplete = true ↔
        ∀ id ∈ sm.memberIDs, id ≠ sm.BlsID → id ∈ sm.commitments.keys)) := by
  have hcount : sm.CommitmentsComplete = true ↔
      sm.commitments.keys.length + 1 = sm.groupSize := by
    unfold SharingMember.CommitmentsComplete
    rw [decide_eq_true_iff, len_eq_keys_length]
    omega
  refine ⟨hcount, ?_, ?_⟩
  · intro id c c'
    simp only [SharingMember.AddCommitmentsFromID, AList.insert_insert, GoMap.len,
      AList.insert_entries, List.length_cons]
  · intro hnd hlen hself hkeys
    rw [hcount]
    have hK : sm.commitments.keys.toFinset.card = sm.commitments.keys.length :=
      List.toFinset_card_of_nodup sm.commitments.keys_nodup
    have hM : sm.memberIDs.toFinset.card = sm.memberIDs.length :=
      List.toFinset_card_of_nodup hnd
    have hO : (sm.memberIDs.toFinset.erase sm.BlsID).card = sm.memberIDs.length - 1 := by
      rw [Finset.card_erase_of_mem (List.mem_toFinset.2 hself), hM]
    have hsub : sm.commitments.keys.toFinset ⊆ sm.memberIDs.toFinset.erase sm.BlsID := by
      intro k hk
      have := hkeys k (List.mem_toFinset.1 hk)
      exact Finset.mem_erase.2 ⟨this.2, List.mem_toFinset.2 this.1⟩
    have hpos : 0 < sm.memberIDs.length := List.length_pos_of_mem hself
    constructor
    · intro h id hid hne
      have hcard : (sm.memberIDs.toFinset.erase sm.BlsID).card ≤
          sm.commitments.keys.toFinset.card := by
        rw [hO, hK]
        omega
      have heq := Finset.eq_of_subset_of_card_le hsub hcard
      have : id ∈ sm.commitments.keys.toFinset := by
        rw [heq]
        exact Finset.mem_erase.2 ⟨hne, List.mem_toFinset.2 hid⟩
      exact List.mem_toFinset.1 this
    · intro h
      have hsup : sm.memberIDs.toFinset.erase sm.BlsID ⊆ sm.commitments.keys.toFinset := by
        intro k hk
        obtain ⟨hne, hmem⟩ := Finset.mem_erase.1 hk
        exact List.mem_toFinset.2 (h k (List.mem_toFinset.1 hmem) hne)
      have heq := Finset.Subset.antisymm hsub hsup
      have : sm.commitments.keys.toFinset.card = sm.memberIDs.length - 1 := by
        rw [heq, hO]
      omega

/-- `OtherMemberIDs` returns the registered IDs other than the member's own,
in the order of registration, when at least one member is registered. -/
theorem OtherMemberIDs_eq_some (sm : SharingMember F G) (h : 0 < sm.memberIDs.length) :
    sm.OtherMemberIDs = some (sm.memberIDs.filter (fun id => !decide (id = sm.BlsID))) := by
  unfold SharingMember.OtherMemberIDs
  rw [if_neg (by omega)]

/-- `AccusedIDs` returns the other members without a received share, in the
order of registration, when at least one member is registered and there are
not more received shares than registered members; it panics otherwise. -/
theorem AccusedIDs_eq_some (sm : SharingMember F G) (h : 0 < sm.memberIDs.length)
    (hlen : GoMap.len sm.receivedShares ≤ sm.memberIDs.length) :
    sm.AccusedIDs = some ((sm.memberIDs.filter (fun id => !decide (id = sm.BlsID))).filter
      (fun id => (sm.receivedShares.lookup id).isNone)) := by
  unfold SharingMember.AccusedIDs
  rw [if_neg (by omega), OtherMemberIDs_eq_some sm h]

theorem AccusedIDs_eq_none (sm : SharingMember F G)
    (h : sm.memberIDs.length = 0 ∨ sm.memberIDs.length < GoMap.len sm.receivedShares) :
    sm.AccusedIDs = none := by
  unfold SharingMember.AccusedIDs SharingMember.OtherMemberIDs
  by_cases hlt : (sm.memberIDs.length : Int) - (GoMap.len sm.receivedShares : Int) < 0
  · rw [if_pos hlt]
  · rw [if_neg hlt, if_pos (by omega)]

end Thresholdgroup

namespace Thresholdgroup

variable {F G : Type} [CommRing F] [DecidableEq F] [AddCommGroup G] [Module F G]
  [DecidableEq G]

/-! ### New members -/

/-- `NewMember` returns a member exactly for a non-negative threshold and a
non-negative group size. -/
theorem NewMember_eq_some (generator : G) (setHexString : String → F) (csprng : Nat → F)
    (id : String) (t n : Nat) :
    NewMember generator setHexString csprng id (t : Int) (n : Int) =
      some { ID := id
             BlsID := setHexString id
             groupSize := n
             threshold := t
             secretShares := (List.range t).map csprng
             shareCommitments := ((List.range t).map csprng).map (getPublicKey generator)
             memberIDs := [] } := by
  unfold NewMember
  simp

theorem NewMember_eq_none (generator : G) (setHexString : String → F) (csprng : Nat → F)
    (id : String) (threshold groupSize : Int) (h : threshold < 0 ∨ groupSize < 0) :
    NewMember generator setHexString csprng id threshold groupSize = none := by
  unfold NewMember
  rcases h with h | h
  · simp [h]
  · by_cases ht : threshold < 0 <;> simp [ht, h]

/-- The value of `Set` is the value of the polynomial with the given
coefficients. -/
theorem secretKeySet_eq_sum (msk : List F) (id : F) :
    secretKeySet msk id = ∑ k in Finset.range msk.length, msk.getD k 0 * id ^ k := by
  induction msk with
  | nil => simp [secretKeySet]
  | cons c msk ih =>
    have hstep : secretKeySet (c :: msk) id = c + id * secretKeySet msk id := rfl
    rw [hstep, ih, List.length_cons, Finset.sum_range_succ', Finset.mul_sum]
    simp only [List.getD_cons_succ, List.getD_cons_zero, pow_zero, mul_one]
    rw [add_comm]
    congr 1
    apply Finset.sum_congr rfl
    intro k _
    ring

/-- Counterexample for C22: with the group size `-1` the call
`make([]*bls.ID, 0, groupSize)` panics and `NewMember` returns no member,
although the threshold `2` is not negative. -/
theorem NewMember_negative_groupSize_counterexample :
    NewMember (1 : ZMod 11) exampleSetHexString exampleCsprng "1" 2 (-1) = none ∧
    (NewMember (1 : ZMod 11) exampleSetHexString exampleCsprng "1" 2 3).map
      (fun lm => lm.groupSize) = some 3 := by
  decide

/-- C22 (amended): for every threshold `t ≥ 0`, every group size `n ≥ 0` and
every id, `NewMember` returns a member that holds exactly `t` secret
coefficients and whose `Commitments()` are exactly `t` public commitments,
the `k`-th being the public key of the `k`-th secret coefficient; its member
list is empty and the id, the group size and the threshold are stored as
given. With a negative threshold or group size it panics. -/
theorem NewMember_fields (generator : G) (setHexString : String → F) (csprng : Nat → F)
    (id : String) (t n : Nat) :
    (∃ lm, NewMember generator setHexString csprng id (t : Int) (n : Int) = some lm ∧
      lm.secretShares.length = t ∧ lm.Commitments.length = t ∧
      (∀ k, k < t →
        lm.Commitments[k]? = (lm.secretShares[k]?).map (getPublicKey generator) ∧
        (lm.Commitments[k]?).isSome = true) ∧
      lm.memberIDs = [] ∧ lm.groupSize = n ∧ lm.threshold = t ∧ lm.ID = id ∧
      lm.BlsID = setHexString id) ∧
    (∀ threshold groupSize : Int, threshold < 0 ∨ groupSize < 0 →
      NewMember generator setHexString csprng id threshold groupSize = none) := by
  refine ⟨⟨_, NewMember_eq_some generator setHexString csprng id t n, ?_, ?_, ?_, rfl, rfl, rfl,
    rfl, rfl⟩, fun threshold groupSize h => NewMember_eq_none _ _ _ _ _ _ h⟩
  · simp
  · simp [LocalMember.Commitments]
  · intro k hk
    simp [LocalMember.Commitments, List.getElem?_map, hk]

/-- Counterexample for C23: the member created for the threshold 2 has two
commitments, not three, and two secret coefficients: its secret polynomial
`4 + 5x` has degree 1. -/
theorem NewMember_commitments_counterexample :
    (NewMember (1 : ZMod 11) exampleSetHexString exampleCsprng "1" 2 3).map
      (fun lm => lm.Commitments) = some [4, 5] ∧
    (NewMember (1 : ZMod 11) exampleSetHexString exampleCsprng "1" 2 3).map
      (fun lm => lm.Commitments.length) ≠ some (2 + 1) ∧
    (NewMember (1 : ZMod 11) exampleSetHexString exampleCsprng "1" 2 3).map
      (fun lm => lm.secretShares) = some [4, 5] := by
  decide

/-- C23 (amended): a member created for the threshold `T` holds `T` secret
coefficients, so that its secret polynomial has a degree of at most `T - 1`,
and it broadcasts `T` commitments: `NewMember(id, T, N).Commitments()` has
the length `T`, not `T + 1`, and the share for the ID `x` is the value at `x`
of the polynomial whose `T` coefficients are the drawn keys. -/
theorem NewMember_commitments_length (generator : G) (setHexString : String → F)
    (csprng : Nat → F) (id : String) (T N : Nat) :
    ∃ lm, NewMember generator setHexString csprng id (T : Int) (N : Int) = some lm ∧
      lm.Commitments.length = T ∧ lm.Commitments.length ≠ T + 1 ∧
      lm.secretShares.length = T ∧
      ∀ x : F, secretKeySet lm.secretShares x = ∑ k in Finset.range T, csprng k * x ^ k := by
  refine ⟨_, NewMember_eq_some generator setHexString csprng id T N, ?_, ?_, ?_, ?_⟩
  · simp [LocalMember.Commitments]
  · simp [LocalMember.Commitments]
  · simp
  · intro x
    rw [secretKeySet_eq_sum]
    simp only [List.length_map, List.length_range]
    apply Finset.sum_congr rfl
    intro k hk
    have hk' : k < T := Finset.mem_range.1 hk
    rw [List.getD_eq_getElem?_getD]
    simp [List.getElem?_map, List.getElem?_range hk']

/-! ### Accusations and justifications -/

theorem lookup_foldl_insert {V : Type} (f : F → V) (l : List F) :
    ∀ (init : GoMap F V) (k : F),
      (l.foldl (fun (m : GoMap F V) a => m.insert a (f a)) init).lookup k =
        if k ∈ l then some (f k) else init.lookup k := by
  induction l with
  | nil => intro init k; simp
  | cons a l ih =>
    intro init k
    rw [List.foldl_cons, ih]
    by_cases hk : k ∈ l
    · simp [hk]
    · by_cases hka : k = a
      · subst hka
        simp [hk]
      · simp [hk, hka, AList.lookup_insert_ne hka]

/-- The entries of `Justifications()`: one for each accuser, holding the
share generated for that accuser. -/
theorem lookup_Justifications (jm : JustifyingMember F G) (k : F) :
    jm.Justifications.lookup k =
      if k ∈ jm.accuserIDs then some (jm.toSharingMember.SecretShareForID k) else none := by
  unfold JustifyingMember.Justifications SharingMember.SecretShareForID
  rw [lookup_foldl_insert (fun a => (jm.memberShares.lookup a).getD 0)]
  simp

theorem addAccusations_fields (accusations : List (F × F)) :
    ∀ jm : JustifyingMember F G,
      (jm.addAccusations accusations).toSharingMember = jm.toSharingMember ∧
      (jm.addAccusations accusations).accuserIDs =
        jm.accuserIDs ++
          (accusations.filter (fun a => decide (a.2 = jm.BlsID))).map Prod.fst := by
  induction accusations with
  | nil => intro jm; simp [JustifyingMember.addAccusations]
  | cons a accusations ih =>
    intro jm
    have hstep : jm.addAccusations (a :: accusations) =
        (jm.AddAccusationFromID a.1 a.2).addAccusations accusations := rfl
    rw [hstep]
    obtain ⟨h1, h2⟩ := ih (jm.AddAccusationFromID a.1 a.2)
    by_cases ha : a.2 = jm.BlsID
    · have hadd : jm.AddAccusationFromID a.1 a.2 =
          { jm with accuserIDs := jm.accuserIDs ++ [a.1] } := by
        unfold JustifyingMember.AddAccusationFromID
        rw [if_pos ha]
      rw [hadd] at h1 h2
      rw [hadd]
      refine ⟨h1, ?_⟩
      rw [h2]
      simp [ha]
    · have hadd : (jm.AddAccusationFromID a.1 a.2).toSharingMember = jm.toSharingMember ∧
          (jm.AddAccusationFromID a.1 a.2).accuserIDs = jm.accuserIDs := by
        unfold JustifyingMember.AddAccusationFromID
        rw [if_neg ha]
        exact ⟨rfl, rfl⟩
      rw [hadd.1] at h1
      rw [hadd.2] at h2
      have hb : (jm.AddAccusationFromID a.1 a.2).BlsID = jm.BlsID := by
        show (jm.AddAccusationFromID a.1 a.2).toSharingMember.BlsID = _
        rw [hadd.1]
      rw [hb] at h2
      refine ⟨h1, ?_⟩
      rw [h2]
      simp [ha]

/-- C21: a private share is revealed only to answer an accusation against
this member. After `InitializeJustification` and any sequence of
`AddAccusationFromID` calls, `Justifications()` has an entry for the ID `m`
exactly when one of the accusations had the sender `m` and accused this
member, and the entry is the share `memberShares[m]`. An accusation against
another member changes only `pendingJustificationIDs`, where it lists the
accused under the sender, and leaves `Justifications()` as it is. -/
theorem Justifications_only_for_accusers (sm : SharingMember F G)
    (accusations : List (F × F)) :
    (∀ m, m ∈ (sm.InitializeJustification.addAccusations accusations).Justifications.keys ↔
      ∃ a ∈ accusations, a.1 = m ∧ a.2 = sm.BlsID) ∧
    (∀ m, m ∈ (sm.InitializeJustification.addAccusations accusations).Justifications.keys →
      (sm.InitializeJustification.addAccusations accusations).Justifications.lookup m =
        some (sm.SecretShareForID m)) ∧
    (sm.InitializeJustification.addAccusations accusations).toSharingMember = sm ∧
    (∀ (jm : JustifyingMember F G) (senderID accusedID : F), accusedID ≠ jm.BlsID →
      (jm.AddAccusationFromID senderID accusedID).Justifications = jm.Justifications ∧
      (jm.AddAccusationFromID senderID accusedID).accuserIDs = jm.accuserIDs ∧
      (jm.AddAccusationFromID senderID accusedID).toSharingMember = jm.toSharingMember ∧
      (∃ set, (jm.AddAccusationFromID senderID accusedID).pendingJustificationIDs.lookup
          senderID = some set ∧ accusedID ∈ set.keys) ∧
      ∀ k, k ≠ senderID →
        (jm.AddAccusationFromID senderID accusedID).pendingJustificationIDs.lookup k =
          jm.pendingJustificationIDs.lookup k) := by
  obtain ⟨h1, h2⟩ := addAccusations_fields accusations sm.InitializeJustification
  have hsm : (sm.InitializeJustification.addAccusations accusations).toSharingMember = sm := h1
  have hkeys : ∀ m,
      m ∈ (sm.InitializeJustification.addAccusations accusations).Justifications.keys ↔
        ∃ a ∈ accusations, a.1 = m ∧ a.2 = sm.BlsID := by
    intro m
    have hmem : m ∈ (sm.InitializeJustification.addAccusations accusations).accuserIDs ↔
        ∃ a ∈ accusations, a.1 = m ∧ a.2 = sm.BlsID := by
      rw [h2]
      simp only [SharingMember.InitializeJustification, List.nil_append, List.mem_map,
        List.mem_filter, decide_eq_true_eq]
      constructor
      · rintro ⟨a, ⟨ha, hb⟩, hm⟩
        exact ⟨a, ha, hm, hb⟩
      · rintro ⟨a, ha, hm, hb⟩
        exact ⟨a, ⟨ha, hb⟩, hm⟩
    rw [← hmem, mem_keys_iff_lookup, lookup_Justifications]
    by_cases hc : m ∈ (sm.InitializeJustification.addAccusations accusations).accuserIDs
    · simp [hc]
    · simp [hc]
  refine ⟨hkeys, ?_, hsm, ?_⟩
  · intro m hm
    have hacc : m ∈ (sm.InitializeJustification.addAccusations accusations).accuserIDs := by
      by_contra hne
      rw [mem_keys_iff_lookup, lookup_Justifications, if_neg hne] at hm
      simp at hm
    rw [lookup_Justifications, if_pos hacc, hsm]
  · intro jm senderID accusedID hne
    have hadd : jm.AddAccusationFromID senderID accusedID =
        { jm with
          pendingJustificationIDs :=
            jm.pendingJustificationIDs.insert senderID
              (((jm.pendingJustificationIDs.lookup senderID).getD ∅).insert accusedID true) } := by
      unfold JustifyingMember.AddAccusationFromID
      rw [if_neg hne]
    rw [hadd]
    refine ⟨rfl, rfl, rfl, ⟨_, AList.lookup_insert _, ?_⟩, fun k hk => AList.lookup_insert_ne hk⟩
    simp

/-- C30: evaluation at the failing input. Member 1 of the example group has
the share of member 2 and none of member 3, whom it has accused. Member 3
justifies with the share 7, which is valid. `RecordJustificationFromID` with
the accuser 1 and the accused 3 leaves member 3 without an entry and creates
an entry under the ID 1 of the member itself, so that `FinalizeMember` lists
the member itself, and not member 3, as qualified. -/
theorem RecordJustification_own_accusation_failing :
    (exampleSharing.AddShareFromID 1 2 5).InitializeJustification.BlsID = 1 ∧
    (exampleSharing.AddShareFromID 1 2 5).InitializeJustification.toSharingMember.isValidShare
      1 3 7 = true ∧
    (exampleSharing.AddShareFromID 1 2 5).InitializeJustification.receivedShares.keys = [2] ∧
    ((exampleSharing.AddShareFromID 1 2 5).InitializeJustification.RecordJustificationFromID
      1 3 1 7).receivedShares.lookup 3 = none ∧
    ((exampleSharing.AddShareFromID 1 2 5).InitializeJustification.RecordJustificationFromID
      1 3 1 7).receivedShares.lookup 1 = some 7 ∧
    ((exampleSharing.AddShareFromID 1 2 5).InitializeJustification.RecordJustificationFromID
      1 3 1 7).receivedShares.keys = [1, 2] ∧
    ((exampleSharing.AddShareFromID 1 2 5).InitializeJustification.RecordJustificationFromID
      1 3 1 7).FinalizeMember.map (fun m => m.qualifiedMembers) = some [1, 2] := by
  decide

/-! ### The group public key of honest members -/

/-- The group public key of a member that has recorded, for every other
member of the group, the commitments that member generated, and none else:
the sum of the zeroth commitments of all members of the group. -/
theorem FinalizeMember_groupPublicKey_honest (group : List F) (generated : F → List G)
    (jm : JustifyingMember F G) (hgroup : group.Nodup) (hT : 0 < jm.threshold)
    (hlen : ∀ i ∈ group, (generated i).length = jm.threshold)
    (hself : jm.BlsID ∈ group) (hown : jm.shareCommitments = generated jm.BlsID)
    (hrec : ∀ k, jm.commitments.lookup k =
      if k ∈ group ∧ k ≠ jm.BlsID then some (generated k) else none) :
    ∃ m, jm.FinalizeMember = some m ∧
      m.groupPublicKey = (group.map (fun i => zeroth (generated i))).sum := by
  have hkeys : ∀ k, k ∈ jm.commitments.keys ↔ k ∈ group.erase jm.BlsID := by
    intro k
    rw [mem_keys_iff_lookup, hrec, hgroup.mem_erase_iff]
    by_cases hc : k ∈ group ∧ k ≠ jm.BlsID
    · simp [hc]
    · rw [if_neg hc]
      simp only [Option.isSome_none, Bool.false_eq_true, false_iff]
      intro h
      exact hc ⟨h.2, h.1⟩
  have hperm : jm.commitments.keys.Perm (group.erase jm.BlsID) :=
    (List.perm_ext_iff_of_nodup jm.commitments.keys_nodup (hgroup.erase _)).2 hkeys
  have hvalues : GoMap.values jm.commitments = jm.commitments.keys.map generated := by
    rw [← keys_map_lookup_eq_values []]
    apply List.map_congr_left
    intro k hk
    have hk' := (hkeys k).1 hk
    rw [hgroup.mem_erase_iff] at hk'
    rw [hrec, if_pos ⟨hk'.2, hk'.1⟩]
    rfl
  have hsets : ∀ set ∈ GoMap.values jm.commitments, set.length ≤ jm.threshold := by
    intro set hset
    rw [hvalues, List.mem_map] at hset
    obtain ⟨k, hk, rfl⟩ := hset
    have hk' := (hkeys k).1 hk
    exact le_of_eq (hlen k (List.mem_of_mem_erase hk'))
  obtain ⟨pk, hs, hpk⟩ := FinalizeMember_eq_some jm hT
    (by rw [hown]; exact le_of_eq (hlen _ hself)) hsets
  refine ⟨_, hs, ?_⟩
  show pk = _
  rw [hpk, hvalues, List.map_map, hown,
    ← List.sum_map_erase (fun i => zeroth (generated i)) hself]
  congr 1
  exact (hperm.map _).sum_eq

/-- C24: any two honest finalizing members compute the same group public
key. For two members of one group, with one threshold of at least 1, each
holding the commitments it generated and having recorded for every other
member of the group exactly the commitments that member generated, and none
else, `FinalizeMember` returns for both, and both group public keys are the
sum of the zeroth commitments of all members of the group. -/
theorem FinalizeMember_groupPublicKey_agree (group : List F) (generated : F → List G)
    (a b : JustifyingMember F G) (hgroup : group.Nodup) (hT : 0 < a.threshold)
    (hTb : b.threshold = a.threshold)
    (hlen : ∀ i ∈ group, (generated i).length = a.threshold)
    (ha : a.BlsID ∈ group) (hb : b.BlsID ∈ group)
    (haown : a.shareCommitments = generated a.BlsID)
    (hbown : b.shareCommitments = generated b.BlsID)
    (harec : ∀ k, a.commitments.lookup k =
      if k ∈ group ∧ k ≠ a.BlsID then some (generated k) else none)
    (hbrec : ∀ k, b.commitments.lookup k =
      if k ∈ group ∧ k ≠ b.BlsID then some (generated k) else none) :
    ∃ ma mb, a.FinalizeMember = some ma ∧ b.FinalizeMember = some mb ∧
      ma.groupPublicKey = mb.groupPublicKey ∧
      ma.groupPublicKey = (group.map (fun i => zeroth (generated i))).sum := by
  obtain ⟨ma, hma, hka⟩ :=
    FinalizeMember_groupPublicKey_honest group generated a hgroup hT hlen ha haown harec
  obtain ⟨mb, hmb, hkb⟩ :=
    FinalizeMember_groupPublicKey_honest group generated b hgroup (by rw [hTb]; exact hT)
      (by rw [hTb]; exact hlen) hb hbown hbrec
  exact ⟨ma, mb, hma, hmb, by rw [hka, hkb], hka⟩

/-- Witness for C24: the members 1 and 2 of the example group, each with
the commitments of the two other members recorded. -/
theorem FinalizeMember_groupPublicKey_agree_witness :
    ∃ ma mb, exampleShared.InitializeJustification.FinalizeMember = some ma ∧
      exampleSharedOther.InitializeJustification.FinalizeMember = some mb ∧
      ma.groupPublicKey = mb.groupPublicKey ∧
      ma.groupPublicKey = ([1, 2, 3].map (fun i => zeroth (exampleGenerated i))).sum :=
  FinalizeMember_groupPublicKey_agree [1, 2, 3] exampleGenerated
    exampleShared.InitializeJustification exampleSharedOther.InitializeJustification
    (by decide) (by decide) (by decide) (by decide) (by decide) (by decide) (by decide)
    (by decide) (by decide) (by decide)

/-! ### Threshold signatures -/

section Signatures

variable {F G S P : Type} [Field F] [DecidableEq F] [AddCommGroup G] [Module F G]
  [DecidableEq G] [AddCommGroup S] [Module F S] [DecidableEq P]

/-- The value of `Set` is the value of a polynomial with fewer coefficients
than the list is long. -/
theorem exists_polynomial_secretKeySet (l : List F) :
    ∃ p : Polynomial F, p.degree < l.length ∧ ∀ x, p.eval x = secretKeySet l x := by
  induction l with
  | nil =>
    refine ⟨0, ?_, fun x => by simp [secretKeySet]⟩
    rw [Polynomial.degree_zero]
    exact WithBot.bot_lt_coe _
  | cons c l ih =>
    obtain ⟨p, hdeg, heval⟩ := ih
    refine ⟨Polynomial.C c + Polynomial.X * p, ?_, ?_⟩
    · rw [Polynomial.degree_lt_iff_coeff_zero] at hdeg ⊢
      intro m hm
      simp only [List.length_cons] at hm
      obtain ⟨k, rfl⟩ : ∃ k, m = k + 1 := ⟨m - 1, by omega⟩
      rw [Polynomial.coeff_add, Polynomial.coeff_C_succ, Polynomial.coeff_X_mul, zero_add]
      exact hdeg k (by omega)
    · intro x
      have hstep : secretKeySet (c :: l) x = c + x * secretKeySet l x := rfl
      rw [hstep, ← heval]
      simp

/-- The sum of the shares that the members of a group generate for an ID is
the value at that ID of one polynomial with fewer than `T` coefficients. -/
theorem exists_polynomial_group (coeffs : F → List F) (T : Nat) (group : List F)
    (h : ∀ k ∈ group, (coeffs k).length ≤ T) :
    ∃ p : Polynomial F, p.degree < T ∧
      ∀ x, p.eval x = (group.map (fun k => secretKeySet (coeffs k) x)).sum := by
  induction group with
  | nil =>
    refine ⟨0, ?_, fun x => by simp⟩
    rw [Polynomial.degree_zero]
    exact WithBot.bot_lt_coe _
  | cons a group ih =>
    obtain ⟨p, hdeg, heval⟩ := ih (fun k hk => h k (List.mem_cons_of_mem _ hk))
    obtain ⟨q, hq, hqe⟩ := exists_polynomial_secretKeySet (coeffs a)
    refine ⟨q + p, ?_, ?_⟩
    · rw [Polynomial.degree_lt_iff_coeff_zero] at hdeg hq ⊢
      intro m hm
      rw [Polynomial.coeff_add, hdeg m hm, hq m (le_trans (h a (List.mem_cons_self _ _)) hm),
        add_zero]
    · intro x
      simp [hqe, heval]

/-- Lagrange interpolation at 0: the values of a polynomial at more distinct
IDs than it has coefficients give its value at 0. -/
theorem lagrange_at_zero (ids : List F) (hnd : ids.Nodup) (p : Polynomial F)
    (hdeg : p.degree < ids.length) :
    (ids.map (fun i => lagrangeCoefficient ids i * p.eval i)).sum = p.eval 0 := by
  have hcard : ids.toFinset.card = ids.length := List.toFinset_card_of_nodup hnd
  have hinterp := Lagrange.eq_interpolate (s := ids.toFinset) (v := id) (f := p)
    (Set.injOn_id _) (by rw [hcard]; exact hdeg)
  have hcoeff : ∀ i, lagrangeCoefficient ids i =
      (Lagrange.basis ids.toFinset id i).eval 0 := by
    intro i
    unfold lagrangeCoefficient Lagrange.basis
    rw [Polynomial.eval_prod, ← List.prod_toFinset _ (hnd.filter _), List.toFinset_filter]
    have hset : Finset.filter (fun j => (!decide (j = i)) = true) ids.toFinset =
        ids.toFinset.erase i := by
      ext j
      simp [and_comm]
    rw [hset]
    apply Finset.prod_congr rfl
    intro j hj
    have hji : j ≠ i := (Finset.mem_erase.1 hj).1
    simp only [Lagrange.basisDivisor, id, Polynomial.eval_mul, Polynomial.eval_C,
      Polynomial.eval_sub, Polynomial.eval_X, zero_sub]
    have h1 : j - i ≠ 0 := sub_ne_zero.2 hji
    have h2 : i - j ≠ 0 := sub_ne_zero.2 (Ne.symm hji)
    field_simp
    ring
  conv_rhs => rw [hinterp]
  rw [Lagrange.interpolate_apply, Polynomial.eval_finset_sum, ← List.sum_toFinset _ hnd]
  apply Finset.sum_congr rfl
  intro i _
  rw [Polynomial.eval_mul, Polynomial.eval_C, hcoeff, id, mul_comm]

theorem signRecover_map (ids : List F) (share : F → S) :
    signRecover (ids.map share) ids =
      (ids.map (fun i => lagrangeCoefficient ids i • share i)).sum := by
  unfold signRecover
  generalize lagrangeCoefficient ids = c
  induction ids with
  | nil => rfl
  | cons a ids ih => simp [ih]

theorem collectShares_eq (memberIDs : List F) (signatureShares : GoMap F S) :
    collectShares memberIDs signatureShares =
      (memberIDs.filter (fun i => (signatureShares.lookup i).isSome),
        (memberIDs.filter (fun i => (signatureShares.lookup i).isSome)).map
          (fun i => (signatureShares.lookup i).getD 0)) := by
  unfold collectShares
  have hgen : ∀ (l : List F) (acc : List F × List S),
      l.foldl (collectShare signatureShares) acc =
      (acc.1 ++ l.filter (fun i => (signatureShares.lookup i).isSome),
        acc.2 ++ (l.filter (fun i => (signatureShares.lookup i).isSome)).map
          (fun i => (signatureShares.lookup i).getD 0)) := by
    intro l
    induction l with
    | nil => intro acc; simp
    | cons a l ih =>
      intro acc
      rw [List.foldl_cons, ih]
      cases hl : signatureShares.lookup a <;> simp [collectShare, hl]
  rw [hgen]
  simp

theorem lookup_signatureSharesOf (signers : List F) (share : F → S) (k : F) :
    (signatureSharesOf signers share).lookup k = if k ∈ signers then some (share k) else none := by
  unfold signatureSharesOf
  rw [lookup_foldl_insert share]
  simp

/-- The values of a map that has an entry for exactly the members of a group
other than `i`. -/
theorem values_perm_of_lookup {V : Type} (m : GoMap F V) (group : List F) (hgroup : group.Nodup)
    (i : F) (f : F → V)
    (hrec : ∀ k, m.lookup k = if k ∈ group ∧ k ≠ i then some (f k) else none) :
    (GoMap.values m).Perm ((group.erase i).map f) := by
  have hkeys : ∀ k, k ∈ m.keys ↔ k ∈ group.erase i := by
    intro k
    rw [mem_keys_iff_lookup, hrec, hgroup.mem_erase_iff]
    by_cases hc : k ∈ group ∧ k ≠ i
    · simp [hc]
    · rw [if_neg hc]
      simp only [Option.isSome_none, Bool.false_eq_true, false_iff]
      intro h
      exact hc ⟨h.2, h.1⟩
  have hperm : m.keys.Perm (group.erase i) :=
    (List.perm_ext_iff_of_nodup m.keys_nodup (hgroup.erase _)).2 hkeys
  have hvalues : GoMap.values m = m.keys.map f := by
    by_cases hempty : m.keys = []
    · have : m.entries = [] := by
        have := congrArg List.length hempty
        simp only [AList.keys, List.keys, List.length_map, List.length_nil] at this
        exact List.length_eq_zero.1 this
      simp [GoMap.values, hempty, this]
    · obtain ⟨k0, hk0⟩ := List.exists_mem_of_ne_nil _ hempty
      rw [← keys_map_lookup_eq_values (f k0)]
      apply List.map_congr_left
      intro k hk
      have hk' := (hkeys k).1 hk
      rw [hgroup.mem_erase_iff] at hk'
      rw [hrec, if_pos ⟨hk'.2, hk'.1⟩]
      rfl
  rw [hvalues]
  exact hperm.map f

theorem zeroth_map_getPublicKey (generator : G) (l : List F) :
    zeroth (l.map (getPublicKey generator)) = getPublicKey generator (l.headD 0) := by
  cases l with
  | nil => simp [zeroth, getPublicKey]
  | cons c l => rfl

theorem sum_map_getPublicKey (generator : G) (l : List F) :
    (l.map (getPublicKey generator)).sum = getPublicKey generator l.sum := by
  induction l with
  | nil => simp [getPublicKey]
  | cons c l ih => simp [getPublicKey, add_smul] at ih ⊢; rw [ih]

theorem secretKeySet_zero (l : List F) : secretKeySet l 0 = l.headD 0 := by
  cases l with
  | nil => rfl
  | cons c l => simp [secretKeySet]

/-- The member that `FinalizeMember` returns after an honest run: its share
of the group secret key is the sum of the shares that the members of the
group generated for it, and its group public key is the public key of the sum
of the constant coefficients of all members. -/
theorem FinalizeMember_of_SharedHonestly (generator : G) (group : List F) (coeffs : F → List F)
    (T : Nat) (i : F) (jm : JustifyingMember F G) (hgroup : group.Nodup) (hT : 0 < T)
    (hcoeffs : ∀ k ∈ group, (coeffs k).length = T) (hi : i ∈ group)
    (h : SharedHonestly generator group coeffs T i jm) :
    ∃ m, jm.FinalizeMember = some m ∧ m.memberIDs = jm.memberIDs ∧
      m.groupSecretKeyShare = (group.map (fun k => secretKeySet (coeffs k) i)).sum ∧
      m.groupPublicKey =
        getPublicKey generator (group.map (fun k => (coeffs k).headD 0)).sum := by
  obtain ⟨hid, hthr, hperm, hown, hshare, hcomm, hrecv, hpend⟩ := h
  subst hid
  subst hthr
  obtain ⟨m, hm, hpk⟩ := FinalizeMember_groupPublicKey_honest group
    (fun k => (coeffs k).map (getPublicKey generator)) jm hgroup hT
    (fun k hk => by rw [List.length_map]; exact hcoeffs k hk) hi hown hcomm
  obtain ⟨hto, hsk, _, _, _, _, _⟩ := FinalizeMember_some_fields jm m hm
  have hdel : jm.deleteUnjustifiedShares = jm := by
    unfold JustifyingMember.deleteUnjustifiedShares
    rw [hpend]
    rfl
  refine ⟨m, hm, ?_, ?_, ?_⟩
  · show m.toJustifyingMember.memberIDs = _
    rw [hto, hdel]
  · rw [hsk, hdel, foldl_add_eq_sum, SharingMember.SecretShareForID, hshare, Option.getD_some,
      (values_perm_of_lookup jm.receivedShares group hgroup jm.BlsID
        (fun k => secretKeySet (coeffs k) jm.BlsID) hrecv).sum_eq]
    exact List.sum_map_erase (fun k => secretKeySet (coeffs k) jm.BlsID) hi
  · rw [hpk]
    simp only [zeroth_map_getPublicKey]
    rw [← sum_map_getPublicKey, List.map_map]
    rfl

theorem sum_smul_smul (c f : F → F) (x : S) (l : List F) :
    (l.map (fun i => c i • f i • x)).sum = (l.map (fun i => c i * f i)).sum • x := by
  induction l with
  | nil => simp
  | cons a l ih =>
    rw [List.map_cons, List.sum_cons, List.map_cons, List.sum_cons, add_smul, ih, smul_smul]

/-- C25: for every message and every group whose members have finished an
honest run with the threshold `T ≥ 1`, `FinalizeMember` returns a member for
every member of the group, and for any set of at least `T` members of the
group (so for any `T + 1`) the signature shares `SignatureShare(message)` of
these members pass `VerifySignature` of any member of the group: the shares
recover to the signature of the message under the sum of the constant
coefficients of all members, whichever the signers are, and the group public
key is the public key of that sum. -/
theorem VerifySignature_of_threshold_shares (pairing : S → G → P) (generator : G)
    (hashToPoint : String → S) (group : List F) (coeffs : F → List F) (T : Nat)
    (members : F → JustifyingMember F G) (signers : List F) (verifier : F) (message : String)
    (hpair : ∀ (a : F) (s : S) (g : G), pairing (a • s) g = pairing s (a • g))
    (hgroup : group.Nodup) (hT : 0 < T) (hcoeffs : ∀ k ∈ group, (coeffs k).length = T)
    (hhonest : ∀ i ∈ group, SharedHonestly generator group coeffs T i (members i))
    (hsigners : signers.Nodup) (hsub : ∀ i ∈ signers, i ∈ group)
    (hcount : T ≤ signers.length) (hverifier : verifier ∈ group) :
    ∃ fin : F → Member F G,
      (∀ i ∈ group, (members i).FinalizeMember = some (fin i)) ∧
      (fin verifier).VerifySignature pairing generator hashToPoint
        (signatureSharesOf signers (fun i => (fin i).SignatureShare hashToPoint message))
        message = true ∧
      signRecover
        (collectShares (fin verifier).memberIDs
          (signatureSharesOf signers
            (fun i => (fin i).SignatureShare hashToPoint message))).2
        (collectShares (fin verifier).memberIDs
          (signatureSharesOf signers
            (fun i => (fin i).SignatureShare hashToPoint message))).1 =
        secretKeySign hashToPoint (group.map (fun k => (coeffs k).headD 0)).sum message ∧
      (fin verifier).groupPublicKey =
        getPublicKey generator (group.map (fun k => (coeffs k).headD 0)).sum := by
  have hex : ∀ i, ∃ m : Member F G, i ∈ group →
      ((members i).FinalizeMember = some m ∧ m.memberIDs = (members i).memberIDs ∧
        m.groupSecretKeyShare = (group.map (fun k => secretKeySet (coeffs k) i)).sum ∧
        m.groupPublicKey =
          getPublicKey generator (group.map (fun k => (coeffs k).headD 0)).sum) := by
    intro i
    by_cases hi : i ∈ group
    · obtain ⟨m, hm⟩ := FinalizeMember_of_SharedHonestly generator group coeffs T i (members i)
        hgroup hT hcoeffs hi (hhonest i hi)
      exact ⟨m, fun _ => hm⟩
    · obtain ⟨m, hm⟩ := FinalizeMember_of_SharedHonestly generator group coeffs T verifier
        (members verifier) hgroup hT hcoeffs hverifier (hhonest verifier hverifier)
      exact ⟨m, fun h => absurd h hi⟩
  choose fin hfin using hex
  obtain ⟨hv, hvids, _, hvpk⟩ := hfin verifier hverifier
  obtain ⟨p, hdeg, heval⟩ := exists_polynomial_group coeffs T group
    (fun k hk => le_of_eq (hcoeffs k hk))
  have hmemperm : (fin verifier).memberIDs.Perm group := by
    rw [hvids]
    exact (hhonest verifier hverifier).2.2.1
  have hmemnd : (fin verifier).memberIDs.Nodup := hmemperm.nodup_iff.2 hgroup
  have hfilter : (fin verifier).memberIDs.filter
      (fun i => ((signatureSharesOf signers
        (fun i => (fin i).SignatureShare hashToPoint message)).lookup i).isSome) =
      (fin verifier).memberIDs.filter (fun i => decide (i ∈ signers)) := by
    apply List.filter_congr
    intro i _
    rw [lookup_signatureSharesOf]
    by_cases hi : i ∈ signers <;> simp [hi]
  have havnd : ((fin verifier).memberIDs.filter (fun i => decide (i ∈ signers))).Nodup :=
    hmemnd.filter _
  have havperm : ((fin verifier).memberIDs.filter (fun i => decide (i ∈ signers))).Perm
      signers := by
    apply (List.perm_ext_iff_of_nodup havnd hsigners).2
    intro k
    simp only [List.mem_filter, decide_eq_true_eq]
    constructor
    · exact fun h => h.2
    · exact fun h => ⟨hmemperm.mem_iff.2 (hsub k h), h⟩
  have hrecover : signRecover
      (collectShares (fin verifier).memberIDs
        (signatureSharesOf signers
          (fun i => (fin i).SignatureShare hashToPoint message))).2
      (collectShares (fin verifier).memberIDs
        (signatureSharesOf signers
          (fun i => (fin i).SignatureShare hashToPoint message))).1 =
      secretKeySign hashToPoint (group.map (fun k => (coeffs k).headD 0)).sum message := by
    rw [collectShares_eq, hfilter]
    simp only
    have hmap : ((fin verifier).memberIDs.filter (fun i => decide (i ∈ signers))).map
        (fun i => ((signatureSharesOf signers
          (fun i => (fin i).SignatureShare hashToPoint message)).lookup i).getD 0) =
        ((fin verifier).memberIDs.filter (fun i => decide (i ∈ signers))).map
          (fun i => p.eval i • hashToPoint message) := by
      apply List.map_congr_left
      intro i hi
      have hi' : i ∈ signers := (havperm.mem_iff).1 hi
      rw [lookup_signatureSharesOf, if_pos hi', Option.getD_some]
      unfold Member.SignatureShare secretKeySign
      rw [(hfin i (hsub i hi')).2.2.1, heval]
    rw [hmap, signRecover_map]
    rw [sum_smul_smul, lagrange_at_zero _ havnd p
      (lt_of_lt_of_le hdeg (by rw [havperm.length_eq]; exact_mod_cast hcount)), heval]
    simp only [secretKeySet_zero]
    rfl
  refine ⟨fin, fun i hi => (hfin i hi).1, ?_, hrecover, hvpk⟩
  unfold Member.VerifySignature
  simp only
  rw [hrecover, hvpk]
  unfold signVerify secretKeySign getPublicKey
  rw [decide_eq_true_iff]
  exact hpair _ _ _

end Signatures

/-- Witness for C25: in the example group with the threshold 2, the
signature shares of the members 1 and 3 pass `VerifySignature` of member
2. -/
theorem VerifySignature_of_threshold_shares_witness :
    ∃ fin : ZMod 11 → Member (ZMod 11) (ZMod 11),
      (∀ i ∈ ([1, 2, 3] : List (ZMod 11)), (exampleMembers i).FinalizeMember = some (fin i)) ∧
      (fin 2).VerifySignature examplePairing 1 exampleHashToPoint
        (signatureSharesOf [1, 3]
          (fun i => (fin i).SignatureShare exampleHashToPoint "message"))
        "message" = true ∧
      signRecover
        (collectShares (fin 2).memberIDs
          (signatureSharesOf [1, 3]
            (fun i => (fin i).SignatureShare exampleHashToPoint "message"))).2
        (collectShares (fin 2).memberIDs
          (signatureSharesOf [1, 3]
            (fun i => (fin i).SignatureShare exampleHashToPoint "message"))).1 =
        secretKeySign exampleHashToPoint
          (([1, 2, 3] : List (ZMod 11)).map (fun k => (exampleCoeffs k).headD 0)).sum
          "message" ∧
      (fin 2).groupPublicKey =
        getPublicKey 1 (([1, 2, 3] : List (ZMod 11)).map (fun k => (exampleCoeffs k).headD 0)).sum :=
  VerifySignature_of_threshold_shares examplePairing 1 exampleHashToPoint [1, 2, 3]
    exampleCoeffs 2 exampleMembers [1, 3] 2 "message"
    (by intro a s g; simp only [examplePairing, smul_eq_mul]; ring)
    (by decide) (by decide) (by decide) (by unfold SharedHonestly; decide) (by decide)
    (by decide) (by decide) (by decide)

end Thresholdgroup

namespace Thresholdgroup

variable {F G : Type} [CommRing F] [DecidableEq F] [AddCommGroup G] [Module F G]
  [DecidableEq G]

/-! ### The check of a justification -/

/-- C31: evaluation at the failing input. Member 1 of the example group
observes the accusation of member 2 against member 3. The share that member 3
generated for member 2 is 8: its public key equals the commitments `[6, 1]` of
member 3 evaluated at the ID 2. `RecordJustificationFromID` evaluates the
commitments at the ID 1 of the observer instead, takes the share for invalid
and deletes the received share of member 3. The share 7, which is not the one
exchanged between 3 and 2, is taken for valid and clears the accusation. -/
theorem RecordJustification_observer_failing :
    exampleAccused.BlsID = 1 ∧
    exampleAccused.commitments.lookup 3 = some [6, 1] ∧
    publicKeySet ([6, 1] : List (ZMod 11)) (2 : ZMod 11) = getPublicKey 1 (8 : ZMod 11) ∧
    exampleAccused.toSharingMember.isValidShare 1 3 8 = false ∧
    exampleAccused.receivedShares.lookup 3 = some 7 ∧
    (exampleAccused.RecordJustificationFromID 1 3 2 8).receivedShares.lookup 3 = none ∧
    publicKeySet ([6, 1] : List (ZMod 11)) (2 : ZMod 11) ≠ getPublicKey 1 (7 : ZMod 11) ∧
    exampleAccused.toSharingMember.isValidShare 1 3 7 = true ∧
    (exampleAccused.pendingJustificationIDs.lookup 2).map AList.keys = some [3] ∧
    (exampleAccused.RecordJustificationFromID 1 3 2 7).pendingJustificationIDs.lookup 2 =
      none ∧
    (exampleAccused.RecordJustificationFromID 1 3 2 7).receivedShares.lookup 3 = some 7 := by
  decide

/-! ### The qualified members -/

theorem isPendingAccused_eq_false_iff (pending : GoMap F (GoMap F Bool)) (k : F) :
    isPendingAccused pending.entries k = false ↔
      ¬ ∃ accuser set, pending.lookup accuser = some set ∧ k ∈ set.keys := by
  unfold isPendingAccused
  rw [← Bool.not_eq_true, List.any_eq_true]
  apply not_congr
  constructor
  · rintro ⟨⟨accuser, set⟩, hmem, hk⟩
    exact ⟨accuser, set, AList.mem_lookup_iff.2 hmem, by simpa using hk⟩
  · rintro ⟨accuser, set, hl, hk⟩
    exact ⟨⟨accuser, set⟩, AList.mem_lookup_iff.1 hl, by simpa using hk⟩

/-- C32: whenever `FinalizeMember` returns (the conditions are those under
which it does not panic), the qualified members are, as a set, the IDs with a
received share minus every ID that is still listed as accused under some
accuser of the pending justifications; the list has no duplicates, it is the
list of the IDs that still have a received share in the returned member, and
no ID with a pending accusation is in it. -/
theorem FinalizeMember_qualifiedMembers (jm : JustifyingMember F G)
    (h0 : 0 < jm.threshold) (hown : jm.shareCommitments.length ≤ jm.threshold)
    (hsets : ∀ set ∈ GoMap.values jm.commitments, set.length ≤ jm.threshold) :
    ∃ m, jm.FinalizeMember = some m ∧
      (∀ k, k ∈ m.qualifiedMembers ↔
        k ∈ jm.receivedShares.keys ∧
          ¬ ∃ accuser set, jm.pendingJustificationIDs.lookup accuser = some set ∧
            k ∈ set.keys) ∧
      m.qualifiedMembers.Nodup ∧
      m.qualifiedMembers = m.receivedShares.keys ∧
      (∀ accuser set k, jm.pendingJustificationIDs.lookup accuser = some set →
        k ∈ set.keys → k ∉ m.qualifiedMembers) := by
  obtain ⟨pk, hs, _⟩ := FinalizeMember_eq_some jm h0 hown hsets
  have hiff := mem_qualifiedMembers_iff jm _ hs
  refine ⟨_, hs, ?_, ?_, rfl, ?_⟩
  · intro k
    rw [hiff, isPendingAccused_eq_false_iff]
  · exact AList.keys_nodup _
  · intro accuser set k hl hk hq
    have := ((hiff k).1 hq).2
    rw [isPendingAccused_eq_false_iff] at this
    exact this ⟨accuser, set, hl, hk⟩

/-- Witness for C32: member 1 of the example group after member 2 has
accused member 3, who has not justified. -/
theorem FinalizeMember_qualifiedMembers_witness :
    ∃ m, exampleAccused.FinalizeMember = some m ∧
      (∀ k, k ∈ m.qualifiedMembers ↔
        k ∈ exampleAccused.receivedShares.keys ∧
          ¬ ∃ accuser set, exampleAccused.pendingJustificationIDs.lookup accuser = some set ∧
            k ∈ set.keys) ∧
      m.qualifiedMembers.Nodup ∧
      m.qualifiedMembers = m.receivedShares.keys ∧
      (∀ accuser set k, exampleAccused.pendingJustificationIDs.lookup accuser = some set →
        k ∈ set.keys → k ∉ m.qualifiedMembers) :=
  FinalizeMember_qualifiedMembers exampleAccused (by decide) (by decide) (by decide)

/-! ### The shares of a sharing member -/

/-- The shares that `InitializeSharing` generates: `memberShares` has an
entry exactly for the IDs in `memberIDs`, one for each, its value being the
value of the secret polynomial, whose coefficients are `secretShares`, at that
ID. There is a share for the member's own ID exactly when that ID is among
`memberIDs`. `commitments` and `receivedShares` are empty and the fields of
the LocalMember are carried over. -/
theorem InitializeSharing_memberShares (lm : LocalMember F G) :
    (∀ k, lm.InitializeSharing.memberShares.lookup k =
      if k ∈ lm.memberIDs then some (secretKeySet lm.secretShares k) else none) ∧
    (∀ k, k ∈ lm.InitializeSharing.memberShares.keys ↔ k ∈ lm.memberIDs) ∧
    lm.InitializeSharing.memberShares.keys.Nodup ∧
    (lm.memberIDs.Nodup → GoMap.len lm.InitializeSharing.memberShares = lm.memberIDs.length) ∧
    (lm.BlsID ∈ lm.memberIDs →
      lm.InitializeSharing.memberShares.lookup lm.BlsID =
        some (secretKeySet lm.secretShares lm.BlsID)) ∧
    (∀ x, secretKeySet lm.secretShares x =
      ∑ k in Finset.range lm.secretShares.length, lm.secretShares.getD k 0 * x ^ k) ∧
    lm.InitializeSharing.commitments.entries = [] ∧
    lm.InitializeSharing.receivedShares.entries = [] ∧
    lm.InitializeSharing.toLocalMember = lm := by
  have hlookup : ∀ k, lm.InitializeSharing.memberShares.lookup k =
      if k ∈ lm.memberIDs then some (secretKeySet lm.secretShares k) else none := by
    intro k
    have := lookup_foldl_insert (fun a => secretKeySet lm.secretShares a) lm.memberIDs ∅ k
    simpa [LocalMember.InitializeSharing] using this
  have hkeys : ∀ k, k ∈ lm.InitializeSharing.memberShares.keys ↔ k ∈ lm.memberIDs := by
    intro k
    rw [mem_keys_iff_lookup, hlookup]
    by_cases hk : k ∈ lm.memberIDs <;> simp [hk]
  refine ⟨hlookup, hkeys, AList.keys_nodup _, ?_, ?_, fun x => secretKeySet_eq_sum _ x, rfl, rfl,
    rfl⟩
  · intro hnd
    rw [len_eq_keys_length]
    exact ((List.perm_ext_iff_of_nodup (AList.keys_nodup _) hnd).2 hkeys).length_eq
  · intro hself
    rw [hlookup, if_pos hself]

/-! ### Panics -/

/-- C34: evaluation at the failing input. The member created by `NewMember`
with the threshold 2 registers the members 1, 2 and 3 and records for member 2
a list of three commitments. `FinalizeMember` then indexes the two combined
commitments with 2 and panics; with a list of two commitments it returns. -/
theorem FinalizeMember_out_of_range_failing :
    (NewMember (1 : ZMod 11) exampleSetHexString exampleCsprng "1" 2 3).map
      (fun lm => lm.threshold) = some 2 ∧
    ((NewMember (1 : ZMod 11) exampleSetHexString exampleCsprng "1" 2 3).bind
      (fun lm => ((((lm.RegisterMemberID 1).RegisterMemberID 2).RegisterMemberID
        3).InitializeSharing.AddCommitmentsFromID 2
          [3, 2, 1]).InitializeJustification.FinalizeMember)).isSome = false ∧
    ((NewMember (1 : ZMod 11) exampleSetHexString exampleCsprng "1" 2 3).bind
      (fun lm => ((((lm.RegisterMemberID 1).RegisterMemberID 2).RegisterMemberID
        3).InitializeSharing.AddCommitmentsFromID 2
          [3, 2]).InitializeJustification.FinalizeMember)).isSome = true := by
  decide

/-- C35: evaluation at the failing inputs. For the member that `NewMember`
creates, with no member registered, `OtherMemberIDs` asks for a slice of the
capacity `0 - 1` and panics, and so does `AccusedIDs`, which calls it. With
only the member itself registered and valid shares recorded from the senders 2
and 3, `AccusedIDs` asks for the capacity `1 - 2` and panics. -/
theorem negative_capacity_failing :
    (NewMember (1 : ZMod 11) exampleSetHexString exampleCsprng "1" 2 3).map
      (fun lm => lm.InitializeSharing.memberIDs.length) = some 0 ∧
    (NewMember (1 : ZMod 11) exampleSetHexString exampleCsprng "1" 2 3).map
      (fun lm => lm.InitializeSharing.OtherMemberIDs) = some none ∧
    (NewMember (1 : ZMod 11) exampleSetHexString exampleCsprng "1" 2 3).map
      (fun lm => lm.InitializeSharing.AccusedIDs) = some none ∧
    (NewMember (1 : ZMod 11) exampleSetHexString exampleCsprng "1" 2 3).map
      (fun lm => (((((lm.RegisterMemberID 1).InitializeSharing.AddCommitmentsFromID 2
        [3, 2]).AddCommitmentsFromID 3 [6, 1]).AddShareFromID 1 2 5).AddShareFromID 1 3
          7).receivedShares.keys) = some [3, 2] ∧
    (NewMember (1 : ZMod 11) exampleSetHexString exampleCsprng "1" 2 3).map
      (fun lm => (((((lm.RegisterMemberID 1).InitializeSharing.AddCommitmentsFromID 2
        [3, 2]).AddCommitmentsFromID 3 [6, 1]).AddShareFromID 1 2 5).AddShareFromID 1 3
          7).OtherMemberIDs) = some (some []) ∧
    (NewMember (1 : ZMod 11) exampleSetHexString exampleCsprng "1" 2 3).map
      (fun lm => (((((lm.RegisterMemberID 1).InitializeSharing.AddCommitmentsFromID 2
        [3, 2]).AddCommitmentsFromID 3 [6, 1]).AddShareFromID 1 2 5).AddShareFromID 1 3
          7).AccusedIDs) = some none := by
  decide

/-! ### Justifications seen by a third member -/

/-- C15: evaluation at the failing input. Member 1 of the example group
observes the accusation of member 2 against member 3, whose commitments are
`[6, 1]`. The share 7 does not verify as the share of member 3 for member 2:
its public key is not the value 8 of the commitments at the ID 2.
`RecordJustificationFromID` evaluates the commitments at the ID 1 of the
observer, takes the share for valid and keeps the entry of the accused, who is
among the qualified members after `FinalizeMember`. -/
theorem RecordJustification_invalid_failing :
    exampleAccused.BlsID = 1 ∧
    exampleAccused.commitments.lookup 3 = some [6, 1] ∧
    publicKeySet ([6, 1] : List (ZMod 11)) (2 : ZMod 11) = 8 ∧
    getPublicKey (1 : ZMod 11) (7 : ZMod 11) = 7 ∧
    publicKeySet ([6, 1] : List (ZMod 11)) (2 : ZMod 11) ≠ getPublicKey 1 (7 : ZMod 11) ∧
    (exampleAccused.RecordJustificationFromID 1 3 2 7).receivedShares.lookup 3 = some 7 ∧
    (exampleAccused.RecordJustificationFromID 1 3 2 7).FinalizeMember.map
      (fun m => m.qualifiedMembers) = some [3, 2] ∧
    (exampleAccused.RecordJustificationFromID 1 3 2 7).FinalizeMember.map
      (fun m => decide ((3 : ZMod 11) ∈ m.qualifiedMembers)) = some true := by
  decide

/-- Counterexample for C16: member 1 observes the accusation of member 2
against member 3. In the example group the share 8 verifies as the share of
member 3 for member 2; after `RecordJustificationFromID` and `FinalizeMember`
the accuser, member 2, is qualified and its share 5 is part of the group
secret key share `9 + 5`. In the group in which member 3 has the constant
polynomial `6`, the share 6 verifies at the ID of the accuser and at that of
the observer alike; the accuser is qualified again, and its share is part of
the group secret key share `9 + 5 + 6`. -/
theorem RecordJustification_accuser_counterexample :
    publicKeySet ([6, 1] : List (ZMod 11)) (2 : ZMod 11) = getPublicKey 1 (8 : ZMod 11) ∧
    exampleAccused.receivedShares.lookup 2 = some 5 ∧
    (exampleAccused.RecordJustificationFromID 1 3 2 8).FinalizeMember.map
      (fun m => m.qualifiedMembers) = some [2] ∧
    (exampleAccused.RecordJustificationFromID 1 3 2 8).FinalizeMember.map
      (fun m => m.groupSecretKeyShare) = some (9 + 5) ∧
    exampleAccusedConstant.commitments.lookup 3 = some [6, 0] ∧
    publicKeySet ([6, 0] : List (ZMod 11)) (2 : ZMod 11) = getPublicKey 1 (6 : ZMod 11) ∧
    exampleAccusedConstant.toSharingMember.isValidShare 1 3 6 = true ∧
    exampleAccusedConstant.receivedShares.lookup 2 = some 5 ∧
    (exampleAccusedConstant.RecordJustificationFromID 1 3 2 6).FinalizeMember.map
      (fun m => m.qualifiedMembers) = some [3, 2] ∧
    (exampleAccusedConstant.RecordJustificationFromID 1 3 2 6).FinalizeMember.map
      (fun m => m.groupSecretKeyShare) = some (9 + 5 + 6) := by
  decide

/-- `RecordJustificationFromID` changes nothing but the received shares and
the pending justifications. -/
theorem RecordJustificationFromID_fields (generator : G) (jm : JustifyingMember F G)
    (accusedID accuserID : F) (secretShare : F) :
    ∃ (receivedShares : GoMap F F) (pending : GoMap F (GoMap F Bool)),
      jm.RecordJustificationFromID generator accusedID accuserID secretShare =
        { jm with receivedShares := receivedShares, pendingJustificationIDs := pending } := by
  unfold JustifyingMember.RecordJustificationFromID
  split_ifs
  · exact ⟨_, _, rfl⟩
  · exact ⟨_, _, rfl⟩
  · exact ⟨_, _, rfl⟩

/-- The received share of a member other than the accused is left as it is,
unless the member is the accuser and this member itself. -/
theorem RecordJustificationFromID_lookup (generator : G) (jm : JustifyingMember F G)
    (accusedID accuserID : F) (secretShare : F) (k : F) (hk : k ≠ accusedID)
    (hself : accuserID = jm.BlsID → k ≠ accuserID) :
    (jm.RecordJustificationFromID generator accusedID accuserID
      secretShare).receivedShares.lookup k = jm.receivedShares.lookup k := by
  unfold JustifyingMember.RecordJustificationFromID
  split_ifs with hv hs
  · exact AList.lookup_erase_ne hk
  · exact AList.lookup_insert_ne (hself hs)
  · rfl

/-- Whether a member other than the accused is listed as accused in a
pending justification is left as it is. -/
theorem RecordJustificationFromID_isPendingAccused (generator : G) (jm : JustifyingMember F G)
    (accusedID accuserID : F) (secretShare : F) (k : F) (hk : k ≠ accusedID) :
    isPendingAccused (jm.RecordJustificationFromID generator accusedID accuserID
      secretShare).pendingJustificationIDs.entries k =
      isPendingAccused jm.pendingJustificationIDs.entries k := by
  have hbool : ∀ x y : Bool, (x = false ↔ y = false) → x = y := by
    intro x y h
    cases x <;> cases y <;> simp at h ⊢
  apply hbool
  rw [isPendingAccused_eq_false_iff, isPendingAccused_eq_false_iff]
  apply not_congr
  have hpending : ∃ pending : GoMap F (GoMap F Bool),
      (jm.RecordJustificationFromID generator accusedID accuserID
        secretShare).pendingJustificationIDs = pending ∧
      (pending = jm.pendingJustificationIDs ∨
        ∃ inner, jm.pendingJustificationIDs.lookup accuserID = some inner ∧
          ((GoMap.len (inner.erase accusedID) = 0 ∧
              pending = jm.pendingJustificationIDs.erase accuserID) ∨
            (GoMap.len (inner.erase accusedID) ≠ 0 ∧
              pending = jm.pendingJustificationIDs.insert accuserID
                (inner.erase accusedID)))) := by
    unfold JustifyingMember.RecordJustificationFromID
    cases hl : jm.pendingJustificationIDs.lookup accuserID with
    | none =>
      refine ⟨_, rfl, Or.inl ?_⟩
      split_ifs <;> rfl
    | some inner =>
      by_cases hv : jm.toSharingMember.isValidShare generator accusedID secretShare = true
      · by_cases hlen : GoMap.len (inner.erase accusedID) = 0
        · refine ⟨_, rfl, Or.inr ⟨inner, rfl, Or.inl ⟨hlen, ?_⟩⟩⟩
          simp only [hv, Bool.not_true, Bool.false_eq_true, if_false, hlen, if_true]
          split_ifs <;> rfl
        · refine ⟨_, rfl, Or.inr ⟨inner, rfl, Or.inr ⟨hlen, ?_⟩⟩⟩
          simp only [hv, Bool.not_true, Bool.false_eq_true, if_false, hlen]
          split_ifs <;> rfl
      · refine ⟨_, rfl, Or.inl ?_⟩
        simp only [hv, Bool.not_false, if_true]
  obtain ⟨pending, hp, hcases⟩ := hpending
  rw [hp]
  rcases hcases with rfl | ⟨inner, hinner, ⟨hlen, rfl⟩ | ⟨hlen, rfl⟩⟩
  · rfl
  · constructor
    · rintro ⟨a, set, hl, hmem⟩
      by_cases ha : a = accuserID
      · subst ha
        rw [AList.lookup_erase] at hl
        cases hl
      · rw [AList.lookup_erase_ne ha] at hl
        exact ⟨a, set, hl, hmem⟩
    · rintro ⟨a, set, hl, hmem⟩
      by_cases ha : a = accuserID
      · subst ha
        rw [hinner] at hl
        cases hl
        exfalso
        have hin : k ∈ (inner.erase accusedID).keys := by
          rw [AList.keys_erase]
          exact (List.mem_erase_of_ne hk).2 hmem
        rw [len_eq_keys_length] at hlen
        rw [List.length_eq_zero.1 hlen] at hin
        cases hin
      · exact ⟨a, set, by rw [AList.lookup_erase_ne ha]; exact hl, hmem⟩
  · constructor
    · rintro ⟨a, set, hl, hmem⟩
      by_cases ha : a = accuserID
      · subst ha
        rw [AList.lookup_insert] at hl
        cases hl
        rw [AList.keys_erase] at hmem
        exact ⟨a, inner, hinner, List.mem_of_mem_erase hmem⟩
      · rw [AList.lookup_insert_ne ha] at hl
        exact ⟨a, set, hl, hmem⟩
    · rintro ⟨a, set, hl, hmem⟩
      by_cases ha : a = accuserID
      · subst ha
        rw [hinner] at hl
        cases hl
        refine ⟨a, inner.erase accusedID, AList.lookup_insert _, ?_⟩
        rw [AList.keys_erase]
        exact (List.mem_erase_of_ne hk).2 hmem
      · exact ⟨a, set, by rw [AList.lookup_insert_ne ha]; exact hl, hmem⟩

/-- C16 (amended): a justification does not disqualify the accuser, whatever
the share. For an accuser other than the accused and other than this member,
`RecordJustificationFromID` leaves the received share of the accuser as it is,
and the accuser is listed as accused in a pending justification after the call
exactly when it was before. `FinalizeMember` returns after the call under the
same conditions as before it, and the accuser is then among the qualified
members exactly when it has a received share and is not itself listed as
accused in a pending justification, in which case its received share is kept
in the returned member. -/
theorem RecordJustification_keeps_accuser (generator : G) (jm : JustifyingMember F G)
    (accusedID accuserID : F) (secretShare : F) (hne : accuserID ≠ accusedID)
    (hself : accuserID ≠ jm.BlsID) :
    (jm.RecordJustificationFromID generator accusedID accuserID
      secretShare).receivedShares.lookup accuserID = jm.receivedShares.lookup accuserID ∧
    isPendingAccused (jm.RecordJustificationFromID generator accusedID accuserID
      secretShare).pendingJustificationIDs.entries accuserID =
      isPendingAccused jm.pendingJustificationIDs.entries accuserID ∧
    ((∃ m, (jm.RecordJustificationFromID generator accusedID accuserID
        secretShare).FinalizeMember = some m) ↔ ∃ m, jm.FinalizeMember = some m) ∧
    (∀ m, (jm.RecordJustificationFromID generator accusedID accuserID
        secretShare).FinalizeMember = some m →
      (accuserID ∈ m.qualifiedMembers ↔
        accuserID ∈ jm.receivedShares.keys ∧
          isPendingAccused jm.pendingJustificationIDs.entries accuserID = false) ∧
      (accuserID ∈ m.qualifiedMembers →
        m.receivedShares.lookup accuserID = jm.receivedShares.lookup accuserID)) := by
  have hlookup := RecordJustificationFromID_lookup generator jm accusedID accuserID secretShare
    accuserID hne (fun h => absurd h hself)
  have hpend := RecordJustificationFromID_isPendingAccused generator jm accusedID accuserID
    secretShare accuserID hne
  refine ⟨hlookup, hpend, ?_, ?_⟩
  · obtain ⟨rs, pending, hrec⟩ := RecordJustificationFromID_fields generator jm accusedID
      accuserID secretShare
    rw [hrec, FinalizeMember_isSome_iff, FinalizeMember_isSome_iff]
  · intro m hm
    have hq := mem_qualifiedMembers_iff _ m hm accuserID
    rw [hpend, mem_keys_iff_lookup, hlookup, ← mem_keys_iff_lookup] at hq
    refine ⟨hq, ?_⟩
    intro hmem
    obtain ⟨hto, _⟩ := FinalizeMember_some_fields _ m hm
    have hrs : m.receivedShares = deleteAccused
        (jm.RecordJustificationFromID generator accusedID accuserID
          secretShare).pendingJustificationIDs.entries
        (jm.RecordJustificationFromID generator accusedID accuserID
          secretShare).receivedShares := by
      show m.toJustifyingMember.receivedShares = _
      rw [hto]
      rfl
    rw [hrs, lookup_deleteAccused, hpend, (hq.1 hmem).2]
    simp only [Bool.false_eq_true, if_false]
    exact hlookup

/-- Witness for C16 (amended): member 1 of the example group records the
justification of member 3 against the accusation of member 2. -/
theorem RecordJustification_keeps_accuser_witness :
    (exampleAccused.RecordJustificationFromID 1 3 2 8).receivedShares.lookup 2 =
      exampleAccused.receivedShares.lookup 2 ∧
    isPendingAccused
      (exampleAccused.RecordJustificationFromID 1 3 2 8).pendingJustificationIDs.entries 2 =
      isPendingAccused exampleAccused.pendingJustificationIDs.entries 2 ∧
    ((∃ m, (exampleAccused.RecordJustificationFromID 1 3 2 8).FinalizeMember = some m) ↔
      ∃ m, exampleAccused.FinalizeMember = some m) ∧
    (∀ m, (exampleAccused.RecordJustificationFromID 1 3 2 8).FinalizeMember = some m →
      ((2 : ZMod 11) ∈ m.qualifiedMembers ↔
        (2 : ZMod 11) ∈ exampleAccused.receivedShares.keys ∧
          isPendingAccused exampleAccused.pendingJustificationIDs.entries 2 = false) ∧
      ((2 : ZMod 11) ∈ m.qualifiedMembers →
        m.receivedShares.lookup 2 = exampleAccused.receivedShares.lookup 2)) :=
  RecordJustification_keeps_accuser 1 exampleAccused 3 2 8 (by decide) (by decide)

/-! ### The own share -/

/-- C33: evaluation at the failing input. The member that `NewMember`
creates with the ID 1 registers the members 2 and 3 but not itself.
`InitializeSharing` generates shares for the members 2 and 3 only: there is no
share for the member's own ID, and `SecretShareForID` gives the zero key for
it, not the value 9 of the secret polynomial `4 + 5x` at the ID 1. With no
member registered there is no share at all. -/
theorem InitializeSharing_own_share_failing :
    (NewMember (1 : ZMod 11) exampleSetHexString exampleCsprng "1" 2 3).map
      (fun lm => (lm.BlsID, lm.secretShares)) = some (1, [4, 5]) ∧
    secretKeySet ([4, 5] : List (ZMod 11)) 1 = 9 ∧
    (NewMember (1 : ZMod 11) exampleSetHexString exampleCsprng "1" 2 3).map
      (fun lm => ((lm.RegisterMemberID 2).RegisterMemberID
        3).InitializeSharing.memberShares.keys) = some [3, 2] ∧
    (NewMember (1 : ZMod 11) exampleSetHexString exampleCsprng "1" 2 3).map
      (fun lm => ((lm.RegisterMemberID 2).RegisterMemberID
        3).InitializeSharing.memberShares.lookup lm.BlsID) = some none ∧
    (NewMember (1 : ZMod 11) exampleSetHexString exampleCsprng "1" 2 3).map
      (fun lm => ((lm.RegisterMemberID 2).RegisterMemberID
        3).InitializeSharing.SecretShareForID lm.BlsID) = some 0 ∧
    (NewMember (1 : ZMod 11) exampleSetHexString exampleCsprng "1" 2 3).map
      (fun lm => lm.InitializeSharing.memberShares.keys) = some [] := by
  decide

end Thresholdgroup

/-! ## Theorems: the sortedness check -/

namespace Membership

namespace Sorting

theorem val_eq_getElem (ts : Tickets) (i : Nat) (hi : i < ts.length) :
    val ts i = ts[i].Value := by
  simp [val, List.getElem?_eq_getElem hi]

theorem Less_eq_some_val (ts : Tickets) (i j : Nat) (hi : i < ts.length) (hj : j < ts.length) :
    ts.Less i j = some (lessOfValues (val ts i) (val ts j)) := by
  rw [Less_eq_some ts i j hi hj, val_eq_getElem ts i hi, val_eq_getElem ts j hj]

/-- The loop of `sort.IsSorted` returns, and it returns `true` exactly when
every ticket from index 1 to `k` has a value strictly above that of the ticket
before it. -/
theorem isSortedLoop_spec (ts : Tickets) :
    ∀ k, k ≤ ts.length - 1 →
      (isSortedLoop ts k = some true ∨ isSortedLoop ts k = some false) ∧
      (isSortedLoop ts k = some true ↔
        ∀ i, 0 < i → i ≤ k → bytewiseLT (val ts (i - 1)) (val ts i)) := by
  intro k
  induction k with
  | zero =>
    intro _
    refine ⟨Or.inl rfl, ?_⟩
    simp only [isSortedLoop, true_iff]
    intro i h0 h1
    omega
  | succ k ih =>
    intro hk
    have hk1 : k + 1 < ts.length := by omega
    have hk0 : k < ts.length := by omega
    obtain ⟨hor, hiff⟩ := ih (by omega)
    have hless := Less_eq_some_val ts (k + 1) k hk1 hk0
    cases hl : lessOfValues (val ts (k + 1)) (val ts k) with
    | true =>
      rw [hl] at hless
      have hstep : isSortedLoop ts (k + 1) = some false := by
        simp only [isSortedLoop, hless]
      refine ⟨Or.inr hstep, ?_⟩
      rw [hstep]
      simp only [Option.some.injEq, Bool.false_eq_true, false_iff]
      intro hall
      have := hall (k + 1) (by omega) (le_refl _)
      simp only [Nat.add_sub_cancel] at this
      have hle := (lessOfValues_eq_true_iff _ _).1 hl
      exact (bytewiseLE_iff_not_gt _ _).1 hle this
    | false =>
      rw [hl] at hless
      have hstep : isSortedLoop ts (k + 1) = isSortedLoop ts k := by
        simp only [isSortedLoop, hless]
      rw [hstep]
      refine ⟨hor, ?_⟩
      rw [hiff]
      have hlt := (lessOfValues_eq_false_iff _ _).1 hl
      constructor
      · intro hall i h0 hi
        rcases Nat.lt_or_eq_of_le hi with h | h
        · exact hall i h0 (by omega)
        · subst h
          simpa using hlt
      · intro hall i h0 hi
        exact hall i h0 (by omega)

/-- Adjacent tickets strictly ascending means all tickets strictly
ascending. -/
theorem pairwise_of_adjacent (ts : Tickets)
    (h : ∀ i, 0 < i → i ≤ ts.length - 1 → bytewiseLT (val ts (i - 1)) (val ts i)) :
    (ts.map Ticket.Value).Pairwise bytewiseLT := by
  rw [List.pairwise_iff_getElem]
  intro i j hi hj hij
  simp only [List.length_map] at hi hj
  simp only [List.getElem_map]
  rw [← val_eq_getElem ts i hi, ← val_eq_getElem ts j hj]
  obtain ⟨d, rfl⟩ : ∃ d, j = i + 1 + d := ⟨j - i - 1, by omega⟩
  clear hij
  revert hj
  induction d with
  | zero =>
    intro hj
    have := h (i + 1) (by omega) (by omega)
    simpa using this
  | succ d ih =>
    intro hj
    have h1 := ih (by omega) (by omega)
    have h2 := h (i + 1 + (d + 1)) (by omega) (by omega)
    have h3 : i + 1 + (d + 1) - 1 = i + 1 + d := by omega
    rw [h3] at h2
    exact bytewiseLT_trans h1 h2

theorem adjacent_of_pairwise (ts : Tickets) (h : (ts.map Ticket.Value).Pairwise bytewiseLT) :
    ∀ i, 0 < i → i ≤ ts.length - 1 → bytewiseLT (val ts (i - 1)) (val ts i) := by
  intro i h0 hi
  rw [List.pairwise_iff_getElem] at h
  have := h (i - 1) i (by simp; omega) (by simp; omega) (by omega)
  simp only [List.getElem_map] at this
  rw [val_eq_getElem ts (i - 1) (by omega), val_eq_getElem ts i (by omega)]
  exact this

/-- `sort.IsSorted` returns, and it returns `true` exactly for the lists
whose values are strictly ascending. -/
theorem sortIsSorted_spec (ts : Tickets) :
    (sortIsSorted ts = some true ∨ sortIsSorted ts = some false) ∧
    (sortIsSorted ts = some true ↔ (ts.map Ticket.Value).Pairwise bytewiseLT) := by
  obtain ⟨hor, hiff⟩ := isSortedLoop_spec ts (ts.length - 1) (le_refl _)
  refine ⟨hor, ?_⟩
  unfold sortIsSorted Tickets.Len
  simp only
  rw [hiff]
  exact ⟨pairwise_of_adjacent ts, adjacent_of_pairwise ts⟩

theorem sortIsSorted_iff_Less (ts : Tickets) :
    sortIsSorted ts = some true ↔
      ∀ i, 0 < i → i < ts.length → ts.Less i (i - 1) = some false := by
  obtain ⟨_, hiff⟩ := isSortedLoop_spec ts (ts.length - 1) (le_refl _)
  unfold sortIsSorted Tickets.Len
  simp only
  rw [hiff]
  constructor
  · intro h i h0 hi
    rw [Less_eq_some_val ts i (i - 1) hi (by omega)]
    exact congrArg some ((lessOfValues_eq_false_iff _ _).2 (h i h0 (by omega)))
  · intro h i h0 hi
    have := h i h0 (by omega)
    rw [Less_eq_some_val ts i (i - 1) (by omega) (by omega)] at this
    exact (lessOfValues_eq_false_iff _ _).1 (Option.some.inj this)

theorem strictly_ascending_unique (l1 l2 : Tickets) (hperm : l1.Perm l2)
    (h1 : (l1.map Ticket.Value).Pairwise bytewiseLT)
    (h2 : (l2.map Ticket.Value).Pairwise bytewiseLT) : l1 = l2 := by
  rw [List.pairwise_map] at h1 h2
  haveI : IsAntisymm Ticket (fun a b => bytewiseLT a.Value b.Value) :=
    ⟨fun a b hab hba => absurd hba (bytewiseLT_asymm _ _ hab)⟩
  exact List.eq_of_perm_of_sorted hperm h1 h2

theorem exists_strictly_ascending (ts : Tickets) (hnd : (ts.map Ticket.Value).Nodup) :
    ∃ ts' : Tickets, ts'.Perm ts ∧ (ts'.map Ticket.Value).Pairwise bytewiseLT := by
  haveI : IsTotal Ticket (fun a b => lessOfValues a.Value b.Value = true) :=
    ⟨fun a b => by
      rcases bytewiseLE_total a.Value b.Value with h | h
      · exact Or.inl ((lessOfValues_eq_true_iff _ _).2 h)
      · exact Or.inr ((lessOfValues_eq_true_iff _ _).2 h)⟩
  haveI : IsTrans Ticket (fun a b => lessOfValues a.Value b.Value = true) :=
    ⟨fun a b c hab hbc => (lessOfValues_eq_true_iff _ _).2
      (bytewiseLE_trans ((lessOfValues_eq_true_iff _ _).1 hab)
        ((lessOfValues_eq_true_iff _ _).1 hbc))⟩
  refine ⟨ts.insertionSort (fun a b => lessOfValues a.Value b.Value = true),
    List.perm_insertionSort _ _, ?_⟩
  have hsorted := List.sorted_insertionSort
    (fun a b : Ticket => lessOfValues a.Value b.Value = true) ts
  have hnd' : ((ts.insertionSort
      (fun a b => lessOfValues a.Value b.Value = true)).map Ticket.Value).Nodup :=
    ((List.perm_insertionSort _ ts).map Ticket.Value).nodup_iff.2 hnd
  rw [List.pairwise_map]
  rw [List.Nodup, List.pairwise_map] at hnd'
  refine (List.Pairwise.and hsorted hnd').imp ?_
  rintro a b ⟨hle, hne⟩
  rcases (lessOfValues_eq_true_iff _ _).1 hle with h | h
  · exact absurd h hne
  · exact h

/-- C36: the check `sort.IsSorted` passes, that is `Less(i, i-1)` is false
for every `i > 0`, exactly for the lists whose values are strictly ascending.
For a list in which two tickets have the same value, no arrangement passes:
every permutation has an index `i > 0` with `Less(i, i-1)` true. For a list
whose values are pairwise distinct exactly one arrangement passes, the
strictly ascending one. -/
theorem sortIsSorted_arrangements (ts : Tickets) :
    (sortIsSorted ts = some true ↔
      ∀ i, 0 < i → i < ts.length → ts.Less i (i - 1) = some false) ∧
    (sortIsSorted ts = some true ↔ (ts.map Ticket.Value).Pairwise bytewiseLT) ∧
    (¬ (ts.map Ticket.Value).Nodup →
      ∀ ts' : Tickets, ts'.Perm ts →
        sortIsSorted ts' = some false ∧
        ∃ i, 0 < i ∧ i < ts'.length ∧ ts'.Less i (i - 1) = some true) ∧
    ((ts.map Ticket.Value).Nodup →
      ∃ ts' : Tickets, ts'.Perm ts ∧ sortIsSorted ts' = some true ∧
        (ts'.map Ticket.Value).Pairwise bytewiseLT ∧
        ∀ ts'' : Tickets, ts''.Perm ts → sortIsSorted ts'' = some true → ts'' = ts') := by
  refine ⟨sortIsSorted_iff_Less ts, (sortIsSorted_spec ts).2, ?_, ?_⟩
  · intro hdup ts' hperm
    have hnot : sortIsSorted ts' ≠ some true := by
      intro h
      have hpw := (sortIsSorted_spec ts').2.1 h
      have hnd : (ts'.map Ticket.Value).Nodup := by
        unfold List.Nodup
        refine hpw.imp ?_
        intro a b hlt heq
        rw [heq] at hlt
        exact bytewiseLT_irrefl _ hlt
      exact hdup ((hperm.map Ticket.Value).nodup_iff.1 hnd)
    have hfalse : sortIsSorted ts' = some false := by
      rcases (sortIsSorted_spec ts').1 with h | h
      · exact absurd h hnot
      · exact h
    refine ⟨hfalse, ?_⟩
    by_contra hno
    apply hnot
    rw [sortIsSorted_iff_Less]
    intro i h0 hi
    rw [Less_eq_some_val ts' i (i - 1) hi (by omega)]
    cases hl : lessOfValues (val ts' i) (val ts' (i - 1)) with
    | false => rfl
    | true =>
      exfalso
      apply hno
      refine ⟨i, h0, hi, ?_⟩
      rw [Less_eq_some_val ts' i (i - 1) hi (by omega), hl]
  · intro hnd
    obtain ⟨ts', hperm, hpw⟩ := exists_strictly_ascending ts hnd
    refine ⟨ts', hperm, (sortIsSorted_spec ts').2.2 hpw, hpw, ?_⟩
    intro ts'' hperm'' hsorted
    exact strictly_ascending_unique ts'' ts' (hperm''.trans hperm.symm)
      ((sortIsSorted_spec ts'').2.1 hsorted) hpw

/-- Examples of the check: the two tickets with distinct values pass in
ascending order only, the two tickets with the same value in neither order. -/
theorem sortIsSorted_examples :
    sortIsSorted [ticketA, ticketB] = some true ∧
    sortIsSorted [ticketB, ticketA] = some false ∧
    sortIsSorted [ticketA, ticketC] = some false ∧
    sortIsSorted [ticketC, ticketA] = some false ∧
    sortIsSorted [] = some true := by
  decide

end Sorting

end Membership
